import Mathlib

/-!
# cyphergoat-cli: quote normalisation and price service

A shallow embedding of `api/api.go` (`populateEstimates`, `FetchEstimateFromAPI`) and
`api/price.go` (`PriceService`), with the parts of the Go standard library they call
(`slices.SortFunc`, `strings.ToLower`, `time.Since`), and theorems about them.

Conventions of the embedding:

* a `float64` is a value of `F64` (not-a-number, signed infinity, or a signed
  mantissa with a binary exponent); comparison and multiplication follow IEEE 754;
* a slice being sorted in place is a list handed from step to step, read with `el`
  and written by the exchange `swap`;
* a `time.Time` is a number of nanoseconds, a `time.Duration` a 64-bit number of
  nanoseconds;
* everything outside the process (the clock, scheduling delays, the price
  provider) is a `World` value threaded through the operations.
-/

namespace CypherGoat

/-! ## float64 -/

/-- A float64 value: not-a-number, a signed infinity, or the finite value
`(-1)^neg * m * 2^e`. -/
inductive F64 where
  | nan : F64
  | inf (neg : Bool) : F64
  | fin (neg : Bool) (m : Nat) (e : Int) : F64
  deriving DecidableEq, Repr, Inhabited

namespace F64

/-- The signed mantissa of `(-1)^neg * m * 2^e` once rescaled to the exponent `e0 ≤ e`. -/
def scaled (neg : Bool) (m : Nat) (e e0 : Int) : Int :=
  if neg then -((m : Int) * 2 ^ (e - e0).toNat) else (m : Int) * 2 ^ (e - e0).toNat

/-- Go's `x < y` on float64: false as soon as one side is NaN. -/
def lt : F64 → F64 → Bool
  | nan, _ => false
  | _, nan => false
  | inf n1, inf n2 => n1 && !n2
  | inf n1, fin _ _ _ => n1
  | fin _ _ _, inf n2 => !n2
  | fin n1 m1 e1, fin n2 m2 e2 =>
    decide (scaled n1 m1 e1 (min e1 e2) < scaled n2 m2 e2 (min e1 e2))

/-- Go's `x > y` on float64. -/
def gt (x y : F64) : Bool := lt y x

/-- Go's `x == y` on float64: equality of values, so `+0 == -0` and NaN equals nothing. -/
def eq : F64 → F64 → Bool
  | nan, _ => false
  | _, nan => false
  | inf n1, inf n2 => n1 == n2
  | inf _, fin _ _ _ => false
  | fin _ _ _, inf _ => false
  | fin n1 m1 e1, fin n2 m2 e2 =>
    decide (scaled n1 m1 e1 (min e1 e2) = scaled n2 m2 e2 (min e1 e2))

/-- Go's `x >= y` on float64. -/
def ge (x y : F64) : Bool := gt x y || eq x y

def isNaN : F64 → Bool
  | nan => true
  | _ => false

def isFinite : F64 → Bool
  | fin _ _ _ => true
  | _ => false

/-- Number of binary digits of `m` (`bits.Len`). -/
def bitLen (m : Nat) : Nat := if m = 0 then 0 else Nat.log2 m + 1

/-- Round the exact value `(-1)^neg * m * 2^e` to the nearest float64, ties to even:
53 significant bits, least exponent `-1074`, overflow to infinity. -/
def round (neg : Bool) (m : Nat) (e : Int) : F64 :=
  if m = 0 then fin neg 0 0
  else
    let drop : Nat := max (bitLen m - 53) (-1074 - e).toNat
    let q := m / 2 ^ drop
    let r := m % 2 ^ drop
    let up : Bool := decide (2 ^ drop < 2 * r) || (decide (2 * r = 2 ^ drop) && decide (q % 2 = 1))
    let q1 := if up then q + 1 else q
    let e1 : Int := e + drop
    if (bitLen q1 : Int) + e1 > 1024 then inf neg else fin neg q1 e1

/-- Go's `x * y` on float64. -/
def mul : F64 → F64 → F64
  | nan, _ => nan
  | _, nan => nan
  | inf n1, inf n2 => inf (xor n1 n2)
  | inf n1, fin n2 m2 _ => if m2 = 0 then nan else inf (xor n1 n2)
  | fin n1 m1 _, inf n2 => if m1 = 0 then nan else inf (xor n1 n2)
  | fin n1 m1 e1, fin n2 m2 e2 => round (xor n1 n2) (m1 * m2) (e1 + e2)

/-- The float64 constant `0`. -/
def zero : F64 := fin false 0 0

/-- The float64 constant `1.0`. -/
def one : F64 := fin false 1 0

end F64

/-! ## `slices.SortFunc` (Go standard library, pattern-defeating quicksort) -/

section Sorting

variable {E : Type} [Inhabited E]

/-- The element `data[i]`. -/
def el (data : List E) (i : Nat) : E := data.getD i default

/-- The exchange `data[i], data[j] = data[j], data[i]`. -/
def swap (data : List E) (i j : Nat) : List E :=
  (data.set i (el data j)).set j (el data i)

/-- Inner loop of the insertion sort:
`for j := i; j > a && cmp(data[j], data[j-1]) < 0; j-- { swap j, j-1 }`. -/
def insertionSortInner (cmp : E → E → Int) (a : Nat) : Nat → List E → List E
  | 0, data => data
  | j + 1, data =>
    if a < j + 1 ∧ cmp (el data (j + 1)) (el data j) < 0 then
      insertionSortInner cmp a j (swap data (j + 1) j)
    else data

/-- Outer loop of the insertion sort, `count` iterations starting at `i`. -/
def insertionSortLoop (cmp : E → E → Int) (a : Nat) : Nat → Nat → List E → List E
  | 0, _, data => data
  | count + 1, i, data =>
    insertionSortLoop cmp a count (i + 1) (insertionSortInner cmp a i data)

/-- Function `insertionSortCmpFunc` sorts `data[a:b]` by insertion:
`for i := a + 1; i < b; i++ { ... }`. -/
def insertionSortCmpFunc (cmp : E → E → Int) (data : List E) (a b : Nat) : List E :=
  insertionSortLoop cmp a (b - (a + 1)) (a + 1) data

/-- Function `siftDownCmpFunc`: restore the heap property of `data[first+lo : first+hi]`
below `lo`. The loop runs at most `fuel` times; `hi` always suffices, as the root
index grows at each iteration. -/
def siftDownCmpFunc (cmp : E → E → Int) (hi first : Nat) : Nat → Nat → List E → List E
  | 0, _, data => data
  | fuel + 1, root, data =>
    let child := 2 * root + 1
    if child ≥ hi then data
    else
      let child :=
        if child + 1 < hi ∧ cmp (el data (first + child)) (el data (first + child + 1)) < 0 then
          child + 1
        else child
      if ¬ (cmp (el data (first + root)) (el data (first + child)) < 0) then data
      else siftDownCmpFunc cmp hi first fuel child (swap data (first + root) (first + child))

/-- First loop of the heap sort: `for i := (hi - 1) / 2; i >= 0; i-- { siftDown(i, hi) }`,
here for `i = k, k - 1, ..., 0`. -/
def heapBuild (cmp : E → E → Int) (hi first : Nat) : Nat → List E → List E
  | 0, data => siftDownCmpFunc cmp hi first hi 0 data
  | i + 1, data => heapBuild cmp hi first i (siftDownCmpFunc cmp hi first hi (i + 1) data)

/-- Second loop of the heap sort: `for i := hi - 1; i >= 0; i-- { swap first, first+i;
siftDown(lo, i) }`, here with `n = i + 1` counting down to `0`. -/
def heapPop (cmp : E → E → Int) (first : Nat) : Nat → List E → List E
  | 0, data => data
  | i + 1, data =>
    heapPop cmp first i (siftDownCmpFunc cmp i first i 0 (swap data first (first + i)))

/-- Function `heapSortCmpFunc` sorts `data[a:b]` with a heap. -/
def heapSortCmpFunc (cmp : E → E → Int) (data : List E) (a b : Nat) : List E :=
  let first := a
  let hi := b - a
  heapPop cmp first hi (heapBuild cmp hi first ((hi - 1) / 2) data)

/-- Hint for the pivot choice. -/
inductive sortedHint where
  | unknownHint
  | increasingHint
  | decreasingHint
  deriving DecidableEq, Repr

/-- One step of the `xorshift` generator on 64-bit words. -/
def xorshiftNext (r : Nat) : Nat :=
  let r := Nat.xor r ((r * 2 ^ 13) % 2 ^ 64)
  let r := Nat.xor r (r / 2 ^ 7)
  Nat.xor r ((r * 2 ^ 17) % 2 ^ 64)

/-- Function `bits.Len`: the number of bits needed to write `n`. -/
def bitsLen (n : Nat) : Nat := if n = 0 then 0 else Nat.log2 n + 1

/-- Function `nextPowerOfTwo`: `1 << bits.Len(uint(length))`. -/
def nextPowerOfTwo (length : Nat) : Nat := 2 ^ bitsLen length

/-- The three exchanges of `breakPatternsCmpFunc`, for `i = 3 - count, ..., 2`. -/
def breakPatternsLoop (a length idx modulus : Nat) : Nat → Nat → Nat → List E → List E
  | 0, _, _, data => data
  | count + 1, i, random, data =>
    let random := xorshiftNext random
    let other := random % modulus
    let other := if other ≥ length then other - length else other
    breakPatternsLoop a length idx modulus count (i + 1) random
      (swap data (idx - 1 + i) (a + other))

/-- Function `breakPatternsCmpFunc` scatters three elements of `data[a:b]`. -/
def breakPatternsCmpFunc (data : List E) (a b : Nat) : List E :=
  let length := b - a
  if length ≥ 8 then
    breakPatternsLoop a length (a + (length / 4) * 2 - 1) (nextPowerOfTwo length) 3 0 length data
  else data

/-- Function `order2CmpFunc` returns `x, y` with `data[x] <= data[y]` among `a, b`,
counting the exchange. -/
def order2CmpFunc (cmp : E → E → Int) (data : List E) (a b swaps : Nat) : Nat × Nat × Nat :=
  if cmp (el data b) (el data a) < 0 then (b, a, swaps + 1) else (a, b, swaps)

/-- Function `medianCmpFunc` returns the index of the median of `data[a], data[b], data[c]`. -/
def medianCmpFunc (cmp : E → E → Int) (data : List E) (a b c swaps : Nat) : Nat × Nat :=
  let (a, b, swaps) := order2CmpFunc cmp data a b swaps
  let (b, _, swaps) := order2CmpFunc cmp data b c swaps
  let (_, b, swaps) := order2CmpFunc cmp data a b swaps
  (b, swaps)

/-- Function `medianAdjacentCmpFunc`: the median of `data[a-1], data[a], data[a+1]`. -/
def medianAdjacentCmpFunc (cmp : E → E → Int) (data : List E) (a swaps : Nat) : Nat × Nat :=
  medianCmpFunc cmp data (a - 1) a (a + 1) swaps

/-- Function `choosePivotCmpFunc` chooses a pivot in `data[a:b]`. -/
def choosePivotCmpFunc (cmp : E → E → Int) (data : List E) (a b : Nat) : Nat × sortedHint :=
  let l := b - a
  let i := a + l / 4 * 1
  let j := a + l / 4 * 2
  let k := a + l / 4 * 3
  let (j, swaps) :=
    if l ≥ 8 then
      if l ≥ 50 then
        let (i, swaps) := medianAdjacentCmpFunc cmp data i 0
        let (j, swaps) := medianAdjacentCmpFunc cmp data j swaps
        let (k, swaps) := medianAdjacentCmpFunc cmp data k swaps
        medianCmpFunc cmp data i j k swaps
      else medianCmpFunc cmp data i j k 0
    else (j, 0)
  if swaps = 0 then (j, sortedHint.increasingHint)
  else if swaps = 12 then (j, sortedHint.decreasingHint)
  else (j, sortedHint.unknownHint)

/-- Loop of `reverseRangeCmpFunc`: `for i < j { swap i, j; i++; j-- }`. -/
def reverseRangeLoop : Nat → Nat → Nat → List E → List E
  | 0, _, _, data => data
  | fuel + 1, i, j, data =>
    if i < j then reverseRangeLoop fuel (i + 1) (j - 1) (swap data i j) else data

/-- Function `reverseRangeCmpFunc` reverses `data[a:b]`. -/
def reverseRangeCmpFunc (data : List E) (a b : Nat) : List E :=
  reverseRangeLoop (b - a) a (b - 1) data

/-- The scan `for i <= j && p(i) { i++ }`, with `count = j + 1 - i`. -/
def scanUp (p : Nat → Bool) : Nat → Nat → Nat
  | 0, i => i
  | count + 1, i => if p i then scanUp p count (i + 1) else i

/-- The scan `for i <= j && p(j) { j-- }`, with `count = j + 1 - i`. -/
def scanDown (p : Nat → Bool) : Nat → Nat → Nat
  | 0, j => j
  | count + 1, j => if p j then scanDown p count (j - 1) else j

/-- Main loop of `partitionCmpFunc` and of `partitionEqualCmpFunc`:
`for { scan i up while pUp; scan j down while pDown; if i > j { break }; swap i, j;
i++; j-- }`. Every iteration that does not break removes two elements from those
left to partition, so `fuel` at least their number is never exhausted before the
break. The result is the `i`, `j` and `data` at the break. -/
def partitionLoop (pUp pDown : List E → Nat → Bool) :
    Nat → Nat → Nat → List E → Nat × Nat × List E
  | 0, i, j, data => (i, j, data)
  | fuel + 1, i, j, data =>
    let i := scanUp (pUp data) (j + 1 - i) i
    let j := scanDown (pDown data) (j + 1 - i) j
    if i > j then (i, j, data)
    else partitionLoop pUp pDown fuel (i + 1) (j - 1) (swap data i j)

/-- Function `partitionCmpFunc` does one quicksort partition around `p = data[pivot]`:
on return `data[i] < p` for `i < newpivot`, `data[j] >= p` for `j > newpivot` and
`data[newpivot] = p`. The result is the data, the new pivot index and whether the
range was already partitioned. -/
def partitionCmpFunc (cmp : E → E → Int) (data : List E) (a b pivot : Nat) :
    List E × Nat × Bool :=
  let data := swap data a pivot
  let i := a + 1
  let j := b - 1
  let i := scanUp (fun i => decide (cmp (el data i) (el data a) < 0)) (j + 1 - i) i
  let j := scanDown (fun j => !decide (cmp (el data j) (el data a) < 0)) (j + 1 - i) j
  if i > j then (swap data j a, j, true)
  else
    let data := swap data i j
    let r := partitionLoop (fun d i => decide (cmp (el d i) (el d a) < 0))
      (fun d j => !decide (cmp (el d j) (el d a) < 0)) (b - a) (i + 1) (j - 1) data
    (swap r.2.2 r.2.1 a, r.2.1, false)

/-- Function `partitionEqualCmpFunc` partitions `data[a:b]` into the elements equal to
`data[pivot]` followed by the elements greater than it; the result is the data and
the index of the first greater element. -/
def partitionEqualCmpFunc (cmp : E → E → Int) (data : List E) (a b pivot : Nat) :
    List E × Nat :=
  let data := swap data a pivot
  let r := partitionLoop (fun d i => !decide (cmp (el d a) (el d i) < 0))
    (fun d j => decide (cmp (el d a) (el d j) < 0)) (b - a) (a + 1) (b - 1) data
  (r.2.2, r.1)

/-- Loop `for j := i - 1; j >= 1; j-- { if !(data[j] < data[j-1]) { break }; swap j, j-1 }`
of `partialInsertionSortCmpFunc`, from `j` down. -/
def shiftLeft (cmp : E → E → Int) : Nat → List E → List E
  | 0, data => data
  | j + 1, data =>
    if ¬ (cmp (el data (j + 1)) (el data j) < 0) then data
    else shiftLeft cmp j (swap data (j + 1) j)

/-- Loop `for j := i + 1; j < b; j++ { if !(data[j] < data[j-1]) { break }; swap j, j-1 }`
of `partialInsertionSortCmpFunc`, `count = b - j` iterations at most. -/
def shiftRight (cmp : E → E → Int) : Nat → Nat → List E → List E
  | 0, _, data => data
  | count + 1, j, data =>
    if ¬ (cmp (el data j) (el data (j - 1)) < 0) then data
    else shiftRight cmp count (j + 1) (swap data j (j - 1))

/-- The `maxSteps` iterations of `partialInsertionSortCmpFunc`. -/
def partialInsertionSortLoop (cmp : E → E → Int) (a b : Nat) :
    Nat → Nat → List E → List E × Bool
  | 0, _, data => (data, false)
  | steps + 1, i, data =>
    let i := scanUp (fun i => !decide (cmp (el data i) (el data (i - 1)) < 0)) (b - i) i
    if i = b then (data, true)
    else if b - a < 50 then (data, false)
    else
      let data := swap data i (i - 1)
      let data := if i - a ≥ 2 then shiftLeft cmp (i - 1) data else data
      let data := if b - i ≥ 2 then shiftRight cmp (b - (i + 1)) (i + 1) data else data
      partialInsertionSortLoop cmp a b steps i data

/-- Function `partialInsertionSortCmpFunc` partially sorts `data[a:b]` and tells whether
the range is sorted at the end. -/
def partialInsertionSortCmpFunc (cmp : E → E → Int) (data : List E) (a b : Nat) :
    List E × Bool :=
  partialInsertionSortLoop cmp a b 5 (a + 1) data

/-- The body of the loop of `pdqsortCmpFunc` from `breakPatternsCmpFunc` to
`partialInsertionSortCmpFunc`, for a range of more than 12 elements and a positive
`limit`. The result is the data, whether `partialInsertionSortCmpFunc` has found the
range sorted, the pivot and the limit. -/
def pdqsortPrepare (cmp : E → E → Int) (data : List E) (a b limit : Nat)
    (wasBalanced wasPartitioned : Bool) : List E × Bool × Nat × Nat :=
  let data := if wasBalanced then data else breakPatternsCmpFunc data a b
  let limit := if wasBalanced then limit else limit - 1
  let ph := choosePivotCmpFunc cmp data a b
  let decreasing : Bool := decide (ph.2 = sortedHint.decreasingHint)
  let data := if decreasing then reverseRangeCmpFunc data a b else data
  let pivot := if decreasing then (b - 1) - (ph.1 - a) else ph.1
  let hint := if decreasing then sortedHint.increasingHint else ph.2
  if wasBalanced ∧ wasPartitioned ∧ hint = sortedHint.increasingHint then
    ((partialInsertionSortCmpFunc cmp data a b).1,
      (partialInsertionSortCmpFunc cmp data a b).2, pivot, limit)
  else (data, false, pivot, limit)

/-- Function `pdqsortCmpFunc` sorts `data[a:b]`. One unit of `fuel` is used by each
iteration of its loop and by each recursive call; `none` when it runs out. -/
def pdqsortCmpFunc (cmp : E → E → Int) :
    Nat → List E → Nat → Nat → Nat → Bool → Bool → Option (List E)
  | 0, _, _, _, _, _, _ => none
  | fuel + 1, data, a, b, limit, wasBalanced, wasPartitioned =>
    let length := b - a
    if length ≤ 12 then some (insertionSortCmpFunc cmp data a b)
    else if limit = 0 then some (heapSortCmpFunc cmp data a b)
    else
      let pre := pdqsortPrepare cmp data a b limit wasBalanced wasPartitioned
      let data := pre.1
      let pivot := pre.2.2.1
      let limit := pre.2.2.2
      if pre.2.1 then some data
      else if a > 0 ∧ ¬ (cmp (el data (a - 1)) (el data pivot) < 0) then
        let pe := partitionEqualCmpFunc cmp data a b pivot
        pdqsortCmpFunc cmp fuel pe.1 pe.2 b limit wasBalanced wasPartitioned
      else
        let pt := partitionCmpFunc cmp data a b pivot
        let data := pt.1
        let mid := pt.2.1
        let leftLen := mid - a
        let rightLen := b - mid
        let balanceThreshold := length / 8
        if leftLen < rightLen then
          match pdqsortCmpFunc cmp fuel data a mid limit true true with
          | none => none
          | some data =>
            pdqsortCmpFunc cmp fuel data (mid + 1) b limit
              (decide (leftLen ≥ balanceThreshold)) pt.2.2
        else
          match pdqsortCmpFunc cmp fuel data (mid + 1) b limit true true with
          | none => none
          | some data =>
            pdqsortCmpFunc cmp fuel data a mid limit
              (decide (rightLen ≥ balanceThreshold)) pt.2.2

/-- Function `slices.SortFunc` sorts the slice `x` in ascending order as determined by
`cmp`: `pdqsortCmpFunc(x, 0, n, bits.Len(uint(n)), cmp)`. Each pass through the loop
of `pdqsortCmpFunc` shortens the range, so `n + 1` units of fuel are enough
(`pdqsortCmpFunc_rearr`). -/
def SortFunc (x : List E) (cmp : E → E → Int) : List E :=
  match pdqsortCmpFunc cmp (x.length + 1) x 0 x.length (bitsLen x.length) true true with
  | some data => data
  | none => x

end Sorting

/-! ## Quotes (`api/api.go`) -/

/-- One exchange's quote, `type Estimate struct`. -/
structure Estimate where
  ExchangeName : String
  ReceiveAmount : F64
  MinAmount : F64
  KYCScore : Int
  Network1 : String
  Network2 : String
  Coin1 : String
  Coin2 : String
  SendAmount : F64
  Address : String
  ImageURL : String
  TradeValueUSD : F64
  deriving DecidableEq, Repr, Inhabited

/-- The comparison handed to `slices.SortFunc` by `populateEstimates`. -/
def cmpEstimate (a b : Estimate) : Int :=
  if F64.gt a.ReceiveAmount b.ReceiveAmount then -1
  else if F64.lt a.ReceiveAmount b.ReceiveAmount then 1
  else 0

/-- Body of the loop `for i := range estimates` of `populateEstimates`. -/
def stamp (coin1 coin2 : String) (amount : F64) (network1 network2 : String)
    (coin2USDPrice : F64) (e : Estimate) : Estimate :=
  { e with
    Coin1 := coin1
    Coin2 := coin2
    SendAmount := amount
    Network1 := network1
    Network2 := network2
    TradeValueUSD := F64.mul e.ReceiveAmount coin2USDPrice }

/-- Function `populateEstimates`. -/
def populateEstimates (estimates : List Estimate) (coin1 coin2 : String) (amount : F64)
    (network1 network2 : String) (coin2USDPrice : F64) : List Estimate :=
  SortFunc (estimates.map (stamp coin1 coin2 amount network1 network2 coin2USDPrice))
    cmpEstimate

/-! ## Time (`time.Time`, `time.Duration`) -/

/-! A `time.Time` is an integer, the nanoseconds elapsed since the zero `time.Time`; a
`time.Duration` is an integer in the 64-bit range, a count of nanoseconds. -/

def minDuration : Int := -(2 ^ 63)

def maxDuration : Int := 2 ^ 63 - 1

/-- Method `Time.Sub`: the duration `t - u`, or the largest (smallest) duration when
`t - u` exceeds it. `time.Since(u)` is `time.Now().Sub(u)`. -/
def Sub (t u : Int) : Int :=
  if t - u > maxDuration then maxDuration
  else if t - u < minDuration then minDuration
  else t - u

/-- The value a 64-bit signed computation yields for the exact result `x`. -/
def wrap64 (x : Int) : Int := (x + 2 ^ 63) % 2 ^ 64 - 2 ^ 63

/-- Constant `cacheDuration = 5 * time.Minute`. -/
def cacheDuration : Int := 5 * (60 * 1000000000)

/-- Constant `rateLimitDelay = 100 * time.Millisecond`. -/
def rateLimitDelay : Int := 100 * 1000000

/-! ## The world outside the process -/

/-- What one attempt to query the price provider comes to: the request cannot be
built (`http.NewRequestWithContext` fails), the transport fails (`client.Do` fails,
which covers a cancelled context and the client's timeout), or a response arrives
with a status code and a body. The body is given as `json.Decoder.Decode` reads it
into a `map[string]map[string]float64`: `none` when decoding fails. -/
inductive HTTPResult where
  | createError
  | transportError
  | response (status : Int) (body : Option (List (String × List (String × F64))))
  deriving DecidableEq, Repr

/-- What an execution leaves behind: a pass through the rate limiter, stamped with the
time written to `lastCall`, and a GET sent to the provider. -/
inductive Event where
  | pass (t : Int)
  | get (url : String)
  deriving DecidableEq, Repr

/-- The world: the clock, the time that goes by before each of the next clock
readings and wake-ups, the outcomes of the next queries to the provider, and the
events so far, most recent first. -/
structure World where
  clock : Int
  delays : List Nat
  responses : List HTTPResult
  log : List Event
  deriving DecidableEq, Repr

namespace World

/-- Function `time.Now`: some time goes by, then the clock is read. -/
def now (w : World) : Int × World :=
  let t := w.clock + (w.delays.headD 0 : Nat)
  (t, { w with clock := t, delays := w.delays.tail })

/-- Function `time.Sleep`: returns at once for `d ≤ 0`, otherwise after `d` at least. -/
def sleep (w : World) (d : Int) : World :=
  if d ≤ 0 then w
  else { w with clock := w.clock + d + (w.delays.headD 0 : Nat), delays := w.delays.tail }

/-- The outcome of the next query to the provider; the transport fails once the
listed outcomes are used up. -/
def nextResponse (w : World) : HTTPResult × World :=
  (w.responses.headD HTTPResult.transportError, { w with responses := w.responses.tail })

def record (w : World) (e : Event) : World := { w with log := e :: w.log }

end World

/-! ## `strings.ToLower` -/

/-- Function `strings.ToLower`: a string of ASCII bytes has its letters `A` to `Z`
replaced; any other string is mapped rune by rune through the Unicode tables, here
the function `uni`. -/
def ToLower (uni : String → String) (s : String) : String :=
  if s.data.all (fun c => decide (c.toNat < 128)) then String.mk (s.data.map Char.toLower)
  else uni s

/-! ## The price service (`api/price.go`) -/

/-- Constant `coinGeckoURL`. -/
def coinGeckoURL : String := "https://api.coingecko.com/api/v3/simple/price"

structure PriceCache where
  price : F64
  timestamp : Int
  deriving DecidableEq, Repr

/-- A `PriceService`. The map `cache` is a list of keys with their entries, a key
standing for its first occurrence; the HTTP client and the lock have no state of
their own in a sequential execution. -/
structure PriceService where
  baseURL : String
  cache : List (String × PriceCache)
  lastCall : Int
  deriving DecidableEq, Repr

/-- Function `NewPriceServiceWithURL`: empty cache, zero `lastCall`. -/
def NewPriceServiceWithURL (baseURL : String) : PriceService :=
  { baseURL := baseURL, cache := [], lastCall := 0 }

/-- Function `NewPriceService`. -/
def NewPriceService : PriceService := NewPriceServiceWithURL coinGeckoURL

/-- Table `coinIDMap`: ticker to provider identifier. -/
def coinIDMap : List (String × String) :=
  [("btc", "bitcoin"), ("eth", "ethereum"), ("sol", "solana"), ("bnb", "binancecoin"),
   ("xmr", "monero"), ("arrr", "pirate-chain"), ("zec", "zcash"), ("dero", "dero"),
   ("wow", "wownero"), ("firo", "zcoin"), ("zano", "zano"), ("dash", "dash"),
   ("bdx", "beldex"), ("ban", "banano"), ("ltc", "litecoin"), ("bch", "bitcoin-cash"),
   ("doge", "dogecoin"), ("dot", "polkadot"), ("link", "chainlink"),
   ("avax", "avalanche-2"), ("matic", "matic-network"), ("uni", "uniswap"),
   ("shib", "shiba-inu"), ("etc", "ethereum-classic"), ("hbar", "hedera-hashgraph"),
   ("xtz", "tezos"), ("ada", "cardano"), ("xrp", "binance-peg-xrp"), ("trx", "tron"),
   ("atom", "cosmos"), ("near", "near"), ("apt", "aptos"), ("sui", "sui"),
   ("dcr", "decred"), ("aave", "aave"), ("bat", "basic-attention-token"),
   ("paxg", "pax-gold"), ("hive", "hive"), ("zen", "horizen"), ("scrt", "secret"),
   ("leo", "leo-token"), ("tusd", "true-usd"), ("gusd", "gemini-dollar"),
   ("nvdax", "nvidia-xstock")]

/-- Table `stablecoinMap`. -/
def stablecoinMap : List (String × Bool) :=
  [("usdt", true), ("usdc", true), ("dai", true), ("busd", true), ("tusd", true),
   ("gusd", true), ("fusd", true), ("usdd", true), ("crv", false)]

/-- The map index `stablecoinMap[coin]`: `false` for a missing key. -/
def isStable (coin : String) : Bool := (stablecoinMap.lookup coin).getD false

/-- Function `getCoinGeckoID`: `coinIDMap[strings.ToLower(coin)]`, the empty string for a
missing key. -/
def getCoinGeckoID (uni : String → String) (coin : String) : String :=
  (coinIDMap.lookup (ToLower uni coin)).getD ""

/-- Function `IsStablecoin`. -/
def IsStablecoin (uni : String → String) (coin : String) : Bool :=
  isStable (ToLower uni coin)

/-- The errors of the price service, one for each `fmt.Errorf`. -/
inductive PriceError where
  | unknownCoin (coin : String)
  | createRequest
  | requestFailed
  | rateLimitExceeded
  | apiStatus (code : Int)
  | parseResponse
  | priceNotFound (coinID : String)
  deriving DecidableEq, Repr

deriving instance DecidableEq for Except

/-- The length `len(m)` of a map: the number of its keys. -/
def mapLen {β : Type} (m : List (String × β)) : Nat := (m.map Prod.fst).dedup.length

namespace PriceService

/-- Method `getCachedPrice`. The clock is read only when the key is present. -/
def getCachedPrice (s : PriceService) (w : World) (coin : String) : (F64 × Bool) × World :=
  match s.cache.lookup coin with
  | none => ((F64.zero, false), w)
  | some cache =>
    let tw := w.now
    if Sub tw.1 cache.timestamp < cacheDuration then ((cache.price, true), tw.2)
    else ((F64.zero, false), tw.2)

/-- The map assignment `s.cache[coin] = entry`. -/
def cacheSet (cache : List (String × PriceCache)) (coin : String) (entry : PriceCache) :
    List (String × PriceCache) :=
  (coin, entry) :: cache.filter (fun p => p.1 != coin)

/-- Method `cachePrice`. -/
def cachePrice (s : PriceService) (w : World) (coin : String) (price : F64) :
    PriceService × World :=
  let tw := w.now
  ({ s with cache := cacheSet s.cache coin { price := price, timestamp := tw.1 } }, tw.2)

/-- Method `rateLimit`. -/
def rateLimit (s : PriceService) (w : World) : PriceService × World :=
  let tw := w.now
  let elapsed := Sub tw.1 s.lastCall
  let w1 := if elapsed < rateLimitDelay then tw.2.sleep (wrap64 (rateLimitDelay - elapsed))
    else tw.2
  let tw2 := w1.now
  ({ s with lastCall := tw2.1 }, tw2.2.record (Event.pass tw2.1))

/-- The request URL of `fetchFromCoinGecko`: `"%s?ids=%s&vs_currencies=usd"`. -/
def priceURL (baseURL coinID : String) : String :=
  baseURL ++ "?ids=" ++ coinID ++ "&vs_currencies=usd"

/-- Method `fetchFromCoinGecko`. -/
def fetchFromCoinGecko (s : PriceService) (w : World) (coinID : String) :
    Except PriceError F64 × World :=
  let url := priceURL s.baseURL coinID
  let rw := w.nextResponse
  match rw.1 with
  | HTTPResult.createError => (Except.error PriceError.createRequest, rw.2)
  | HTTPResult.transportError =>
    (Except.error PriceError.requestFailed, rw.2.record (Event.get url))
  | HTTPResult.response status body =>
    let w1 := rw.2.record (Event.get url)
    if status ≠ 200 then
      if status = 429 then (Except.error PriceError.rateLimitExceeded, w1)
      else (Except.error (PriceError.apiStatus status), w1)
    else
      match body with
      | none => (Except.error PriceError.parseResponse, w1)
      | some result =>
        match result.lookup coinID with
        | none => (Except.error (PriceError.priceNotFound coinID), w1)
        | some data =>
          match data.lookup "usd" with
          | none => (Except.error (PriceError.priceNotFound coinID), w1)
          | some price => (Except.ok price, w1)

/-- Method `GetPrice`. -/
def GetPrice (uni : String → String) (s : PriceService) (w : World) (coin : String) :
    Except PriceError F64 × PriceService × World :=
  let coinLower := ToLower uni coin
  if isStable coinLower then (Except.ok F64.one, s, w)
  else
    let cw := s.getCachedPrice w coinLower
    if cw.1.2 then (Except.ok cw.1.1, s, cw.2)
    else
      let sw := s.rateLimit cw.2
      let coinID := getCoinGeckoID uni coinLower
      if coinID = "" then (Except.error (PriceError.unknownCoin coin), sw.1, sw.2)
      else
        let pw := sw.1.fetchFromCoinGecko sw.2 coinID
        match pw.1 with
        | Except.error err => (Except.error err, sw.1, pw.2)
        | Except.ok price =>
          let sw2 := sw.1.cachePrice pw.2 coinLower price
          (Except.ok price, sw2.1, sw2.2)

/-- Method `ClearCache`. -/
def ClearCache (s : PriceService) : PriceService := { s with cache := [] }

/-- The map assignment `prices[coin] = price`. -/
def priceSet (prices : List (String × F64)) (coin : String) (price : F64) :
    List (String × F64) :=
  (coin, price) :: prices.filter (fun p => p.1 != coin)

/-- The loop of `GetPrices`: the coins left, then `prices`, `errors`, the service and the
world. An error is kept with its coin, as `fmt.Errorf("%s: %w", coin, err)` wraps it. -/
def getPricesLoop (uni : String → String) :
    List String → List (String × F64) → List (String × PriceError) → PriceService → World →
      (List (String × F64) × List (String × PriceError)) × PriceService × World
  | [], prices, errors, s, w => ((prices, errors), s, w)
  | coin :: coins, prices, errors, s, w =>
    let r := s.GetPrice uni w coin
    match r.1 with
    | Except.error err => getPricesLoop uni coins prices (errors ++ [(coin, err)]) r.2.1 r.2.2
    | Except.ok price => getPricesLoop uni coins (priceSet prices coin price) errors r.2.1 r.2.2

/-- Method `GetPrices`. The error holds the list `errors` that the message prints. -/
def GetPrices (uni : String → String) (s : PriceService) (w : World) (coins : List String) :
    Except (List (String × PriceError)) (List (String × F64)) × PriceService × World :=
  let r := getPricesLoop uni coins [] [] s w
  if r.1.2.length > 0 ∧ mapLen r.1.1 = 0 then (Except.error r.1.2, r.2.1, r.2.2)
  else (Except.ok r.1.1, r.2.1, r.2.2)

/-- Method `CacheSize`. -/
def CacheSize (s : PriceService) : Nat := mapLen s.cache

end PriceService

/-! ## Fetching estimates (`api/api.go`) -/

/-- What the request to the aggregator comes to in `FetchEstimateFromAPI`:
`SendRequestWithContext` fails, `json.Unmarshal` fails, or the reply decodes and
holds the quotes `Rates.Results`. -/
inductive APIReply where
  | requestFailed
  | unmarshalFailed
  | results (estimates : List Estimate)
  deriving DecidableEq, Repr

inductive FetchError where
  | fetchEstimate
  | unmarshalEstimate
  deriving DecidableEq, Repr

/-- Function `FetchEstimateFromAPI`, the reply of the aggregator being `reply`. -/
def FetchEstimateFromAPI (uni : String → String) (w : World) (reply : APIReply)
    (coin1 coin2 : String) (amount : F64) (_best : Bool) (network1 network2 : String) :
    Except FetchError (List Estimate) × World :=
  match reply with
  | APIReply.requestFailed => (Except.error FetchError.fetchEstimate, w)
  | APIReply.unmarshalFailed => (Except.error FetchError.unmarshalEstimate, w)
  | APIReply.results results =>
    let pw := NewPriceService.GetPrice uni w coin2
    let coin2USDPrice :=
      match pw.1 with
      | Except.error _ => F64.zero
      | Except.ok price => price
    (Except.ok (populateEstimates results coin1 coin2 amount network1 network2 coin2USDPrice),
      pw.2.2)

/-! ## Executions of a price service -/

/-- The URLs of the GETs of a log, most recent first. -/
def requests : List Event → List String
  | [] => []
  | Event.get url :: log => url :: requests log
  | Event.pass _ :: log => requests log

/-- The times of the passes through the rate limiter of a log, most recent first. -/
def passTimes : List Event → List Int
  | [] => []
  | Event.pass t :: log => t :: passTimes log
  | Event.get _ :: log => passTimes log

/-- The times of the GETs of a log, most recent first: a GET is sent by the call that has
just passed the rate limiter, and its time is that of this pass. -/
def requestTimes : List Event → List Int
  | Event.get _ :: Event.pass t :: log => t :: requestTimes log
  | Event.get _ :: log => requestTimes log
  | Event.pass _ :: log => requestTimes log
  | [] => []

/-- The logs in which every GET comes right after a pass, and a pass before one GET at
most. -/
def getsFollowPasses : List Event → Bool
  | [] => true
  | Event.pass _ :: log => getsFollowPasses log
  | Event.get _ :: Event.pass _ :: log => getsFollowPasses log
  | Event.get _ :: _ => false

/-- The service and world states an execution can be in: a new service, in a world
whose clock is not before the zero time and where nothing has happened yet, followed
by calls of `GetPrice` and `ClearCache`. -/
inductive Reach (uni : String → String) : PriceService → World → Prop where
  | init (baseURL : String) (w : World) (hclock : 0 ≤ w.clock) (hlog : w.log = []) :
    Reach uni (NewPriceServiceWithURL baseURL) w
  | getPrice (s : PriceService) (w : World) (coin : String) (h : Reach uni s w) :
    Reach uni (s.GetPrice uni w coin).2.1 (s.GetPrice uni w coin).2.2
  | clearCache (s : PriceService) (w : World) (h : Reach uni s w) :
    Reach uni s.ClearCache w

/-- What holds of the cache in every execution: a key is not a stablecoin and has a
provider identifier. -/
def CacheKeysKnown (uni : String → String) (s : PriceService) : Prop :=
  ∀ p ∈ s.cache, isStable p.1 = false ∧ getCoinGeckoID uni p.1 ≠ ""

/-- What holds of the rate limiter in every execution: `lastCall` is not in the
future, no pass is later than `lastCall`, and two passes that follow each other
are `rateLimitDelay` apart at least. -/
def LimiterSpaced (s : PriceService) (w : World) : Prop :=
  s.lastCall ≤ w.clock ∧ (∀ t ∈ passTimes w.log, t ≤ s.lastCall) ∧
    List.Chain' (fun later earlier => earlier + rateLimitDelay ≤ later) (passTimes w.log)

/-- The calls `GetPrice(coins[0])`, `GetPrice(coins[1])`, ... made one after the other on
one service: the result of each, then the service and the world after the last. -/
def getPriceSeq (uni : String → String) :
    List String → PriceService → World → List (Except PriceError F64) × PriceService × World
  | [], s, w => ([], s, w)
  | coin :: coins, s, w =>
    let r := s.GetPrice uni w coin
    let rest := getPriceSeq uni coins r.2.1 r.2.2
    (r.1 :: rest.1, rest.2)

/-- The coins of the calls that returned a price, with this price, in the order of the
calls. -/
def successes : List String → List (Except PriceError F64) → List (String × F64)
  | coin :: coins, Except.ok price :: results => (coin, price) :: successes coins results
  | _ :: coins, Except.error _ :: results => successes coins results
  | _, _ => []

/-- The coins of the calls that returned an error, with this error, in the order of the
calls. -/
def failures : List String → List (Except PriceError F64) → List (String × PriceError)
  | coin :: coins, Except.error err :: results => (coin, err) :: failures coins results
  | _ :: coins, Except.ok _ :: results => failures coins results
  | _, _ => []

/-- The states an execution can be in when `GetPrices` is called as well. -/
inductive Reachable (uni : String → String) : PriceService → World → Prop where
  | init (baseURL : String) (w : World) (hclock : 0 ≤ w.clock) (hlog : w.log = []) :
    Reachable uni (NewPriceServiceWithURL baseURL) w
  | getPrice (s : PriceService) (w : World) (coin : String) (h : Reachable uni s w) :
    Reachable uni (s.GetPrice uni w coin).2.1 (s.GetPrice uni w coin).2.2
  | getPrices (s : PriceService) (w : World) (coins : List String) (h : Reachable uni s w) :
    Reachable uni (s.GetPrices uni w coins).2.1 (s.GetPrices uni w coins).2.2
  | clearCache (s : PriceService) (w : World) (h : Reachable uni s w) :
    Reachable uni s.ClearCache w

/-! ## Vocabulary of the statements and of the proofs -/

namespace F64

/-- The rational value of `(-1)^neg * m * 2^e`. -/
def qval (neg : Bool) (m : Nat) (e : Int) : ℚ :=
  (if neg then -(m : ℚ) else (m : ℚ)) * (2 : ℚ) ^ e

/-- The place of a value that is not NaN in the order of float64: minus infinity, then
the finite values by their rational value, then plus infinity. -/
def val : F64 → ℤ ×ₗ ℚ
  | nan => toLex (0, 0)
  | inf true => toLex (-1, 0)
  | inf false => toLex (1, 0)
  | fin neg m e => toLex (0, qval neg m e)

end F64

section SortingVocabulary

variable {E : Type} [Inhabited E] {K : Type} [LinearOrder K]

/-- The rearrangements of a slice: same length, same elements. -/
def Rearr (data data' : List E) : Prop := data'.length = data.length ∧ data'.Perm data

/-- The rearrangements of the range `data[a:b]`: the length is kept, nothing changes
outside the range, and every element of the range comes from the range. -/
def Shuffle (a b : Nat) (data data' : List E) : Prop :=
  data'.length = data.length ∧
    (∀ k, k < a ∨ b ≤ k → el data' k = el data k) ∧
    ∀ k, a ≤ k → k < b → ∃ k', a ≤ k' ∧ k' < b ∧ el data' k = el data k'

/-- The range `data[a:b]` is in ascending order of `key`. -/
def SortedOn (key : E → K) (data : List E) (a b : Nat) : Prop :=
  ∀ i j, a ≤ i → i ≤ j → j < b → key (el data i) ≤ key (el data j)

/-- On the elements of `data`, `cmp x y < 0` is `key x < key y`. -/
def Keyed (cmp : E → E → Int) (key : E → K) (data : List E) : Prop :=
  ∀ i j, i < data.length → j < data.length →
    (cmp (el data i) (el data j) < 0 ↔ key (el data i) < key (el data j))

/-- The element before the range `data[a:b]`, when there is one, is at most every
element of the range. -/
def LowerBounded (key : E → K) (data : List E) (a b : Nat) : Prop :=
  0 < a → ∀ k, a ≤ k → k < b → key (el data (a - 1)) ≤ key (el data k)

/-- In the heap `data[first : first+hi]`, the node `i` is at least its children. -/
def HeapAt (key : E → K) (data : List E) (first hi i : Nat) : Prop :=
  (2 * i + 1 < hi → key (el data (first + (2 * i + 1))) ≤ key (el data (first + i))) ∧
    (2 * i + 2 < hi → key (el data (first + (2 * i + 2))) ≤ key (el data (first + i)))

end SortingVocabulary

/-- The key `populateEstimates` sorts by: the amount, greatest first. -/
def amountKey (e : Estimate) : (ℤ ×ₗ ℚ)ᵒᵈ := OrderDual.toDual (F64.val e.ReceiveAmount)

/-- The quote `e` with `TradeValueUSD` computed for the unit price `price`. -/
def withPrice (price : F64) (e : Estimate) : Estimate :=
  { e with TradeValueUSD := F64.mul e.ReceiveAmount price }

/-! ## Examples -/

/-- A quote as decoded from the aggregator's reply: exchange, amount, minimum amount. -/
def quote (exchange : String) (amount : F64) : Estimate :=
  { ExchangeName := exchange, ReceiveAmount := amount,
    MinAmount := F64.fin false 4722366482869645 (-62), KYCScore := 0,
    Network1 := "", Network2 := "", Coin1 := "", Coin2 := "", SendAmount := F64.zero,
    Address := "", ImageURL := "", TradeValueUSD := F64.zero }

/-- The quotes `[{X, 0.0150}, {Y, 0.0200}, {Z, 0.0150}]`. -/
def threeQuotes : List Estimate :=
  [quote "X" (F64.fin false 8646911284551352 (-59)),
   quote "Y" (F64.fin false 5764607523034235 (-58)),
   quote "Z" (F64.fin false 8646911284551352 (-59))]

/-- Thirteen quotes, all of amount `1.0` but the seventh, of amount `2.0`. -/
def thirteenQuotes : List Estimate :=
  [quote "q0" (F64.fin false 4503599627370496 (-52)),
   quote "q1" (F64.fin false 4503599627370496 (-52)),
   quote "q2" (F64.fin false 4503599627370496 (-52)),
   quote "q3" (F64.fin false 4503599627370496 (-52)),
   quote "q4" (F64.fin false 4503599627370496 (-52)),
   quote "q5" (F64.fin false 4503599627370496 (-52)),
   quote "q6" (F64.fin false 4503599627370496 (-51)),
   quote "q7" (F64.fin false 4503599627370496 (-52)),
   quote "q8" (F64.fin false 4503599627370496 (-52)),
   quote "q9" (F64.fin false 4503599627370496 (-52)),
   quote "q10" (F64.fin false 4503599627370496 (-52)),
   quote "q11" (F64.fin false 4503599627370496 (-52)),
   quote "q12" (F64.fin false 4503599627370496 (-52))]

/-- A world for the examples: the clock far after the zero time, a few delays, and the
provider answering `200` with a bitcoin price, then `201` with the same body. -/
def exampleWorld : World :=
  { clock := 63000000000000000000
    delays := [5, 7, 1000, 3, 2, 11, 50]
    responses :=
      [HTTPResult.response 200 (some [("bitcoin", [("usd", F64.fin false 45250 0)])]),
       HTTPResult.response 201 (some [("bitcoin", [("usd", F64.fin false 45250 0)])])]
    log := [] }

/-- The execution of `GetPrice("btc")` on a new service in `exampleWorld`. -/
def exampleAfterBtc : Except PriceError F64 × PriceService × World :=
  NewPriceService.GetPrice id exampleWorld "btc"

/-- The execution of `GetPrice("eth")` after `exampleAfterBtc`. -/
def exampleAfterEth : Except PriceError F64 × PriceService × World :=
  exampleAfterBtc.2.1.GetPrice id exampleAfterBtc.2.2 "eth"

/-- The provider of `TestGetPrice_RateLimit`: every answer is `200` with the body
`{"sol": {"usd": 100}}`, keyed by the ticker. -/
def solWorld : World :=
  { clock := 63000000000000000000
    delays := [5, 7, 1000, 3, 2, 11, 50]
    responses :=
      [HTTPResult.response 200 (some [("sol", [("usd", F64.fin false 100 0)])]),
       HTTPResult.response 200 (some [("sol", [("usd", F64.fin false 100 0)])]),
       HTTPResult.response 200 (some [("sol", [("usd", F64.fin false 100 0)])])]
    log := [] }

/-- The provider of `TestGetPrices_Batch` asked for bitcoin, then for ethereum. -/
def batchWorld : World :=
  { clock := 63000000000000000000
    delays := [5, 7, 1000, 3, 2, 11, 50]
    responses :=
      [HTTPResult.response 200 (some [("bitcoin", [("usd", F64.fin false 90501 (-1))])]),
       HTTPResult.response 200 (some [("ethereum", [("usd", F64.fin false 3250 0)])])]
    log := [] }

/-! ## Lemmas on the world and the price service -/

theorem World.now_log (w : World) : w.now.2.log = w.log := rfl

theorem World.now_responses (w : World) : w.now.2.responses = w.responses := rfl

theorem World.now_clock (w : World) : w.now.2.clock = w.now.1 := rfl

theorem World.clock_le_now (w : World) : w.clock ≤ w.now.1 := by
  simp only [World.now]
  omega

theorem World.sleep_log (w : World) (d : Int) : (w.sleep d).log = w.log := by
  unfold World.sleep
  split <;> rfl

theorem World.sleep_responses (w : World) (d : Int) :
    (w.sleep d).responses = w.responses := by
  unfold World.sleep
  split <;> rfl

theorem World.clock_le_sleep (w : World) (d : Int) : w.clock ≤ (w.sleep d).clock := by
  unfold World.sleep
  split
  · exact le_refl _
  · simp only
    omega

theorem World.add_le_sleep (w : World) (d : Int) : w.clock + d ≤ (w.sleep d).clock := by
  unfold World.sleep
  split
  · omega
  · simp only
    omega

theorem Sub_le_of_le (t u : Int) (h : u ≤ t) : 0 ≤ Sub t u ∧ Sub t u ≤ t - u := by
  unfold Sub maxDuration minDuration
  split_ifs <;> omega

theorem wrap64_eq (x : Int) (h1 : -(2 ^ 63) ≤ x) (h2 : x < 2 ^ 63) : wrap64 x = x := by
  unfold wrap64
  omega

theorem rateLimit_log (s : PriceService) (w : World) :
    (s.rateLimit w).2.log = Event.pass (s.rateLimit w).1.lastCall :: w.log := by
  unfold PriceService.rateLimit
  simp only [World.record, World.now_log]
  split <;> simp [World.sleep_log, World.now_log]

theorem rateLimit_responses (s : PriceService) (w : World) :
    (s.rateLimit w).2.responses = w.responses := by
  unfold PriceService.rateLimit
  simp only [World.record, World.now_responses]
  split <;> simp [World.sleep_responses, World.now_responses]

theorem rateLimit_cache (s : PriceService) (w : World) :
    (s.rateLimit w).1.cache = s.cache := rfl

theorem rateLimit_baseURL (s : PriceService) (w : World) :
    (s.rateLimit w).1.baseURL = s.baseURL := rfl

theorem rateLimit_clock (s : PriceService) (w : World) :
    (s.rateLimit w).2.clock = (s.rateLimit w).1.lastCall := rfl

/-- After `rateLimit` the new `lastCall` is `rateLimitDelay` after the old one at least,
when the old one is not in the future. -/
theorem rateLimit_spaced (s : PriceService) (w : World) (h : s.lastCall ≤ w.clock) :
    s.lastCall + rateLimitDelay ≤ (s.rateLimit w).1.lastCall := by
  have h1 := World.clock_le_now w
  have h2 := Sub_le_of_le w.now.1 s.lastCall (le_trans h h1)
  unfold PriceService.rateLimit
  simp only
  split
  · rename_i hlt
    have h5 : Sub w.now.1 s.lastCall = w.now.1 - s.lastCall := by
      unfold rateLimitDelay at hlt
      unfold Sub maxDuration minDuration at *
      split_ifs at * <;> omega
    have hw : wrap64 (rateLimitDelay - Sub w.now.1 s.lastCall)
        = rateLimitDelay - Sub w.now.1 s.lastCall := by
      apply wrap64_eq <;> unfold rateLimitDelay at * <;> omega
    rw [hw]
    have h3 := World.add_le_sleep w.now.2 (rateLimitDelay - Sub w.now.1 s.lastCall)
    have h4 := World.clock_le_now
      (w.now.2.sleep (rateLimitDelay - Sub w.now.1 s.lastCall))
    rw [World.now_clock] at h3
    omega
  · rename_i hge
    have h4 := World.clock_le_now w.now.2
    rw [World.now_clock] at h4
    unfold rateLimitDelay at *
    omega

theorem getCachedPrice_log (s : PriceService) (w : World) (coin : String) :
    (s.getCachedPrice w coin).2.log = w.log := by
  unfold PriceService.getCachedPrice
  split
  · rfl
  · dsimp only
    split <;> rfl

theorem getCachedPrice_responses (s : PriceService) (w : World) (coin : String) :
    (s.getCachedPrice w coin).2.responses = w.responses := by
  unfold PriceService.getCachedPrice
  split
  · rfl
  · dsimp only
    split <;> rfl

theorem getCachedPrice_clock (s : PriceService) (w : World) (coin : String) :
    w.clock ≤ (s.getCachedPrice w coin).2.clock := by
  unfold PriceService.getCachedPrice
  split
  · exact le_refl _
  · dsimp only
    split <;> exact World.clock_le_now w

theorem getCachedPrice_found (s : PriceService) (w : World) (coin : String)
    (h : (s.getCachedPrice w coin).1.2 = true) : ∃ c, s.cache.lookup coin = some c := by
  unfold PriceService.getCachedPrice at h
  split at h
  · simp at h
  · rename_i c hc
    exact ⟨c, hc⟩

theorem fetch_clock (s : PriceService) (w : World) (coinID : String) :
    (s.fetchFromCoinGecko w coinID).2.clock = w.clock := by
  unfold PriceService.fetchFromCoinGecko
  simp only [World.nextResponse, World.record]
  repeat' split
  all_goals rfl

theorem fetch_passTimes (s : PriceService) (w : World) (coinID : String) :
    passTimes (s.fetchFromCoinGecko w coinID).2.log = passTimes w.log := by
  unfold PriceService.fetchFromCoinGecko
  simp only [World.nextResponse, World.record]
  repeat' split
  all_goals rfl

theorem fetch_requests (s : PriceService) (w : World) (coinID : String)
    (h : w.responses.headD HTTPResult.transportError ≠ HTTPResult.createError) :
    requests (s.fetchFromCoinGecko w coinID).2.log
      = PriceService.priceURL s.baseURL coinID :: requests w.log := by
  unfold PriceService.fetchFromCoinGecko
  simp only [World.nextResponse, World.record]
  repeat' split
  all_goals first | rfl | (exfalso; apply h; assumption)

theorem cachePrice_lastCall (s : PriceService) (w : World) (coin : String) (price : F64) :
    (s.cachePrice w coin price).1.lastCall = s.lastCall := rfl

theorem cachePrice_log (s : PriceService) (w : World) (coin : String) (price : F64) :
    (s.cachePrice w coin price).2.log = w.log := rfl

theorem cachePrice_clock (s : PriceService) (w : World) (coin : String) (price : F64) :
    w.clock ≤ (s.cachePrice w coin price).2.clock := World.clock_le_now w

theorem cacheSet_lookup (cache : List (String × PriceCache)) (coin : String)
    (entry : PriceCache) : (PriceService.cacheSet cache coin entry).lookup coin = some entry := by
  simp [PriceService.cacheSet, List.lookup]

theorem isStable_of_mem (k : String)
    (h : k ∈ ["usdt", "usdc", "dai", "busd", "tusd", "gusd", "fusd", "usdd"]) :
    isStable k = true := by
  simp only [List.mem_cons, List.mem_singleton, List.not_mem_nil, or_false] at h
  rcases h with h | h | h | h | h | h | h | h <;> subst h <;> decide

/-- `GetPrice` keeps the invariant of the rate limiter. -/
theorem getPrice_limiterSpaced (uni : String → String) (s : PriceService) (w : World)
    (coin : String) (h : LimiterSpaced s w) :
    LimiterSpaced (s.GetPrice uni w coin).2.1 (s.GetPrice uni w coin).2.2 := by
  obtain ⟨h1, h2, h3⟩ := h
  unfold PriceService.GetPrice
  dsimp only
  split
  · exact ⟨h1, h2, h3⟩
  · split
    · refine ⟨le_trans h1 (getCachedPrice_clock s w _), ?_, ?_⟩
      · rw [getCachedPrice_log]; exact h2
      · rw [getCachedPrice_log]; exact h3
    · -- through the rate limiter
      have hc := getCachedPrice_clock s w (ToLower uni coin)
      have hsp := rateLimit_spaced s (s.getCachedPrice w (ToLower uni coin)).2 (le_trans h1 hc)
      have hlog := rateLimit_log s (s.getCachedPrice w (ToLower uni coin)).2
      rw [getCachedPrice_log] at hlog
      have hkey : LimiterSpaced (s.rateLimit (s.getCachedPrice w (ToLower uni coin)).2).1
          (s.rateLimit (s.getCachedPrice w (ToLower uni coin)).2).2 := by
        refine ⟨le_of_eq (rateLimit_clock _ _).symm, ?_, ?_⟩
        · rw [hlog]
          intro t ht
          simp only [passTimes, List.mem_cons] at ht
          rcases ht with ht | ht
          · exact le_of_eq ht
          · have := h2 t ht
            unfold rateLimitDelay at hsp
            omega
        · rw [hlog]
          simp only [passTimes]
          cases hp : passTimes w.log with
          | nil => exact List.chain'_singleton _
          | cons t ts =>
            rw [hp] at h3
            refine List.Chain'.cons ?_ h3
            have := h2 t (by rw [hp]; exact List.mem_cons_self _ _)
            omega
      obtain ⟨k1, k2, k3⟩ := hkey
      split
      · exact ⟨k1, k2, k3⟩
      · split
        · refine ⟨?_, ?_, ?_⟩
          · rw [fetch_clock]; exact k1
          · rw [fetch_passTimes]; exact k2
          · rw [fetch_passTimes]; exact k3
        · refine ⟨?_, ?_, ?_⟩
          · rw [cachePrice_lastCall]
            refine le_trans ?_ (cachePrice_clock _ _ _ _)
            rw [fetch_clock]; exact k1
          · rw [cachePrice_lastCall, cachePrice_log, fetch_passTimes]; exact k2
          · rw [cachePrice_log, fetch_passTimes]; exact k3

theorem reach_limiterSpaced (uni : String → String) (s : PriceService) (w : World)
    (h : Reach uni s w) : LimiterSpaced s w := by
  induction h with
  | init baseURL w hclock hlog =>
    refine ⟨hclock, ?_, ?_⟩
    · rw [hlog]; intro t ht; simp [passTimes] at ht
    · rw [hlog]; exact List.chain'_nil
  | getPrice s w coin _ ih => exact getPrice_limiterSpaced uni s w coin ih
  | clearCache s w _ ih => exact ih

theorem requestTimes_sublist (log : List Event) :
    (requestTimes log).Sublist (passTimes log) := by
  induction log using requestTimes.induct with
  | case1 url t log ih =>
    simp only [requestTimes, passTimes]
    exact ih.cons₂ t
  | case2 url log hne ih =>
    simp only [passTimes]
    rw [requestTimes]
    · exact ih
    · exact hne
  | case3 t log ih =>
    simp only [requestTimes, passTimes]
    exact ih.cons t
  | case4 => exact List.Sublist.refl _

theorem requestTimes_length (log : List Event) (h : getsFollowPasses log = true) :
    (requestTimes log).length = (requests log).length := by
  induction log using getsFollowPasses.induct with
  | case1 => rfl
  | case2 t log ih =>
    simp only [getsFollowPasses] at h
    simp only [requestTimes, requests]
    exact ih h
  | case3 url t log ih =>
    simp only [getsFollowPasses] at h
    simp only [requestTimes, requests, List.length_cons]
    rw [ih h]
  | case4 url log hne =>
    rw [getsFollowPasses] at h
    · exact absurd h (by simp)
    · exact hne

theorem fetch_log (s : PriceService) (w : World) (coinID : String) :
    (s.fetchFromCoinGecko w coinID).2.log = w.log ∨
      ∃ url, (s.fetchFromCoinGecko w coinID).2.log = Event.get url :: w.log := by
  unfold PriceService.fetchFromCoinGecko
  simp only [World.nextResponse, World.record]
  repeat' split
  all_goals first | exact Or.inl rfl | exact Or.inr ⟨_, rfl⟩

theorem getPrice_log (uni : String → String) (s : PriceService) (w : World) (coin : String) :
    (s.GetPrice uni w coin).2.2.log = w.log ∨
      (∃ t, (s.GetPrice uni w coin).2.2.log = Event.pass t :: w.log) ∨
      ∃ url t, (s.GetPrice uni w coin).2.2.log = Event.get url :: Event.pass t :: w.log := by
  have hrl := rateLimit_log s (s.getCachedPrice w (ToLower uni coin)).2
  rw [getCachedPrice_log] at hrl
  unfold PriceService.GetPrice
  dsimp only
  split
  · exact Or.inl rfl
  · split
    · exact Or.inl (getCachedPrice_log _ _ _)
    · split
      · exact Or.inr (Or.inl ⟨_, hrl⟩)
      · have hf := fetch_log (s.rateLimit (s.getCachedPrice w (ToLower uni coin)).2).1
          (s.rateLimit (s.getCachedPrice w (ToLower uni coin)).2).2
          (getCoinGeckoID uni (ToLower uni coin))
        rw [hrl] at hf
        split
        · rcases hf with hf | ⟨url, hf⟩
          · exact Or.inr (Or.inl ⟨_, hf⟩)
          · exact Or.inr (Or.inr ⟨url, _, hf⟩)
        · rw [cachePrice_log]
          rcases hf with hf | ⟨url, hf⟩
          · exact Or.inr (Or.inl ⟨_, hf⟩)
          · exact Or.inr (Or.inr ⟨url, _, hf⟩)

theorem reach_getsFollowPasses (uni : String → String) (s : PriceService) (w : World)
    (h : Reach uni s w) : getsFollowPasses w.log = true := by
  induction h with
  | init baseURL w hclock hlog => rw [hlog]; rfl
  | getPrice s w coin _ ih =>
    rcases getPrice_log uni s w coin with h | ⟨t, h⟩ | ⟨url, t, h⟩
    · rw [h]; exact ih
    · rw [h]; simpa [getsFollowPasses] using ih
    · rw [h]; simpa [getsFollowPasses] using ih
  | clearCache s w _ ih => exact ih

theorem chain_gap_sublist (l l' : List Int) (hs : l'.Sublist l)
    (h : List.Chain' (fun later earlier => earlier + rateLimitDelay ≤ later) l) :
    List.Chain' (fun later earlier => earlier + rateLimitDelay ≤ later) l' := by
  haveI : IsTrans Int (fun later earlier => earlier + rateLimitDelay ≤ later) :=
    ⟨fun a b c hab hbc => by unfold rateLimitDelay at *; omega⟩
  exact (List.Pairwise.sublist hs (List.chain'_iff_pairwise.mp h)).chain'

/-- `GetPrice` keeps the invariant of the cache keys. -/
theorem getPrice_cacheKeysKnown (uni : String → String) (s : PriceService) (w : World)
    (coin : String) (h : CacheKeysKnown uni s) :
    CacheKeysKnown uni (s.GetPrice uni w coin).2.1 := by
  unfold PriceService.GetPrice
  dsimp only
  split
  · exact h
  · rename_i hst
    split
    · exact h
    · split
      · exact h
      · rename_i hid
        split
        · exact h
        · intro p hp
          simp only [PriceService.cachePrice, PriceService.cacheSet, List.mem_cons,
            List.mem_filter] at hp
          rcases hp with hp | hp
          · subst hp
            exact ⟨by simpa using hst, hid⟩
          · exact h p hp.1

theorem reach_cacheKeysKnown (uni : String → String) (s : PriceService) (w : World)
    (h : Reach uni s w) : CacheKeysKnown uni s := by
  induction h with
  | init baseURL w hclock hlog => intro p hp; simp [NewPriceServiceWithURL] at hp
  | getPrice s w coin _ ih => exact getPrice_cacheKeysKnown uni s w coin ih
  | clearCache s w _ ih => intro p hp; simp [PriceService.ClearCache] at hp

theorem lookup_mem {β : Type} (l : List (String × β)) (k : String) (v : β)
    (h : l.lookup k = some v) : (k, v) ∈ l := by
  induction l with
  | nil => simp at h
  | cons p l ih =>
    obtain ⟨k1, v1⟩ := p
    by_cases hk : k = k1
    · subst hk
      simp [List.lookup] at h
      subst h
      exact List.mem_cons_self _ _
    · have : (k == k1) = false := by simpa using hk
      simp [List.lookup, this] at h
      exact List.mem_cons_of_mem _ (ih h)

/-! ## The price service: claims -/

theorem exampleAfterBtc_reach : Reach id exampleAfterBtc.2.1 exampleAfterBtc.2.2 :=
  Reach.getPrice _ _ "btc" (Reach.init coinGeckoURL exampleWorld (by decide) rfl)

theorem exampleAfterEth_reach : Reach id exampleAfterEth.2.1 exampleAfterEth.2.2 :=
  Reach.getPrice _ _ "eth" exampleAfterBtc_reach

/-- C5. In every execution of one price service, two passes through the rate limiter
that follow each other are at least `rateLimitDelay` (100 ms) apart, and hence so are
two GETs that follow each other: every GET of the log is sent by a call that has just
passed the limiter, at the time of this pass. A further `rateLimit` stamps `lastCall`
with the time at its return, `rateLimitDelay` after the former `lastCall` at least. -/
theorem rateLimit_passes_spaced (uni : String → String) (s : PriceService) (w : World)
    (h : Reach uni s w) :
    List.Chain' (fun later earlier => earlier + rateLimitDelay ≤ later) (passTimes w.log) ∧
      List.Chain' (fun later earlier => earlier + rateLimitDelay ≤ later)
        (requestTimes w.log) ∧
      (requestTimes w.log).length = (requests w.log).length ∧
      s.lastCall + rateLimitDelay ≤ (s.rateLimit w).1.lastCall ∧
      (s.rateLimit w).1.lastCall = (s.rateLimit w).2.clock ∧
      (s.rateLimit w).2.log = Event.pass (s.rateLimit w).1.lastCall :: w.log := by
  obtain ⟨h1, _, h3⟩ := reach_limiterSpaced uni s w h
  exact ⟨h3, chain_gap_sublist _ _ (requestTimes_sublist w.log) h3,
    requestTimes_length w.log (reach_getsFollowPasses uni s w h),
    rateLimit_spaced s w h1, (rateLimit_clock s w).symm, rateLimit_log s w⟩

theorem rateLimit_passes_spaced_witness :
    Reach id exampleAfterEth.2.1 exampleAfterEth.2.2 ∧
      List.Chain' (fun later earlier => earlier + rateLimitDelay ≤ later)
        (passTimes exampleAfterEth.2.2.log) ∧
      List.Chain' (fun later earlier => earlier + rateLimitDelay ≤ later)
        (requestTimes exampleAfterEth.2.2.log) ∧
      (requestTimes exampleAfterEth.2.2.log).length
        = (requests exampleAfterEth.2.2.log).length ∧
      exampleAfterEth.2.1.lastCall + rateLimitDelay
        ≤ (exampleAfterEth.2.1.rateLimit exampleAfterEth.2.2).1.lastCall ∧
      (exampleAfterEth.2.1.rateLimit exampleAfterEth.2.2).1.lastCall
        = (exampleAfterEth.2.1.rateLimit exampleAfterEth.2.2).2.clock ∧
      (exampleAfterEth.2.1.rateLimit exampleAfterEth.2.2).2.log
        = Event.pass (exampleAfterEth.2.1.rateLimit exampleAfterEth.2.2).1.lastCall ::
          exampleAfterEth.2.2.log :=
  ⟨exampleAfterEth_reach, rateLimit_passes_spaced id _ _ exampleAfterEth_reach⟩

/-- C6. For a ticker that is not a stablecoin, when the cache holds an entry for its
lowercase form whose age at the time of the call is less than `cacheDuration`
(5 minutes), `GetPrice` returns the cached price without error; nothing happens in
the world but the reading of the clock (no GET, no pass through the rate limiter, no
wait), and the service, its cache and `lastCall`, is unchanged. -/
theorem getPrice_cache_hit (uni : String → String) (s : PriceService) (w : World)
    (coin : String) (c : PriceCache)
    (hstable : isStable (ToLower uni coin) = false)
    (hentry : s.cache.lookup (ToLower uni coin) = some c)
    (hfresh : Sub w.now.1 c.timestamp < cacheDuration) :
    s.GetPrice uni w coin = (Except.ok c.price, s, w.now.2) ∧
      w.now.2.log = w.log ∧ w.now.2.responses = w.responses := by
  refine ⟨?_, rfl, rfl⟩
  unfold PriceService.GetPrice
  simp [hstable, PriceService.getCachedPrice, hentry, hfresh]

theorem getPrice_cache_hit_witness :
    isStable (ToLower id "ETH") = false ∧
      exampleAfterBtc.2.1.cache.lookup (ToLower id "BTC")
        = some { price := F64.fin false 45250 0, timestamp := 63000000000000001012 } ∧
      Sub exampleAfterBtc.2.2.now.1 63000000000000001012 < cacheDuration ∧
      exampleAfterBtc.2.1.GetPrice id exampleAfterBtc.2.2 "BTC"
        = (Except.ok (F64.fin false 45250 0), exampleAfterBtc.2.1, exampleAfterBtc.2.2.now.2) ∧
      exampleAfterBtc.2.2.now.2.log = exampleAfterBtc.2.2.log ∧
      exampleAfterBtc.2.2.now.2.responses = exampleAfterBtc.2.2.responses :=
  ⟨by decide, by decide, by decide,
    getPrice_cache_hit id exampleAfterBtc.2.1 exampleAfterBtc.2.2 "BTC"
      { price := F64.fin false 45250 0, timestamp := 63000000000000001012 }
      (by decide) (by decide) (by decide)⟩

/-- C7. For a ticker that is not a stablecoin, has a provider identifier and has no
cache entry or one whose age has reached `cacheDuration`, `GetPrice`, when the request
can be built, sends exactly one GET, to `<base>?ids=<providerID>&vs_currencies=usd`;
and when the provider answers `200` with a body holding `p` under the provider
identifier and `"usd"`, it returns `p` and the cache then holds, for the lowercase
ticker, `p` with the time of the return. -/
theorem getPrice_fetch (uni : String → String) (s : PriceService) (w : World)
    (coin : String)
    (hstable : isStable (ToLower uni coin) = false)
    (hid : getCoinGeckoID uni (ToLower uni coin) ≠ "")
    (hstale : s.cache.lookup (ToLower uni coin) = none ∨
      ∃ c, s.cache.lookup (ToLower uni coin) = some c ∧
        cacheDuration ≤ Sub w.now.1 c.timestamp)
    (hbuilt : w.responses.headD HTTPResult.transportError ≠ HTTPResult.createError) :
    requests (s.GetPrice uni w coin).2.2.log
        = PriceService.priceURL s.baseURL (getCoinGeckoID uni (ToLower uni coin))
          :: requests w.log ∧
      ∀ body data p rest, w.responses = HTTPResult.response 200 (some body) :: rest →
        body.lookup (getCoinGeckoID uni (ToLower uni coin)) = some data →
        data.lookup "usd" = some p →
        (s.GetPrice uni w coin).1 = Except.ok p ∧
          (s.GetPrice uni w coin).2.1.cache.lookup (ToLower uni coin)
            = some { price := p, timestamp := (s.GetPrice uni w coin).2.2.clock } := by
  have hmiss : (s.getCachedPrice w (ToLower uni coin)).1.2 = false := by
    unfold PriceService.getCachedPrice
    rcases hstale with h | ⟨c, h, hc⟩
    · rw [h]
    · rw [h]
      have : ¬ (Sub w.now.1 c.timestamp < cacheDuration) := not_lt.mpr hc
      simp [this]
  have hresp : (s.rateLimit (s.getCachedPrice w (ToLower uni coin)).2).2.responses
      = w.responses := by
    rw [rateLimit_responses, getCachedPrice_responses]
  have hlog : requests (s.rateLimit (s.getCachedPrice w (ToLower uni coin)).2).2.log
      = requests w.log := by
    rw [rateLimit_log, getCachedPrice_log]
    rfl
  have hreq := fetch_requests (s.rateLimit (s.getCachedPrice w (ToLower uni coin)).2).1
    (s.rateLimit (s.getCachedPrice w (ToLower uni coin)).2).2
    (getCoinGeckoID uni (ToLower uni coin)) (by rw [hresp]; exact hbuilt)
  rw [hlog, rateLimit_baseURL] at hreq
  constructor
  · unfold PriceService.GetPrice
    simp only [hstable, hmiss, hid, Bool.false_eq_true, if_false]
    split
    · exact hreq
    · rw [cachePrice_log]; exact hreq
  · intro body data p rest hw hbody hdata
    have hfetch : ((s.rateLimit (s.getCachedPrice w (ToLower uni coin)).2).1.fetchFromCoinGecko
        (s.rateLimit (s.getCachedPrice w (ToLower uni coin)).2).2
        (getCoinGeckoID uni (ToLower uni coin))).1 = Except.ok p := by
      unfold PriceService.fetchFromCoinGecko
      simp [World.nextResponse, hresp, hw, hbody, hdata]
    unfold PriceService.GetPrice
    simp only [hstable, hmiss, hid, Bool.false_eq_true, if_false, hfetch]
    exact ⟨trivial, cacheSet_lookup _ _ _⟩

theorem getPrice_fetch_witness :
    isStable (ToLower id "Btc") = false ∧
      getCoinGeckoID id (ToLower id "Btc") ≠ "" ∧
      (NewPriceService.cache.lookup (ToLower id "Btc") = none ∨
        ∃ c, NewPriceService.cache.lookup (ToLower id "Btc") = some c ∧
          cacheDuration ≤ Sub exampleWorld.now.1 c.timestamp) ∧
      exampleWorld.responses.headD HTTPResult.transportError ≠ HTTPResult.createError ∧
      requests (NewPriceService.GetPrice id exampleWorld "Btc").2.2.log
        = PriceService.priceURL NewPriceService.baseURL (getCoinGeckoID id (ToLower id "Btc"))
          :: requests exampleWorld.log ∧
      ∀ body data p rest,
        exampleWorld.responses = HTTPResult.response 200 (some body) :: rest →
        body.lookup (getCoinGeckoID id (ToLower id "Btc")) = some data →
        data.lookup "usd" = some p →
        (NewPriceService.GetPrice id exampleWorld "Btc").1 = Except.ok p ∧
          (NewPriceService.GetPrice id exampleWorld "Btc").2.1.cache.lookup (ToLower id "Btc")
            = some { price := p,
                     timestamp := (NewPriceService.GetPrice id exampleWorld "Btc").2.2.clock } :=
  ⟨by decide, by decide, Or.inl (by decide), by decide,
    getPrice_fetch id NewPriceService exampleWorld "Btc" (by decide) (by decide)
      (Or.inl (by decide)) (by decide)⟩

/-- C8. For a ticker whose lowercase form is one of usdt, usdc, dai, busd, tusd, gusd,
fusd, usdd (tusd and gusd also have a provider identifier), `GetPrice` returns `1.0`
without error and changes neither the service (cache, `lastCall`) nor the world (no
GET, no pass through the rate limiter, no reading of the clock). -/
theorem getPrice_stablecoin (uni : String → String) (s : PriceService) (w : World)
    (coin : String)
    (h : ToLower uni coin ∈ ["usdt", "usdc", "dai", "busd", "tusd", "gusd", "fusd", "usdd"]) :
    s.GetPrice uni w coin = (Except.ok F64.one, s, w) ∧
      getCoinGeckoID uni "tusd" = "true-usd" ∧ getCoinGeckoID uni "gusd" = "gemini-dollar" := by
  refine ⟨?_, rfl, rfl⟩
  unfold PriceService.GetPrice
  simp [isStable_of_mem _ h]

theorem getPrice_stablecoin_witness :
    ToLower id "TUSd" ∈ ["usdt", "usdc", "dai", "busd", "tusd", "gusd", "fusd", "usdd"] ∧
      exampleAfterBtc.2.1.GetPrice id exampleAfterBtc.2.2 "TUSd"
        = (Except.ok F64.one, exampleAfterBtc.2.1, exampleAfterBtc.2.2) ∧
      getCoinGeckoID id "tusd" = "true-usd" ∧ getCoinGeckoID id "gusd" = "gemini-dollar" :=
  ⟨by decide, getPrice_stablecoin id exampleAfterBtc.2.1 exampleAfterBtc.2.2 "TUSd" (by decide)⟩

/-- C9. In every execution of a price service, for a ticker whose lowercase form is not
a stablecoin and has no provider identifier, `GetPrice` fails with the unknown-coin
error, sends no GET and asks nothing of the provider. -/
theorem getPrice_unknownCoin (uni : String → String) (s : PriceService) (w : World)
    (coin : String) (hreach : Reach uni s w)
    (hstable : isStable (ToLower uni coin) = false)
    (hid : getCoinGeckoID uni (ToLower uni coin) = "") :
    (s.GetPrice uni w coin).1 = Except.error (PriceError.unknownCoin coin) ∧
      requests (s.GetPrice uni w coin).2.2.log = requests w.log ∧
      (s.GetPrice uni w coin).2.2.responses = w.responses := by
  have hmiss : (s.getCachedPrice w (ToLower uni coin)).1.2 = false := by
    by_contra hne
    obtain ⟨c, hc⟩ := getCachedPrice_found s w _ (by simpa using hne)
    exact (reach_cacheKeysKnown uni s w hreach _ (lookup_mem _ _ _ hc)).2 hid
  unfold PriceService.GetPrice
  simp only [hstable, hmiss, hid, Bool.false_eq_true, if_false, if_true]
  refine ⟨trivial, ?_, ?_⟩
  · rw [rateLimit_log, getCachedPrice_log]; rfl
  · rw [rateLimit_responses, getCachedPrice_responses]

theorem getPrice_unknownCoin_witness :
    Reach id exampleAfterBtc.2.1 exampleAfterBtc.2.2 ∧
      isStable (ToLower id "crv") = false ∧
      getCoinGeckoID id (ToLower id "crv") = "" ∧
      (exampleAfterBtc.2.1.GetPrice id exampleAfterBtc.2.2 "crv").1
        = Except.error (PriceError.unknownCoin "crv") ∧
      requests (exampleAfterBtc.2.1.GetPrice id exampleAfterBtc.2.2 "crv").2.2.log
        = requests exampleAfterBtc.2.2.log ∧
      (exampleAfterBtc.2.1.GetPrice id exampleAfterBtc.2.2 "crv").2.2.responses
        = exampleAfterBtc.2.2.responses :=
  ⟨exampleAfterBtc_reach, by decide, by decide,
    getPrice_unknownCoin id exampleAfterBtc.2.1 exampleAfterBtc.2.2 "crv"
      exampleAfterBtc_reach (by decide) (by decide)⟩

/-- C10, as the code has it. `fetchFromCoinGecko` reports status 429 as the rate-limit
error and every other status different from 200, those from 201 to 299 included, as
the provider error carrying that status; only status 200 is a success, and then a
body holding `p` under the provider identifier and `"usd"` yields `p`. -/
theorem fetch_status (s : PriceService) (w : World) (coinID : String) (status : Int)
    (body : Option (List (String × List (String × F64)))) (rest : List HTTPResult)
    (hw : w.responses = HTTPResult.response status body :: rest) :
    (status = 429 →
        (s.fetchFromCoinGecko w coinID).1 = Except.error PriceError.rateLimitExceeded) ∧
      (status ≠ 200 → status ≠ 429 →
        (s.fetchFromCoinGecko w coinID).1 = Except.error (PriceError.apiStatus status)) ∧
      (status = 200 → ∀ result data p, body = some result →
        result.lookup coinID = some data → data.lookup "usd" = some p →
        (s.fetchFromCoinGecko w coinID).1 = Except.ok p) := by
  refine ⟨?_, ?_, ?_⟩
  · intro h
    subst h
    unfold PriceService.fetchFromCoinGecko
    simp [World.nextResponse, hw]
  · intro h1 h2
    unfold PriceService.fetchFromCoinGecko
    simp [World.nextResponse, hw, h1, h2]
  · intro h result data p hb hr hd
    subst h
    unfold PriceService.fetchFromCoinGecko
    simp [World.nextResponse, hw, hb, hr, hd]

theorem fetch_status_witness :
    exampleWorld.responses
        = HTTPResult.response 200 (some [("bitcoin", [("usd", F64.fin false 45250 0)])]) ::
          [HTTPResult.response 201 (some [("bitcoin", [("usd", F64.fin false 45250 0)])])] ∧
      ((200 : Int) = 429 →
        (NewPriceService.fetchFromCoinGecko exampleWorld "bitcoin").1
          = Except.error PriceError.rateLimitExceeded) ∧
      ((200 : Int) ≠ 200 → (200 : Int) ≠ 429 →
        (NewPriceService.fetchFromCoinGecko exampleWorld "bitcoin").1
          = Except.error (PriceError.apiStatus 200)) ∧
      ((200 : Int) = 200 → ∀ result data p,
        some [("bitcoin", [("usd", F64.fin false 45250 0)])] = some result →
        result.lookup "bitcoin" = some data → data.lookup "usd" = some p →
        (NewPriceService.fetchFromCoinGecko exampleWorld "bitcoin").1 = Except.ok p) :=
  ⟨rfl, fetch_status NewPriceService exampleWorld "bitcoin" 200 _ _ rfl⟩

/-- C10, as stated, fails: the provider answering status 201, inside 200 to 299, with
the body `{"bitcoin": {"usd": 45250}}`, `fetchFromCoinGecko` reports the provider
error carrying 201 and no price. -/
theorem fetch_status_201_is_error :
    (NewPriceService.fetchFromCoinGecko
        { exampleWorld with responses := exampleWorld.responses.tail } "bitcoin").1
      = Except.error (PriceError.apiStatus 201) ∧
    (NewPriceService.fetchFromCoinGecko
        { exampleWorld with responses := exampleWorld.responses.tail } "bitcoin").1
      ≠ Except.ok (F64.fin false 45250 0) := by
  decide

/-! ## The price service: malformed bodies, round trips, batches, the cache -/

set_option maxRecDepth 100000

/-- The result of `fetchFromCoinGecko` depends on the next outcome of the provider and on
the identifier only. -/
theorem fetch_result_congr (s s' : PriceService) (w w' : World) (coinID : String)
    (h : w'.responses = w.responses) :
    (s'.fetchFromCoinGecko w' coinID).1 = (s.fetchFromCoinGecko w coinID).1 := by
  unfold PriceService.fetchFromCoinGecko
  simp only [World.nextResponse, h]
  repeat' split
  all_goals rfl

/-- The result of `GetPrice` for a ticker that is not a stablecoin, has no fresh cache
entry and has a provider identifier is the result of `fetchFromCoinGecko`. -/
theorem getPrice_miss_result (uni : String → String) (s : PriceService) (w : World)
    (coin : String) (hstable : isStable (ToLower uni coin) = false)
    (hmiss : (s.getCachedPrice w (ToLower uni coin)).1.2 = false)
    (hid : getCoinGeckoID uni (ToLower uni coin) ≠ "") :
    (s.GetPrice uni w coin).1
      = (s.fetchFromCoinGecko w (getCoinGeckoID uni (ToLower uni coin))).1 := by
  have hresp : (s.rateLimit (s.getCachedPrice w (ToLower uni coin)).2).2.responses
      = w.responses := by
    rw [rateLimit_responses, getCachedPrice_responses]
  have hf := fetch_result_congr s (s.rateLimit (s.getCachedPrice w (ToLower uni coin)).2).1 w
    (s.rateLimit (s.getCachedPrice w (ToLower uni coin)).2).2
    (getCoinGeckoID uni (ToLower uni coin)) hresp
  rw [← hf]
  unfold PriceService.GetPrice
  simp only [hstable, hmiss, hid, Bool.false_eq_true, if_false]
  split
  · rename_i err he
    rw [he]
  · rename_i price he
    rw [he]

/-- A call of `GetPrice` that returns an error leaves the cache as it was. -/
theorem getPrice_error_cache (uni : String → String) (s : PriceService) (w : World)
    (coin : String) (err : PriceError) (h : (s.GetPrice uni w coin).1 = Except.error err) :
    (s.GetPrice uni w coin).2.1.cache = s.cache := by
  unfold PriceService.GetPrice at h ⊢
  dsimp only at h ⊢
  split
  · rfl
  · split
    · rfl
    · split
      · rfl
      · split
        · rfl
        · rename_i price he
          simp [*] at h

/-- C11. When the provider answers with a success status (200 to 299) and the body does
not decode, or decodes without an entry for the requested provider identifier, or with
an entry that has no `"usd"` field, `fetchFromCoinGecko` returns an error (in Go, with
the price 0 of every error return) and no price: for status 200 the parse error when
the body does not decode and the price-not-found error otherwise. `GetPrice`, for a
ticker that is not a stablecoin, has no fresh cache entry and has this provider
identifier, returns the same error and leaves the cache as it was. -/
theorem fetch_malformed_body (uni : String → String) (s : PriceService) (w : World)
    (coin coinID : String) (status : Int)
    (body : Option (List (String × List (String × F64)))) (rest : List HTTPResult)
    (hw : w.responses = HTTPResult.response status body :: rest)
    (hstatus : 200 ≤ status ∧ status ≤ 299)
    (hbody : body = none ∨ ∃ result, body = some result ∧
      (result.lookup coinID = none ∨
        ∃ data, result.lookup coinID = some data ∧ data.lookup "usd" = none)) :
    (∃ err, (s.fetchFromCoinGecko w coinID).1 = Except.error err) ∧
      (status = 200 → body = none →
        (s.fetchFromCoinGecko w coinID).1 = Except.error PriceError.parseResponse) ∧
      (status = 200 → body ≠ none →
        (s.fetchFromCoinGecko w coinID).1 = Except.error (PriceError.priceNotFound coinID)) ∧
      (isStable (ToLower uni coin) = false →
        (s.getCachedPrice w (ToLower uni coin)).1.2 = false →
        getCoinGeckoID uni (ToLower uni coin) = coinID → coinID ≠ "" →
        (s.GetPrice uni w coin).1 = (s.fetchFromCoinGecko w coinID).1 ∧
          (s.GetPrice uni w coin).2.1.cache = s.cache) := by
  have herr : ∃ err, (s.fetchFromCoinGecko w coinID).1 = Except.error err := by
    unfold PriceService.fetchFromCoinGecko
    simp only [World.nextResponse, hw, List.headD_cons]
    rcases hbody with h | ⟨result, h, h2 | ⟨data, h2, h3⟩⟩
    · subst h
      split_ifs <;> exact ⟨_, rfl⟩
    · subst h
      simp only [h2]
      split_ifs <;> exact ⟨_, rfl⟩
    · subst h
      simp only [h2, h3]
      split_ifs <;> exact ⟨_, rfl⟩
  refine ⟨herr, ?_, ?_, ?_⟩
  · intro h200 hnone
    subst h200 hnone
    unfold PriceService.fetchFromCoinGecko
    simp [World.nextResponse, hw]
  · intro h200 hsome
    subst h200
    unfold PriceService.fetchFromCoinGecko
    rcases hbody with h | ⟨result, h, h2 | ⟨data, h2, h3⟩⟩
    · exact absurd h hsome
    · simp [World.nextResponse, hw, h, h2]
    · simp [World.nextResponse, hw, h, h2, h3]
  · intro hstable hmiss hid hne
    subst hid
    have hres := getPrice_miss_result uni s w coin hstable hmiss hne
    obtain ⟨err, he⟩ := herr
    exact ⟨hres, getPrice_error_cache uni s w coin err (by rw [hres, he])⟩

theorem fetch_malformed_body_witness :
    solWorld.responses
        = HTTPResult.response 200 (some [("sol", [("usd", F64.fin false 100 0)])])
          :: solWorld.responses.tail ∧
      ((200 : Int) ≤ 200 ∧ (200 : Int) ≤ 299) ∧
      [("sol", [("usd", F64.fin false 100 0)])].lookup "solana" = none ∧
      (NewPriceService.fetchFromCoinGecko solWorld "solana").1
        = Except.error (PriceError.priceNotFound "solana") ∧
      (NewPriceService.GetPrice id solWorld "sol").1
        = Except.error (PriceError.priceNotFound "solana") ∧
      (NewPriceService.GetPrice id solWorld "sol").2.1.cache = [] :=
  have h := fetch_malformed_body id NewPriceService solWorld "sol" "solana" 200
    (some [("sol", [("usd", F64.fin false 100 0)])]) solWorld.responses.tail rfl
    (by decide) (Or.inr ⟨_, rfl, Or.inl (by decide)⟩)
  have hg := h.2.2.2 (by decide) (by decide) (by decide) (by decide)
  have hf := h.2.2.1 rfl (by simp)
  ⟨rfl, by decide, by decide, hf, hg.1.trans hf, hg.2⟩

theorem Sub_mono (t t' u : Int) (h : t ≤ t') : Sub t u ≤ Sub t' u := by
  unfold Sub maxDuration minDuration
  split_ifs <;> omega

theorem rateLimit_clock_le (s : PriceService) (w : World) :
    w.clock ≤ (s.rateLimit w).2.clock := by
  have h1 := World.clock_le_now w
  unfold PriceService.rateLimit
  simp only [World.record]
  split
  · have h2 := World.clock_le_sleep w.now.2
      (wrap64 (rateLimitDelay - Sub w.now.1 s.lastCall))
    have h3 := World.clock_le_now
      (w.now.2.sleep (wrap64 (rateLimitDelay - Sub w.now.1 s.lastCall)))
    rw [World.now_clock] at h2
    rw [World.now_clock]
    omega
  · have h3 := World.clock_le_now w.now.2
    rw [World.now_clock] at h3 ⊢
    omega

/-- The clock does not go back in `GetPrice`. -/
theorem getPrice_clock_le (uni : String → String) (s : PriceService) (w : World)
    (coin : String) : w.clock ≤ (s.GetPrice uni w coin).2.2.clock := by
  have h1 := getCachedPrice_clock s w (ToLower uni coin)
  have h2 := rateLimit_clock_le s (s.getCachedPrice w (ToLower uni coin)).2
  have h3 := fetch_clock (s.rateLimit (s.getCachedPrice w (ToLower uni coin)).2).1
    (s.rateLimit (s.getCachedPrice w (ToLower uni coin)).2).2
    (getCoinGeckoID uni (ToLower uni coin))
  unfold PriceService.GetPrice
  dsimp only
  split
  · exact le_refl _
  · split
    · exact h1
    · split
      · exact le_trans h1 h2
      · split
        · dsimp only
          rw [h3]
          exact le_trans h1 h2
        · have h4 := cachePrice_clock (s.rateLimit (s.getCachedPrice w (ToLower uni coin)).2).1
            (((s.rateLimit (s.getCachedPrice w (ToLower uni coin)).2).1.fetchFromCoinGecko
              (s.rateLimit (s.getCachedPrice w (ToLower uni coin)).2).2
              (getCoinGeckoID uni (ToLower uni coin))).2) (ToLower uni coin)
          dsimp only
          rename_i price _
          have h5 := h4 price
          omega

theorem getPriceSeq_clock_le (uni : String → String) (coins : List String) :
    ∀ (s : PriceService) (w : World), w.clock ≤ (getPriceSeq uni coins s w).2.2.clock := by
  induction coins with
  | nil => intro s w; exact le_refl _
  | cons coin coins ih =>
    intro s w
    simp only [getPriceSeq]
    exact le_trans (getPrice_clock_le uni s w coin) (ih _ _)

theorem cacheSet_lookup_ne (cache : List (String × PriceCache)) (coin key : String)
    (entry : PriceCache) (h : key ≠ coin) :
    (PriceService.cacheSet cache coin entry).lookup key = cache.lookup key := by
  have h1 : (key == coin) = false := by simpa using h
  simp only [PriceService.cacheSet, List.lookup, h1]
  induction cache with
  | nil => rfl
  | cons q cache ih =>
    obtain ⟨k, v⟩ := q
    by_cases hk : k = coin
    · subst hk
      simp [List.filter, List.lookup, h1, ih]
    · have h2 : (k != coin) = true := by simpa using hk
      simp only [List.filter, h2, List.lookup]
      split
      · rfl
      · exact ih

/-- A miss of `getCachedPrice` on a key that has an entry: the entry is stale. -/
theorem getCachedPrice_stale (s : PriceService) (w : World) (key : String) (e : PriceCache)
    (h : s.cache.lookup key = some e) (hmiss : (s.getCachedPrice w key).1.2 = false) :
    cacheDuration ≤ Sub w.now.1 e.timestamp ∧ (s.getCachedPrice w key).2 = w.now.2 := by
  unfold PriceService.getCachedPrice at hmiss ⊢
  rw [h] at hmiss ⊢
  dsimp only at hmiss ⊢
  split_ifs at hmiss ⊢ with hc
  exact ⟨not_lt.mp hc, rfl⟩

/-- An entry of the cache is still there after `GetPrice`, when the call ends within
`cacheDuration` of the entry's timestamp. -/
theorem getPrice_keeps_entry (uni : String → String) (s : PriceService) (w : World)
    (coin key : String) (e : PriceCache) (h : s.cache.lookup key = some e)
    (hwin : Sub (s.GetPrice uni w coin).2.2.clock e.timestamp < cacheDuration) :
    (s.GetPrice uni w coin).2.1.cache.lookup key = some e := by
  by_cases herr : ∃ err, (s.GetPrice uni w coin).1 = Except.error err
  · obtain ⟨err, herr⟩ := herr
    rw [getPrice_error_cache uni s w coin err herr]
    exact h
  · unfold PriceService.GetPrice at herr hwin ⊢
    dsimp only at herr hwin ⊢
    split at herr
    · simp only [*, if_true]
    · rename_i hst
      simp only [hst, Bool.false_eq_true, if_false] at hwin ⊢
      split at herr
      · rename_i hhit
        simp only [hhit, if_true]
        exact h
      · rename_i hmiss
        simp only [hmiss, Bool.false_eq_true, if_false] at hwin ⊢
        split at herr
        · exact absurd ⟨_, rfl⟩ herr
        · rename_i hid
          simp only [hid, if_false] at hwin ⊢
          split at herr
          · exact absurd ⟨_, rfl⟩ herr
          · rename_i price hp
            simp only [hp] at hwin ⊢
            by_cases hk : key = ToLower uni coin
            · exfalso
              subst hk
              have hs := getCachedPrice_stale s w _ e h (by simpa using hmiss)
              have c1 := World.clock_le_now w
              have c2 := rateLimit_clock_le s (s.getCachedPrice w (ToLower uni coin)).2
              have c3 := fetch_clock (s.rateLimit (s.getCachedPrice w (ToLower uni coin)).2).1
                (s.rateLimit (s.getCachedPrice w (ToLower uni coin)).2).2
                (getCoinGeckoID uni (ToLower uni coin))
              have c4 := cachePrice_clock
                (s.rateLimit (s.getCachedPrice w (ToLower uni coin)).2).1
                (((s.rateLimit (s.getCachedPrice w (ToLower uni coin)).2).1.fetchFromCoinGecko
                  (s.rateLimit (s.getCachedPrice w (ToLower uni coin)).2).2
                  (getCoinGeckoID uni (ToLower uni coin))).2) (ToLower uni coin) price
              have hcl : (s.getCachedPrice w (ToLower uni coin)).2.clock = w.now.1 := by
                rw [hs.2]; rfl
              rw [hcl] at c2
              have hle := le_trans c2 (le_trans (le_of_eq c3.symm) c4)
              have c5 := Sub_mono _ _ e.timestamp hle
              have := hs.1
              omega
            · simp only [PriceService.cachePrice]
              rw [cacheSet_lookup_ne _ _ _ _ hk]
              exact h

theorem getPriceSeq_keeps_entry (uni : String → String) (coins : List String)
    (key : String) (e : PriceCache) :
    ∀ (s : PriceService) (w : World), s.cache.lookup key = some e →
      Sub (getPriceSeq uni coins s w).2.2.clock e.timestamp < cacheDuration →
      (getPriceSeq uni coins s w).2.1.cache.lookup key = some e := by
  induction coins with
  | nil => intro s w h _; exact h
  | cons coin coins ih =>
    intro s w h hwin
    simp only [getPriceSeq] at hwin ⊢
    apply ih _ _ _ hwin
    apply getPrice_keeps_entry uni s w coin key e h
    have := Sub_mono _ _ e.timestamp
      (getPriceSeq_clock_le uni coins (s.GetPrice uni w coin).2.1 (s.GetPrice uni w coin).2.2)
    omega

/-- The entry that a fetch leaves in the cache. -/
theorem getPrice_fetched_entry (uni : String → String) (s : PriceService) (w : World)
    (coin : String) (p : F64) (hstable : isStable (ToLower uni coin) = false)
    (hmiss : (s.getCachedPrice w (ToLower uni coin)).1.2 = false)
    (hok : (s.GetPrice uni w coin).1 = Except.ok p) :
    (s.GetPrice uni w coin).2.1.cache.lookup (ToLower uni coin)
      = some { price := p, timestamp := (s.GetPrice uni w coin).2.2.clock } := by
  unfold PriceService.GetPrice at hok ⊢
  simp only [hstable, hmiss, Bool.false_eq_true, if_false] at hok ⊢
  split at hok
  · simp at hok
  · rename_i hid
    simp only [hid, if_false]
    split at hok
    · simp at hok
    · rename_i price hp
      simp only [hp]
      simp only [Except.ok.injEq] at hok
      subst hok
      exact cacheSet_lookup _ _ _


/-- C12. After `GetPrice(coin)` has fetched the price `p` for a ticker that is not a
stablecoin, and after any further calls of `GetPrice` on the same service (`others`, no
`ClearCache`), a call `GetPrice(coin2)` with the same lowercase form, made less than
`cacheDuration` (5 minutes) after the time the price was stored, returns `p`; it sends
no GET and asks nothing of the provider, and the service is unchanged. -/
theorem getPrice_round_trip (uni : String → String) (s s1 s2 : PriceService)
    (w w1 w2 : World) (coin coin' : String) (p : F64) (others : List String)
    (hstable : isStable (ToLower uni coin) = false)
    (hmiss : (s.getCachedPrice w (ToLower uni coin)).1.2 = false)
    (hfetch : s.GetPrice uni w coin = (Except.ok p, s1, w1))
    (hothers : (getPriceSeq uni others s1 w1).2 = (s2, w2))
    (hsame : ToLower uni coin' = ToLower uni coin)
    (hwindow : Sub w2.now.1 w1.clock < cacheDuration) :
    s2.GetPrice uni w2 coin' = (Except.ok p, s2, w2.now.2) ∧
      requests w2.now.2.log = requests w2.log ∧ w2.now.2.responses = w2.responses := by
  refine ⟨?_, rfl, rfl⟩
  have h1 := getPrice_fetched_entry uni s w coin p hstable hmiss (by rw [hfetch])
  rw [hfetch] at h1
  dsimp only at h1
  have h2 := getPriceSeq_keeps_entry uni others (ToLower uni coin)
    { price := p, timestamp := w1.clock } s1 w1 h1
  rw [hothers] at h2
  dsimp only at h2
  have h3 := h2 (lt_of_le_of_lt (Sub_mono _ _ _ (World.clock_le_now w2)) hwindow)
  unfold PriceService.GetPrice
  simp [hsame, hstable, PriceService.getCachedPrice, h3, hwindow]

theorem getPrice_round_trip_witness :
    isStable (ToLower id "btc") = false ∧
      (NewPriceService.getCachedPrice exampleWorld (ToLower id "btc")).1.2 = false ∧
      NewPriceService.GetPrice id exampleWorld "btc"
        = (Except.ok (F64.fin false 45250 0), exampleAfterBtc.2.1, exampleAfterBtc.2.2) ∧
      (getPriceSeq id ["eth"] exampleAfterBtc.2.1 exampleAfterBtc.2.2).2
        = (exampleAfterEth.2.1, exampleAfterEth.2.2) ∧
      ToLower id "BTC" = ToLower id "btc" ∧
      Sub exampleAfterEth.2.2.now.1 exampleAfterBtc.2.2.clock < cacheDuration ∧
      exampleAfterEth.2.1.GetPrice id exampleAfterEth.2.2 "BTC"
        = (Except.ok (F64.fin false 45250 0), exampleAfterEth.2.1, exampleAfterEth.2.2.now.2) ∧
      requests exampleAfterEth.2.2.now.2.log = requests exampleAfterEth.2.2.log ∧
      exampleAfterEth.2.2.now.2.responses = exampleAfterEth.2.2.responses :=
  ⟨by decide, by decide, by decide, by decide, by decide, by decide,
    getPrice_round_trip id NewPriceService exampleAfterBtc.2.1 exampleAfterEth.2.1
      exampleWorld exampleAfterBtc.2.2 exampleAfterEth.2.2 "btc" "BTC" (F64.fin false 45250 0)
      ["eth"] (by decide) (by decide) (by decide) (by decide) (by decide) (by decide)⟩

theorem mapLen_eq_zero {β : Type} (m : List (String × β)) : mapLen m = 0 ↔ m = [] := by
  unfold mapLen
  rw [List.length_eq_zero, List.dedup_eq_nil, List.map_eq_nil_iff]

theorem priceSet_lookup (prices : List (String × F64)) (coin key : String) (price : F64) :
    (PriceService.priceSet prices coin price).lookup key
      = if key = coin then some price else prices.lookup key := by
  by_cases h : key = coin
  · subst h
    simp [PriceService.priceSet, List.lookup]
  · have h1 : (key == coin) = false := by simpa using h
    simp only [PriceService.priceSet, List.lookup, h1, if_neg h]
    induction prices with
    | nil => rfl
    | cons q prices ih =>
      obtain ⟨k, v⟩ := q
      by_cases hk : k = coin
      · subst hk
        simp [List.filter, List.lookup, h1, ih]
      · have h2 : (k != coin) = true := by simpa using hk
        simp only [List.filter, h2, List.lookup]
        split
        · rfl
        · exact ih

theorem priceSet_nodup (prices : List (String × F64)) (coin : String) (price : F64)
    (h : (prices.map Prod.fst).Nodup) :
    ((PriceService.priceSet prices coin price).map Prod.fst).Nodup := by
  simp only [PriceService.priceSet, List.map_cons, List.nodup_cons]
  constructor
  · simp [List.mem_map, List.mem_filter]
  · exact (h.sublist ((List.filter_sublist _).map _))

/-- The map that the assignments `prices[coin] = price` of `l`, in this order, make of
`prices`. -/
theorem foldl_priceSet_lookup (l : List (String × F64)) :
    ∀ (prices : List (String × F64)) (key : String),
      (l.foldl (fun m q => PriceService.priceSet m q.1 q.2) prices).lookup key
        = ((l.reverse.lookup key).orElse fun _ => prices.lookup key) := by
  induction l with
  | nil => intro prices key; rfl
  | cons q l ih =>
    intro prices key
    obtain ⟨c, p⟩ := q
    simp only [List.foldl_cons, ih, priceSet_lookup, List.reverse_cons]
    rw [List.lookup_append]
    cases h : l.reverse.lookup key with
    | some v => simp [Option.orElse, Option.or]
    | none =>
      by_cases hk : key = c
      · subst hk
        simp [Option.orElse, List.lookup, Option.or]
      · have h1 : (key == c) = false := by simpa using hk
        simp [Option.orElse, List.lookup, h1, hk, Option.or]

theorem foldl_priceSet_nodup (l : List (String × F64)) :
    ∀ (prices : List (String × F64)), (prices.map Prod.fst).Nodup →
      ((l.foldl (fun m q => PriceService.priceSet m q.1 q.2) prices).map Prod.fst).Nodup := by
  induction l with
  | nil => intro prices h; exact h
  | cons q l ih =>
    intro prices h
    exact ih _ (priceSet_nodup prices q.1 q.2 h)

theorem foldl_priceSet_eq_nil (l : List (String × F64)) :
    ∀ (prices : List (String × F64)),
      l.foldl (fun m q => PriceService.priceSet m q.1 q.2) prices = [] ↔ l = [] ∧ prices = [] := by
  induction l with
  | nil => intro prices; simp
  | cons q l ih =>
    intro prices
    simp only [List.foldl_cons, ih]
    simp [PriceService.priceSet]

/-- The loop of `GetPrices` makes the calls of `getPriceSeq` and sorts their results. -/
theorem getPricesLoop_eq (uni : String → String) (coins : List String) :
    ∀ (prices : List (String × F64)) (errors : List (String × PriceError))
      (s : PriceService) (w : World),
      PriceService.getPricesLoop uni coins prices errors s w
        = (((successes coins (getPriceSeq uni coins s w).1).foldl
              (fun m q => PriceService.priceSet m q.1 q.2) prices,
            errors ++ failures coins (getPriceSeq uni coins s w).1),
          (getPriceSeq uni coins s w).2) := by
  induction coins with
  | nil => intro prices errors s w; simp [PriceService.getPricesLoop, getPriceSeq, successes, failures]
  | cons coin coins ih =>
    intro prices errors s w
    simp only [PriceService.getPricesLoop, getPriceSeq]
    split
    · rename_i err he
      rw [ih, he]
      simp [successes, failures]
    · rename_i price he
      rw [ih, he]
      simp [successes, failures]

theorem getPriceSeq_length (uni : String → String) (coins : List String) :
    ∀ (s : PriceService) (w : World), (getPriceSeq uni coins s w).1.length = coins.length := by
  induction coins with
  | nil => intro s w; rfl
  | cons coin coins ih => intro s w; simp [getPriceSeq, ih]

/-- No call returned a price: every call returned an error. -/
theorem successes_eq_nil (coins : List String) :
    ∀ (results : List (Except PriceError F64)), results.length = coins.length →
      (successes coins results = [] ↔ ∀ r ∈ results, ∃ err, r = Except.error err) := by
  induction coins with
  | nil =>
    intro results h
    have : results = [] := List.length_eq_zero.mp h
    subst this
    simp [successes]
  | cons coin coins ih =>
    intro results h
    cases results with
    | nil => simp at h
    | cons r results =>
      have h1 : results.length = coins.length := by simpa using h
      cases r with
      | error err => simp [successes, ih results h1]
      | ok price => simp [successes]

theorem failures_length_pos (coins : List String) :
    ∀ (results : List (Except PriceError F64)), results.length = coins.length →
      successes coins results = [] → (0 < (failures coins results).length ↔ coins ≠ []) := by
  intro results h hs
  cases coins with
  | nil => simp [failures]
  | cons coin coins =>
    cases results with
    | nil => simp at h
    | cons r results =>
      cases r with
      | error err => simp [failures]
      | ok price => simp [successes] at hs

theorem failures_all (coins : List String) :
    ∀ (results : List (Except PriceError F64)), results.length = coins.length →
      successes coins results = [] → (failures coins results).map Prod.fst = coins := by
  induction coins with
  | nil => intro results _ _; cases results <;> rfl
  | cons coin coins ih =>
    intro results h hs
    cases results with
    | nil => simp at h
    | cons r results =>
      have h1 : results.length = coins.length := by simpa using h
      cases r with
      | error err =>
        simp only [successes] at hs
        simp [failures, ih results h1 hs]
      | ok price => simp [successes] at hs

theorem lookup_isSome_iff {β : Type} (l : List (String × β)) (k : String) :
    (l.lookup k).isSome = true ↔ k ∈ l.map Prod.fst := by
  induction l with
  | nil => simp
  | cons q l ih =>
    obtain ⟨c, v⟩ := q
    by_cases hk : k = c
    · subst hk
      simp [List.lookup]
    · have h1 : (k == c) = false := by simpa using hk
      simp only [List.lookup, h1, ih, List.map_cons, List.mem_cons, hk, false_or]

/-- C13, as the code has it. `GetPrices` makes the calls `GetPrice(coins[0])`,
`GetPrice(coins[1])`, ... in this order on the service. It returns an error exactly when
the list is not empty and every call returned an error; the error then holds the error
of each coin, in order. Otherwise it returns a map whose keys are the tickers, as passed
in, of the calls that returned a price, each with the price its last such call
returned. -/
theorem getPrices_tolerates_failure (uni : String → String) (s : PriceService) (w : World)
    (coins : List String) :
    (s.GetPrices uni w coins).2 = (getPriceSeq uni coins s w).2 ∧
      ((∃ errs, (s.GetPrices uni w coins).1 = Except.error errs) ↔
        coins ≠ [] ∧ ∀ r ∈ (getPriceSeq uni coins s w).1, ∃ err, r = Except.error err) ∧
      (∀ errs, (s.GetPrices uni w coins).1 = Except.error errs →
        errs = failures coins (getPriceSeq uni coins s w).1 ∧ errs.map Prod.fst = coins) ∧
      ∀ prices, (s.GetPrices uni w coins).1 = Except.ok prices →
        (prices.map Prod.fst).Nodup ∧
          (∀ k, k ∈ prices.map Prod.fst ↔
            k ∈ (successes coins (getPriceSeq uni coins s w).1).map Prod.fst) ∧
          ∀ k, prices.lookup k
            = (successes coins (getPriceSeq uni coins s w).1).reverse.lookup k := by
  have hlen := getPriceSeq_length uni coins s w
  have hnil := successes_eq_nil coins _ hlen
  have hloop := getPricesLoop_eq uni coins [] [] s w
  have hcond : ((PriceService.getPricesLoop uni coins [] [] s w).1.2.length > 0 ∧
      mapLen (PriceService.getPricesLoop uni coins [] [] s w).1.1 = 0) ↔
      coins ≠ [] ∧ ∀ r ∈ (getPriceSeq uni coins s w).1, ∃ err, r = Except.error err := by
    rw [hloop, mapLen_eq_zero]
    simp only [List.nil_append, foldl_priceSet_eq_nil, and_true]
    constructor
    · rintro ⟨h1, h2⟩
      exact ⟨(failures_length_pos coins _ hlen h2).mp h1, hnil.mp h2⟩
    · rintro ⟨h1, h2⟩
      exact ⟨(failures_length_pos coins _ hlen (hnil.mpr h2)).mpr h1, hnil.mpr h2⟩
  unfold PriceService.GetPrices
  dsimp only
  by_cases hc : (PriceService.getPricesLoop uni coins [] [] s w).1.2.length > 0 ∧
      mapLen (PriceService.getPricesLoop uni coins [] [] s w).1.1 = 0
  · rw [if_pos hc]
    have hc2 := hcond.mp hc
    refine ⟨by rw [hloop], ⟨fun _ => hc2, fun _ => ⟨_, rfl⟩⟩, ?_, ?_⟩
    · intro errs he
      simp only [Except.error.injEq] at he
      subst he
      rw [hloop]
      refine ⟨by simp, ?_⟩
      simpa using failures_all coins _ hlen (hnil.mpr hc2.2)
    · intro prices he
      simp at he
  · rw [if_neg hc]
    refine ⟨by rw [hloop], ⟨fun h => ?_, fun h => absurd (hcond.mpr h) hc⟩, ?_, ?_⟩
    · obtain ⟨errs, he⟩ := h
      simp at he
    · intro errs he
      simp at he
    · intro prices he
      simp only [Except.ok.injEq] at he
      subst he
      rw [hloop]
      dsimp only
      have hl : ∀ k, ((successes coins (getPriceSeq uni coins s w).1).foldl
          (fun m q => PriceService.priceSet m q.1 q.2) []).lookup k
          = (successes coins (getPriceSeq uni coins s w).1).reverse.lookup k := by
        intro k
        rw [foldl_priceSet_lookup]
        cases (successes coins (getPriceSeq uni coins s w).1).reverse.lookup k <;> rfl
      refine ⟨foldl_priceSet_nodup _ [] List.nodup_nil, ?_, hl⟩
      intro k
      rw [← lookup_isSome_iff, hl, lookup_isSome_iff]
      simp

/-- C13, as stated, fails: for the empty list `GetPrices` returns the empty map and no
error, though every lookup it made, none, failed. -/
theorem getPrices_empty_list :
    (NewPriceService.GetPrices id batchWorld []).1 = Except.ok [] ∧
      ¬ ((∃ errs, (NewPriceService.GetPrices id batchWorld []).1 = Except.error errs) ↔
        ∀ r ∈ (getPriceSeq id [] NewPriceService batchWorld).1,
          ∃ err, r = Except.error err) := by
  have h : (NewPriceService.GetPrices id batchWorld []).1 = Except.ok [] := by decide
  refine ⟨h, fun hiff => ?_⟩
  obtain ⟨errs, he⟩ := hiff.mpr (fun r hr => by simp [getPriceSeq] at hr)
  rw [h] at he
  exact absurd he (by simp)

/-- The batch of `TestGetPrices_Batch` with an unknown ticker in between, and a batch of
unknown tickers. -/
theorem getPrices_batch_example :
    (NewPriceService.GetPrices id batchWorld ["btc", "nope", "eth"]).1
        = Except.ok [("eth", F64.fin false 3250 0), ("btc", F64.fin false 90501 (-1))] ∧
      (getPriceSeq id ["btc", "nope", "eth"] NewPriceService batchWorld).1
        = [Except.ok (F64.fin false 90501 (-1)), Except.error (PriceError.unknownCoin "nope"),
            Except.ok (F64.fin false 3250 0)] ∧
      (NewPriceService.GetPrices id batchWorld ["zzz", "nope"]).1
        = Except.error [("zzz", PriceError.unknownCoin "zzz"),
            ("nope", PriceError.unknownCoin "nope")] := by
  decide

theorem fetch_responses (s : PriceService) (w : World) (coinID : String) :
    (s.fetchFromCoinGecko w coinID).2.responses = w.responses.tail := by
  unfold PriceService.fetchFromCoinGecko
  simp only [World.nextResponse, World.record]
  repeat' split
  all_goals rfl

theorem getPrice_baseURL (uni : String → String) (s : PriceService) (w : World)
    (coin : String) : (s.GetPrice uni w coin).2.1.baseURL = s.baseURL := by
  unfold PriceService.GetPrice
  dsimp only
  repeat' split
  all_goals rfl

/-- A call of `GetPrice` sends one GET at most. -/
theorem getPrice_requests_cases (uni : String → String) (s : PriceService) (w : World)
    (coin : String) :
    requests (s.GetPrice uni w coin).2.2.log = requests w.log ∨
      ∃ url, requests (s.GetPrice uni w coin).2.2.log = url :: requests w.log := by
  rcases getPrice_log uni s w coin with h | ⟨t, h⟩ | ⟨url, t, h⟩
  · rw [h]; exact Or.inl rfl
  · rw [h]; exact Or.inl rfl
  · rw [h]; exact Or.inr ⟨url, rfl⟩

/-- A failing call of `GetPrice` for a ticker that has a provider identifier, when the
request can be built: one GET is sent and one outcome of the provider is used. -/
theorem getPrice_failure_request (uni : String → String) (s : PriceService) (w : World)
    (coin : String) (err : PriceError)
    (hid : getCoinGeckoID uni (ToLower uni coin) ≠ "")
    (hbuilt : w.responses.headD HTTPResult.transportError ≠ HTTPResult.createError)
    (hfail : (s.GetPrice uni w coin).1 = Except.error err) :
    requests (s.GetPrice uni w coin).2.2.log
        = PriceService.priceURL s.baseURL (getCoinGeckoID uni (ToLower uni coin))
          :: requests w.log ∧
      (s.GetPrice uni w coin).2.2.responses = w.responses.tail := by
  have hresp : (s.rateLimit (s.getCachedPrice w (ToLower uni coin)).2).2.responses
      = w.responses := by
    rw [rateLimit_responses, getCachedPrice_responses]
  have hlog : requests (s.rateLimit (s.getCachedPrice w (ToLower uni coin)).2).2.log
      = requests w.log := by
    rw [rateLimit_log, getCachedPrice_log]
    rfl
  have hreq := fetch_requests (s.rateLimit (s.getCachedPrice w (ToLower uni coin)).2).1
    (s.rateLimit (s.getCachedPrice w (ToLower uni coin)).2).2
    (getCoinGeckoID uni (ToLower uni coin)) (by rw [hresp]; exact hbuilt)
  rw [hlog, rateLimit_baseURL] at hreq
  have hr2 := fetch_responses (s.rateLimit (s.getCachedPrice w (ToLower uni coin)).2).1
    (s.rateLimit (s.getCachedPrice w (ToLower uni coin)).2).2
    (getCoinGeckoID uni (ToLower uni coin))
  rw [hresp] at hr2
  unfold PriceService.GetPrice at hfail ⊢
  dsimp only at hfail ⊢
  split
  · simp [*] at hfail
  · split
    · simp [*] at hfail
    · simp only [hid, if_false] at hfail ⊢
      split
      · exact ⟨hreq, hr2⟩
      · simp [*] at hfail

theorem headD_ne_of_not_mem (l : List HTTPResult) (h : HTTPResult.createError ∉ l) :
    l.headD HTTPResult.transportError ≠ HTTPResult.createError := by
  cases l with
  | nil => simp
  | cons r l =>
    simp only [List.headD_cons]
    intro hr
    exact h (by rw [hr]; exact List.mem_cons_self _ _)

/-- The calls of `k` failing lookups of one ticker that has a provider identifier. -/
theorem getPriceSeq_failures (uni : String → String) (coin : String)
    (hid : getCoinGeckoID uni (ToLower uni coin) ≠ "") (k : Nat) :
    ∀ (s : PriceService) (w : World), HTTPResult.createError ∉ w.responses →
      (∀ r ∈ (getPriceSeq uni (List.replicate k coin) s w).1, ∃ err, r = Except.error err) →
      (getPriceSeq uni (List.replicate k coin) s w).2.1.cache = s.cache ∧
        requests (getPriceSeq uni (List.replicate k coin) s w).2.2.log
          = List.replicate k
              (PriceService.priceURL s.baseURL (getCoinGeckoID uni (ToLower uni coin)))
            ++ requests w.log := by
  induction k with
  | zero => intro s w _ _; exact ⟨rfl, rfl⟩
  | succ k ih =>
    intro s w hbuilt hfail
    simp only [List.replicate_succ, getPriceSeq, List.mem_cons, forall_eq_or_imp] at hfail ⊢
    obtain ⟨⟨err, he⟩, hrest⟩ := hfail
    have h1 := getPrice_failure_request uni s w coin err hid
      (headD_ne_of_not_mem _ hbuilt) he
    have h2 := ih (s.GetPrice uni w coin).2.1 (s.GetPrice uni w coin).2.2
      (by rw [h1.2]; exact fun h => hbuilt (List.mem_of_mem_tail h)) hrest
    rw [h2.1, h2.2, h1.1, getPrice_baseURL, getPrice_error_cache uni s w coin err he]
    refine ⟨rfl, ?_⟩
    rw [← List.replicate_succ, List.replicate_succ', List.append_assoc]
    rfl

/-- C14. A call of `GetPrice` that returns an error leaves the cache exactly as it was,
and a call of `GetPrice` sends one GET at most. So `k` failing lookups in a row of one
ticker that has a provider identifier, the requests being built, leave the cache as it
was and send exactly `k` GETs. -/
theorem getPrice_failure_not_cached (uni : String → String) (s : PriceService) (w : World)
    (coin : String) (k : Nat)
    (hid : getCoinGeckoID uni (ToLower uni coin) ≠ "")
    (hbuilt : HTTPResult.createError ∉ w.responses)
    (hfail : ∀ r ∈ (getPriceSeq uni (List.replicate k coin) s w).1,
      ∃ err, r = Except.error err) :
    (∀ coin' err, (s.GetPrice uni w coin').1 = Except.error err →
        (s.GetPrice uni w coin').2.1.cache = s.cache) ∧
      (∀ coin', requests (s.GetPrice uni w coin').2.2.log = requests w.log ∨
        ∃ url, requests (s.GetPrice uni w coin').2.2.log = url :: requests w.log) ∧
      (getPriceSeq uni (List.replicate k coin) s w).2.1.cache = s.cache ∧
      requests (getPriceSeq uni (List.replicate k coin) s w).2.2.log
        = List.replicate k
            (PriceService.priceURL s.baseURL (getCoinGeckoID uni (ToLower uni coin)))
          ++ requests w.log :=
  ⟨fun coin' err h => getPrice_error_cache uni s w coin' err h,
    fun coin' => getPrice_requests_cases uni s w coin',
    getPriceSeq_failures uni coin hid k s w hbuilt hfail⟩

theorem getPrice_failure_not_cached_witness :
    getCoinGeckoID id (ToLower id "sol") ≠ "" ∧
      HTTPResult.createError ∉ solWorld.responses ∧
      (∀ r ∈ (getPriceSeq id (List.replicate 3 "sol") NewPriceService solWorld).1,
        ∃ err, r = Except.error err) ∧
      (getPriceSeq id (List.replicate 3 "sol") NewPriceService solWorld).2.1.cache = [] ∧
      (requests (getPriceSeq id (List.replicate 3 "sol") NewPriceService solWorld).2.2.log).length
        = 3 :=
  have hfail : ∀ r ∈ (getPriceSeq id (List.replicate 3 "sol") NewPriceService solWorld).1,
      ∃ err, r = Except.error err := by
    have h : (getPriceSeq id (List.replicate 3 "sol") NewPriceService solWorld).1
        = List.replicate 3 (Except.error (PriceError.priceNotFound "solana")) := by decide
    rw [h]
    intro r hr
    exact ⟨_, List.eq_of_mem_replicate hr⟩
  have h := getPrice_failure_not_cached id NewPriceService solWorld "sol" 3 (by decide)
    (by decide) hfail
  ⟨by decide, by decide, hfail, h.2.2.1, by rw [h.2.2.2]; rfl⟩

/-- C15. `CacheSize` is the number of distinct tickers in the cache, whatever the
timestamps of the entries. After `ClearCache` it is 0, and `ClearCache` changes
neither `lastCall` nor the base URL. A cache holding two distinct coins, set directly
or stored by `cachePrice` after `ClearCache`, has `CacheSize` 2. -/
theorem cacheSize_clearCache (s : PriceService) (w w' : World) (k1 k2 : String)
    (e1 e2 : PriceCache) (hne : k1 ≠ k2) :
    s.ClearCache.CacheSize = 0 ∧
      s.ClearCache.lastCall = s.lastCall ∧ s.ClearCache.baseURL = s.baseURL ∧
      s.CacheSize = (s.cache.map Prod.fst).toFinset.card ∧
      (∀ f : PriceCache → PriceCache,
        PriceService.CacheSize { s with cache := s.cache.map fun p => (p.1, f p.2) }
          = s.CacheSize) ∧
      PriceService.CacheSize { s with cache := [(k1, e1), (k2, e2)] } = 2 ∧
      ((s.ClearCache.cachePrice w k1 e1.price).1.cachePrice w' k2 e2.price).1.CacheSize = 2 := by
  have h2 : ([k1, k2] : List String).dedup = [k1, k2] :=
    List.dedup_eq_self.mpr (by simp [hne])
  have h2' : ([k2, k1] : List String).dedup = [k2, k1] :=
    List.dedup_eq_self.mpr (by simp [Ne.symm hne])
  refine ⟨rfl, rfl, rfl, ?_, ?_, ?_, ?_⟩
  · simp only [PriceService.CacheSize, mapLen, List.card_toFinset]
  · intro f
    simp only [PriceService.CacheSize, mapLen, List.map_map]
    rfl
  · simp only [PriceService.CacheSize, mapLen, List.map_cons, List.map_nil, h2]
    rfl
  · have hf : (k1 != k2) = true := by simpa using hne
    simp only [PriceService.CacheSize, mapLen, PriceService.cachePrice,
      PriceService.ClearCache, PriceService.cacheSet, List.filter, hf, List.map_cons,
      List.map_nil, h2']
    rfl

theorem cacheSize_clearCache_witness :
    "btc" ≠ "eth" ∧
      exampleAfterBtc.2.1.CacheSize = 1 ∧
      exampleAfterBtc.2.1.ClearCache.CacheSize = 0 ∧
      exampleAfterBtc.2.1.ClearCache.lastCall = exampleAfterBtc.2.1.lastCall ∧
      PriceService.CacheSize { exampleAfterBtc.2.1 with
        cache := [("btc", { price := F64.fin false 45000 0, timestamp := 63000000000000000000 }),
                  ("eth", { price := F64.fin false 3000 0, timestamp := 63000000000000000000 })] }
        = 2 :=
  have h := cacheSize_clearCache exampleAfterBtc.2.1 exampleWorld exampleWorld "btc" "eth"
    { price := F64.fin false 45000 0, timestamp := 63000000000000000000 }
    { price := F64.fin false 3000 0, timestamp := 63000000000000000000 } (by decide)
  ⟨by decide, by decide, h.1, h.2.1, h.2.2.2.2.2.1⟩

/-- C16. `IsStablecoin(coin)` is true exactly when the lowercase form of `coin` is one of
usdt, usdc, dai, busd, tusd, gusd, fusd, usdd; it is true of `"USDT"` and `"TUSd"`, false
of `"crv"`, of btc, eth and xmr, and of each of the privacy coins, which all have a
provider identifier. -/
theorem isStablecoin_table (uni : String → String) (coin : String) :
    (IsStablecoin uni coin = true ↔
        ToLower uni coin ∈ ["usdt", "usdc", "dai", "busd", "tusd", "gusd", "fusd", "usdd"]) ∧
      IsStablecoin uni "USDT" = true ∧ IsStablecoin uni "TUSd" = true ∧
      IsStablecoin uni "crv" = false ∧
      (∀ c ∈ ["btc", "eth", "xmr"], IsStablecoin uni c = false) ∧
      ∀ c ∈ ["xmr", "arrr", "zec", "dero", "wow", "firo", "zano", "dash", "bdx", "ban"],
        IsStablecoin uni c = false ∧ getCoinGeckoID uni c ≠ "" := by
  refine ⟨⟨?_, fun h => isStable_of_mem _ h⟩, rfl, rfl, rfl, ?_, ?_⟩
  · intro h
    unfold IsStablecoin isStable stablecoinMap at h
    generalize ToLower uni coin = k at h ⊢
    simp only [List.lookup] at h
    simp only [List.mem_cons, List.mem_singleton, List.not_mem_nil, or_false]
    repeat' split at h
    all_goals simp_all
  · intro c hc
    simp only [List.mem_cons, List.mem_singleton, List.not_mem_nil, or_false] at hc
    rcases hc with h | h | h <;> subst h <;> rfl
  · have hd : ∀ c ∈ ["xmr", "arrr", "zec", "dero", "wow", "firo", "zano", "dash", "bdx", "ban"],
        IsStablecoin id c = false ∧ getCoinGeckoID id c ≠ "" := by decide
    intro c hc
    have key : IsStablecoin uni c = IsStablecoin id c ∧
        getCoinGeckoID uni c = getCoinGeckoID id c := by
      simp only [List.mem_cons, List.mem_singleton, List.not_mem_nil, or_false] at hc
      rcases hc with h | h | h | h | h | h | h | h | h | h <;> subst h <;> exact ⟨rfl, rfl⟩
    rw [key.1, key.2]
    exact hd c hc

/-- C18. A call of `GetPrice` for a ticker that is not a stablecoin, has no fresh cache
entry and has no provider identifier fails with the unknown-coin error after it has
passed the rate limiter: the service and the world are those `rateLimit` leaves, so
`lastCall` is the time at the return, `rateLimitDelay` after the former `lastCall` at
least, and the log has one more pass and no more GET; the cache is unchanged. -/
theorem getPrice_unknown_passes_limiter (uni : String → String) (s : PriceService)
    (w : World) (coin : String)
    (hstable : isStable (ToLower uni coin) = false)
    (hmiss : (s.getCachedPrice w (ToLower uni coin)).1.2 = false)
    (hid : getCoinGeckoID uni (ToLower uni coin) = "")
    (hpast : s.lastCall ≤ w.clock) :
    (s.GetPrice uni w coin).1 = Except.error (PriceError.unknownCoin coin) ∧
      (s.GetPrice uni w coin).2 = s.rateLimit (s.getCachedPrice w (ToLower uni coin)).2 ∧
      (s.GetPrice uni w coin).2.1.cache = s.cache ∧
      (s.GetPrice uni w coin).2.1.lastCall = (s.GetPrice uni w coin).2.2.clock ∧
      s.lastCall + rateLimitDelay ≤ (s.GetPrice uni w coin).2.1.lastCall ∧
      (s.GetPrice uni w coin).2.2.log
        = Event.pass (s.GetPrice uni w coin).2.1.lastCall :: w.log ∧
      requests (s.GetPrice uni w coin).2.2.log = requests w.log ∧
      (s.GetPrice uni w coin).2.2.responses = w.responses := by
  have hg : s.GetPrice uni w coin
      = (Except.error (PriceError.unknownCoin coin),
          s.rateLimit (s.getCachedPrice w (ToLower uni coin)).2) := by
    unfold PriceService.GetPrice
    simp only [hstable, hmiss, hid, Bool.false_eq_true, if_false, if_true]
  have hlog := rateLimit_log s (s.getCachedPrice w (ToLower uni coin)).2
  rw [getCachedPrice_log] at hlog
  rw [hg]
  refine ⟨rfl, rfl, rfl, rfl, ?_, hlog, ?_, ?_⟩
  · exact rateLimit_spaced s _ (le_trans hpast (getCachedPrice_clock s w _))
  · dsimp only
    rw [hlog]
    rfl
  · dsimp only
    rw [rateLimit_responses, getCachedPrice_responses]

theorem getPrice_unknown_passes_limiter_witness :
    isStable (ToLower id "nope") = false ∧
      (exampleAfterBtc.2.1.getCachedPrice exampleAfterBtc.2.2 (ToLower id "nope")).1.2 = false ∧
      getCoinGeckoID id (ToLower id "nope") = "" ∧
      exampleAfterBtc.2.1.lastCall ≤ exampleAfterBtc.2.2.clock ∧
      (exampleAfterBtc.2.1.GetPrice id exampleAfterBtc.2.2 "nope").1
        = Except.error (PriceError.unknownCoin "nope") ∧
      (exampleAfterBtc.2.1.GetPrice id exampleAfterBtc.2.2 "nope").2.1.lastCall
        = 63000000000100000025 ∧
      exampleAfterBtc.2.1.lastCall = 63000000000000000012 ∧
      requests (exampleAfterBtc.2.1.GetPrice id exampleAfterBtc.2.2 "nope").2.2.log
        = requests exampleAfterBtc.2.2.log :=
  have h := getPrice_unknown_passes_limiter id exampleAfterBtc.2.1 exampleAfterBtc.2.2 "nope"
    (by decide) (by decide) (by decide) (by decide)
  ⟨by decide, by decide, by decide, by decide, h.1, by decide, by decide, h.2.2.2.2.2.2.1⟩

theorem toLower_ascii_char :
    ∀ n, n < 128 → (Char.toLower (Char.toLower (Char.ofNat n)) = Char.toLower (Char.ofNat n) ∧
      (Char.toLower (Char.ofNat n)).toNat < 128) := by
  decide

/-- On a string of ASCII bytes, `strings.ToLower` yields a string of ASCII bytes that it
leaves unchanged. -/
theorem toLower_ascii_list (l : List Char) (h : l.all (fun c => decide (c.toNat < 128)) = true) :
    (l.map Char.toLower).all (fun c => decide (c.toNat < 128)) = true ∧
      (l.map Char.toLower).map Char.toLower = l.map Char.toLower := by
  induction l with
  | nil => exact ⟨rfl, rfl⟩
  | cons c l ih =>
    simp only [List.all_cons, Bool.and_eq_true, decide_eq_true_eq] at h
    have hc := toLower_ascii_char c.toNat h.1
    rw [Char.ofNat_toNat] at hc
    obtain ⟨i1, i2⟩ := ih h.2
    simp only [List.map_cons, List.all_cons, Bool.and_eq_true, decide_eq_true_eq]
    exact ⟨⟨hc.2, i1⟩, by rw [hc.1, i2]⟩

/-- Function `strings.ToLower` leaves its results unchanged, when the Unicode mapping
does. -/
theorem ToLower_idem (uni : String → String)
    (huni : ∀ x : String, x.data.all (fun c => decide (c.toNat < 128)) = false →
      ToLower uni (uni x) = uni x)
    (coin : String) : ToLower uni (ToLower uni coin) = ToLower uni coin := by
  by_cases h : coin.data.all (fun c => decide (c.toNat < 128)) = true
  · have h2 := toLower_ascii_list coin.data h
    have h3 : ToLower uni coin = String.mk (coin.data.map Char.toLower) := by
      unfold ToLower
      rw [if_pos h]
    rw [h3]
    unfold ToLower
    rw [if_pos h2.1, h2.2]
  · have h3 : ToLower uni coin = uni coin := by
      unfold ToLower
      rw [if_neg h]
    rw [h3]
    exact huni coin (by simpa using h)

theorem getPriceSeq_reach (uni : String → String) (coins : List String) :
    ∀ (s : PriceService) (w : World), Reach uni s w →
      Reach uni (getPriceSeq uni coins s w).2.1 (getPriceSeq uni coins s w).2.2 := by
  induction coins with
  | nil => intro s w h; exact h
  | cons coin coins ih =>
    intro s w h
    simp only [getPriceSeq]
    exact ih _ _ (Reach.getPrice s w coin h)

theorem getPrices_state (uni : String → String) (s : PriceService) (w : World)
    (coins : List String) : (s.GetPrices uni w coins).2 = (getPriceSeq uni coins s w).2 := by
  unfold PriceService.GetPrices
  dsimp only
  split <;> rw [getPricesLoop_eq]

/-- What `GetPrices` reaches, calls of `GetPrice` reach. -/
theorem reachable_reach (uni : String → String) (s : PriceService) (w : World)
    (h : Reachable uni s w) : Reach uni s w := by
  induction h with
  | init baseURL w hclock hlog => exact Reach.init baseURL w hclock hlog
  | getPrice s w coin _ ih => exact Reach.getPrice s w coin ih
  | getPrices s w coins _ ih =>
    rw [getPrices_state]
    exact getPriceSeq_reach uni coins s w ih
  | clearCache s w _ ih => exact Reach.clearCache s w ih

/-- `GetPrice` stores prices under lowercase forms of tickers only. -/
theorem getPrice_cacheKeysLower (uni : String → String) (s : PriceService) (w : World)
    (coin : String) (h : ∀ p ∈ s.cache, ∃ c, p.1 = ToLower uni c) :
    ∀ p ∈ (s.GetPrice uni w coin).2.1.cache, ∃ c, p.1 = ToLower uni c := by
  unfold PriceService.GetPrice
  dsimp only
  split
  · exact h
  · split
    · exact h
    · split
      · exact h
      · split
        · exact h
        · intro p hp
          simp only [PriceService.cachePrice, PriceService.cacheSet, List.mem_cons,
            List.mem_filter] at hp
          rcases hp with hp | hp
          · subst hp
            exact ⟨coin, rfl⟩
          · exact h p hp.1

theorem reach_cacheKeysLower (uni : String → String) (s : PriceService) (w : World)
    (h : Reach uni s w) : ∀ p ∈ s.cache, ∃ c, p.1 = ToLower uni c := by
  induction h with
  | init baseURL w hclock hlog => intro p hp; simp [NewPriceServiceWithURL] at hp
  | getPrice s w coin _ ih => exact getPrice_cacheKeysLower uni s w coin ih
  | clearCache s w _ ih => intro p hp; simp [PriceService.ClearCache] at hp

theorem lookup_getD_ne {l : List (String × String)} {k : String}
    (h : (l.lookup k).getD "" ≠ "") : k ∈ l.map Prod.fst := by
  rw [← lookup_isSome_iff]
  cases hl : l.lookup k with
  | none => rw [hl] at h; exact absurd rfl h
  | some v => rfl

/-- C19. In every state reachable from a new service through `GetPrice`, `GetPrices`
and `ClearCache`, every key of the cache is a lowercase ticker, is a key of `coinIDMap`
and is not a stablecoin; so no stablecoin and no ticker without a provider identifier
has a cache entry, and `CacheSize` is at most 42, the number of entries of `coinIDMap`
that are not stablecoins. The hypothesis on `uni` is that `strings.ToLower` leaves its
own results unchanged. -/
theorem reachable_cache_keys (uni : String → String)
    (huni : ∀ x : String, x.data.all (fun c => decide (c.toNat < 128)) = false →
      ToLower uni (uni x) = uni x)
    (s : PriceService) (w : World) (h : Reachable uni s w) :
    (∀ p ∈ s.cache, ToLower uni p.1 = p.1 ∧ p.1 ∈ coinIDMap.map Prod.fst ∧
        IsStablecoin uni p.1 = false) ∧
      (∀ coin, IsStablecoin uni coin = true → s.cache.lookup (ToLower uni coin) = none) ∧
      (∀ coin, getCoinGeckoID uni coin = "" → s.cache.lookup (ToLower uni coin) = none) ∧
      s.CacheSize ≤ (coinIDMap.filter fun p => !isStable p.1).length ∧
      (coinIDMap.filter fun p => !isStable p.1).length = 42 := by
  have hr := reachable_reach uni s w h
  have hk := reach_cacheKeysKnown uni s w hr
  have hl := reach_cacheKeysLower uni s w hr
  have hkeys : ∀ p ∈ s.cache, ToLower uni p.1 = p.1 ∧ p.1 ∈ coinIDMap.map Prod.fst ∧
      IsStablecoin uni p.1 = false := by
    intro p hp
    obtain ⟨c, hc⟩ := hl p hp
    have hfix : ToLower uni p.1 = p.1 := by rw [hc]; exact ToLower_idem uni huni c
    obtain ⟨h1, h2⟩ := hk p hp
    refine ⟨hfix, ?_, ?_⟩
    · unfold getCoinGeckoID at h2
      rw [hfix] at h2
      exact lookup_getD_ne h2
    · unfold IsStablecoin
      rw [hfix]
      exact h1
  refine ⟨hkeys, ?_, ?_, ?_, by decide⟩
  · intro coin hst
    cases hc : s.cache.lookup (ToLower uni coin) with
    | none => rfl
    | some e =>
      have h3 := (hkeys _ (lookup_mem _ _ _ hc)).2.2
      unfold IsStablecoin at h3 hst
      rw [ToLower_idem uni huni] at h3
      rw [h3] at hst
      exact absurd hst (by simp)
  · intro coin hid
    cases hc : s.cache.lookup (ToLower uni coin) with
    | none => rfl
    | some e =>
      have h3 := (hk _ (lookup_mem _ _ _ hc)).2
      unfold getCoinGeckoID at h3 hid
      rw [ToLower_idem uni huni] at h3
      exact absurd hid h3
  · unfold PriceService.CacheSize mapLen
    rw [← List.length_map (coinIDMap.filter fun p => !isStable p.1) Prod.fst]
    apply List.Subperm.length_le
    have hsub : (s.cache.map Prod.fst).dedup
        ⊆ (coinIDMap.filter fun p => !isStable p.1).map Prod.fst := by
      intro k hkm
      rw [List.mem_dedup, List.mem_map] at hkm
      obtain ⟨p, hp, rfl⟩ := hkm
      obtain ⟨_, h2, h3⟩ := hkeys p hp
      rw [List.mem_map] at h2 ⊢
      obtain ⟨q, hq, hqp⟩ := h2
      refine ⟨q, List.mem_filter.mpr ⟨hq, ?_⟩, hqp⟩
      rw [hqp]
      have h4 := (hk p hp).1
      simp [h4]
    exact List.subperm_of_subset (List.nodup_dedup _) hsub

theorem reachable_cache_keys_witness :
    (∀ x : String, x.data.all (fun c => decide (c.toNat < 128)) = false →
        ToLower id (id x) = id x) ∧
      Reachable id (NewPriceService.GetPrices id batchWorld ["btc", "eth"]).2.1
        (NewPriceService.GetPrices id batchWorld ["btc", "eth"]).2.2 ∧
      (NewPriceService.GetPrices id batchWorld ["btc", "eth"]).2.1.cache.map Prod.fst
        = ["eth", "btc"] ∧
      (NewPriceService.GetPrices id batchWorld ["btc", "eth"]).2.1.CacheSize ≤ 42 :=
  have huni : ∀ x : String, x.data.all (fun c => decide (c.toNat < 128)) = false →
      ToLower id (id x) = id x := fun x hx => by simp [ToLower, hx]
  have hreach : Reachable id (NewPriceService.GetPrices id batchWorld ["btc", "eth"]).2.1
      (NewPriceService.GetPrices id batchWorld ["btc", "eth"]).2.2 :=
    Reachable.getPrices _ _ ["btc", "eth"]
      (Reachable.init coinGeckoURL batchWorld (by decide) rfl)
  have h := reachable_cache_keys id huni _ _ hreach
  ⟨huni, hreach, by decide, h.2.2.2.2 ▸ h.2.2.2.1⟩

/-! ## Reading and exchanging elements -/

section SortingLemmas

variable {E : Type} [Inhabited E]

theorem el_cons_zero (x : E) (xs : List E) : el (x :: xs) 0 = x := rfl

theorem el_cons_succ (x : E) (xs : List E) (i : Nat) : el (x :: xs) (i + 1) = el xs i := rfl

theorem el_mem (data : List E) (i : Nat) (h : i < data.length) : el data i ∈ data := by
  induction data generalizing i with
  | nil => simp at h
  | cons x xs ih =>
    cases i with
    | zero => exact List.mem_cons_self _ _
    | succ i => exact List.mem_cons_of_mem _ (ih i (by simpa using h))

theorem el_set (data : List E) (i k : Nat) (x : E) (h : i < data.length) :
    el (data.set i x) k = if k = i then x else el data k := by
  induction data generalizing i k with
  | nil => simp at h
  | cons y ys ih =>
    cases i with
    | zero =>
      cases k with
      | zero => rfl
      | succ k => simp [el, List.getD]
    | succ i =>
      cases k with
      | zero => simp [el, List.getD]
      | succ k =>
        have := ih i k (by simpa using h)
        simp only [List.set_cons_succ, el_cons_succ, this]
        simp

theorem length_swap (data : List E) (i j : Nat) : (swap data i j).length = data.length := by
  simp [swap]

theorem el_swap (data : List E) (i j k : Nat) (hi : i < data.length) (hj : j < data.length) :
    el (swap data i j) k
      = if k = j then el data i else if k = i then el data j else el data k := by
  unfold swap
  rw [el_set _ _ _ _ (by simpa using hj), el_set _ _ _ _ hi]

theorem set_perm_cons (xs : List E) (j : Nat) (x : E) (h : j < xs.length) :
    (el xs j :: xs.set j x).Perm (x :: xs) := by
  induction xs generalizing j with
  | nil => simp at h
  | cons y ys ih =>
    cases j with
    | zero => exact List.Perm.swap _ _ _
    | succ j =>
      have h1 := ih j (by simpa using h)
      simp only [el_cons_succ, List.set_cons_succ]
      exact ((List.Perm.swap _ _ _).trans (h1.cons y)).trans (List.Perm.swap _ _ _)

theorem swap_perm (data : List E) (i j : Nat) (hi : i < data.length) (hj : j < data.length) :
    (swap data i j).Perm data := by
  induction data generalizing i j with
  | nil => simp at hi
  | cons x xs ih =>
    cases i with
    | zero =>
      cases j with
      | zero => simp [swap, el]
      | succ j =>
        have := set_perm_cons xs j x (by simpa using hj)
        simpa [swap, el] using this
    | succ i =>
      cases j with
      | zero =>
        have := set_perm_cons xs i x (by simpa using hi)
        simpa [swap, el] using this
      | succ j =>
        have := ih i j (by simpa using hi) (by simpa using hj)
        simpa [swap, el] using this.cons x

theorem Rearr.rearr_refl (data : List E) : Rearr data data := ⟨rfl, List.Perm.refl _⟩

theorem Rearr.rearr_trans {d1 d2 d3 : List E} (h1 : Rearr d1 d2) (h2 : Rearr d2 d3) : Rearr d1 d3 :=
  ⟨h2.1.trans h1.1, h2.2.trans h1.2⟩

theorem Rearr.rearr_swap (data : List E) (i j : Nat) (hi : i < data.length) (hj : j < data.length) :
    Rearr data (swap data i j) := ⟨length_swap _ _ _, swap_perm _ _ _ hi hj⟩

end SortingLemmas

section SortingRearr

variable {E : Type} [Inhabited E]

/-! ## Every step of the sort rearranges the slice -/

theorem insertionSortInner_rearr (cmp : E → E → Int) (a j : Nat) (data : List E)
    (hj : j < data.length) : Rearr data (insertionSortInner cmp a j data) := by
  induction j generalizing data with
  | zero => exact Rearr.rearr_refl _
  | succ j ih =>
    unfold insertionSortInner
    split
    · exact (Rearr.rearr_swap data (j + 1) j hj (by omega)).rearr_trans
        (ih _ (by rw [length_swap]; omega))
    · exact Rearr.rearr_refl _

theorem insertionSortLoop_rearr (cmp : E → E → Int) (a count i : Nat) (data : List E)
    (h : i + count ≤ data.length) : Rearr data (insertionSortLoop cmp a count i data) := by
  induction count generalizing i data with
  | zero => exact Rearr.rearr_refl _
  | succ count ih =>
    unfold insertionSortLoop
    have h1 := insertionSortInner_rearr cmp a i data (by omega)
    exact h1.rearr_trans (ih _ _ (by rw [h1.1]; omega))

theorem insertionSortCmpFunc_rearr (cmp : E → E → Int) (data : List E) (a b : Nat)
    (hb : b ≤ data.length) : Rearr data (insertionSortCmpFunc cmp data a b) := by
  unfold insertionSortCmpFunc
  by_cases h : a + 1 ≤ b
  · exact insertionSortLoop_rearr cmp a _ _ data (by omega)
  · have : b - (a + 1) = 0 := by omega
    rw [this]
    exact Rearr.rearr_refl _

theorem siftDownCmpFunc_rearr (cmp : E → E → Int) (hi first fuel root : Nat) (data : List E)
    (h : first + hi ≤ data.length) (hr : root < hi) :
    Rearr data (siftDownCmpFunc cmp hi first fuel root data) := by
  induction fuel generalizing root data with
  | zero => exact Rearr.rearr_refl _
  | succ fuel ih =>
    unfold siftDownCmpFunc
    dsimp only
    split
    · exact Rearr.rearr_refl _
    · by_cases hcond : 2 * root + 1 + 1 < hi ∧
          cmp (el data (first + (2 * root + 1))) (el data (first + (2 * root + 1) + 1)) < 0
      · simp only [hcond, and_self, if_true]
        split
        · exact Rearr.rearr_refl _
        · refine (Rearr.rearr_swap data _ _ (by omega) (by omega)).rearr_trans (ih _ _ ?_ (by omega))
          rw [length_swap]; exact h
      · simp only [hcond, if_false]
        split
        · exact Rearr.rearr_refl _
        · refine (Rearr.rearr_swap data _ _ (by omega) (by omega)).rearr_trans (ih _ _ ?_ (by omega))
          rw [length_swap]; exact h

theorem siftDownCmpFunc_rearr' (cmp : E → E → Int) (hi first fuel root : Nat) (data : List E)
    (h : first + hi ≤ data.length) :
    Rearr data (siftDownCmpFunc cmp hi first fuel root data) := by
  by_cases hr : root < hi
  · exact siftDownCmpFunc_rearr cmp hi first fuel root data h hr
  · cases fuel with
    | zero => exact Rearr.rearr_refl _
    | succ fuel =>
      unfold siftDownCmpFunc
      dsimp only
      rw [if_pos (by omega)]
      exact Rearr.rearr_refl _

theorem heapBuild_rearr (cmp : E → E → Int) (hi first i : Nat) (data : List E)
    (h : first + hi ≤ data.length) : Rearr data (heapBuild cmp hi first i data) := by
  induction i generalizing data with
  | zero => exact siftDownCmpFunc_rearr' cmp hi first hi 0 data h
  | succ i ih =>
    unfold heapBuild
    have h1 := siftDownCmpFunc_rearr' cmp hi first hi (i + 1) data h
    exact h1.rearr_trans (ih _ (by rw [h1.1]; exact h))

theorem heapPop_rearr (cmp : E → E → Int) (first i : Nat) (data : List E)
    (h : first + i ≤ data.length) : Rearr data (heapPop cmp first i data) := by
  induction i generalizing data with
  | zero => exact Rearr.rearr_refl _
  | succ i ih =>
    unfold heapPop
    have h1 := Rearr.rearr_swap data first (first + i) (by omega) (by omega)
    have h2 := siftDownCmpFunc_rearr' cmp i first i 0 (swap data first (first + i))
      (by rw [length_swap]; omega)
    exact (h1.rearr_trans h2).rearr_trans (ih _ (by rw [h2.1, length_swap]; omega))

theorem heapSortCmpFunc_rearr (cmp : E → E → Int) (data : List E) (a b : Nat)
    (hab : a ≤ b) (hb : b ≤ data.length) : Rearr data (heapSortCmpFunc cmp data a b) := by
  unfold heapSortCmpFunc
  dsimp only
  have h1 := heapBuild_rearr cmp (b - a) a ((b - a - 1) / 2) data (by omega)
  exact h1.rearr_trans (heapPop_rearr cmp a (b - a) _ (by rw [h1.1]; omega))

end SortingRearr

section SortingRearr2

variable {E : Type} [Inhabited E]

theorem two_pow_bitsLen_le (n : Nat) (h : 0 < n) : nextPowerOfTwo n ≤ 2 * n := by
  unfold nextPowerOfTwo bitsLen
  rw [if_neg (by omega), pow_succ]
  have := Nat.log2_self_le (by omega : n ≠ 0)
  omega

theorem breakPatternsLoop_rearr (a length idx modulus count i random : Nat) (data : List E)
    (hmod : modulus ≤ 2 * length) (hmod0 : 0 < modulus)
    (hidx : idx - 1 + i + count ≤ data.length) (hb : a + length ≤ data.length) :
    Rearr data (breakPatternsLoop a length idx modulus count i random data) := by
  induction count generalizing i random data with
  | zero => exact Rearr.rearr_refl _
  | succ count ih =>
    unfold breakPatternsLoop
    dsimp only
    have hlt : xorshiftNext random % modulus < modulus := Nat.mod_lt _ hmod0
    have hother : (if xorshiftNext random % modulus ≥ length
        then xorshiftNext random % modulus - length else xorshiftNext random % modulus)
        < length := by
      split <;> omega
    refine (Rearr.rearr_swap data _ _ (by omega) (by omega)).rearr_trans (ih _ _ _ ?_ ?_)
    · rw [length_swap]; omega
    · rw [length_swap]; omega

theorem breakPatternsCmpFunc_rearr (data : List E) (a b : Nat) (hab : a ≤ b)
    (hb : b ≤ data.length) : Rearr data (breakPatternsCmpFunc data a b) := by
  unfold breakPatternsCmpFunc
  dsimp only
  split
  · rename_i h8
    have hp : 0 < nextPowerOfTwo (b - a) := by
      unfold nextPowerOfTwo
      exact Nat.pos_pow_of_pos _ (by omega)
    exact breakPatternsLoop_rearr a (b - a) _ _ 3 0 _ data
      (two_pow_bitsLen_le _ (by omega)) hp (by omega) (by omega)
  · exact Rearr.rearr_refl _

theorem medianCmpFunc_mem (cmp : E → E → Int) (data : List E) (a b c swaps : Nat) :
    (medianCmpFunc cmp data a b c swaps).1 = a ∨ (medianCmpFunc cmp data a b c swaps).1 = b ∨
      (medianCmpFunc cmp data a b c swaps).1 = c := by
  simp only [medianCmpFunc, order2CmpFunc]
  split_ifs <;> simp

theorem medianCmpFunc_range (cmp : E → E → Int) (data : List E) (a b c swaps lo hi : Nat)
    (ha : lo ≤ a ∧ a < hi) (hb : lo ≤ b ∧ b < hi) (hc : lo ≤ c ∧ c < hi) :
    lo ≤ (medianCmpFunc cmp data a b c swaps).1 ∧ (medianCmpFunc cmp data a b c swaps).1 < hi := by
  rcases medianCmpFunc_mem cmp data a b c swaps with h | h | h <;> rw [h] <;> assumption

theorem choosePivotCmpFunc_range (cmp : E → E → Int) (data : List E) (a b : Nat)
    (h : 8 ≤ b - a) :
    a ≤ (choosePivotCmpFunc cmp data a b).1 ∧ (choosePivotCmpFunc cmp data a b).1 < b := by
  have key : ∀ p : Nat × Nat, (a ≤ p.1 ∧ p.1 < b) →
      a ≤ (if p.2 = 0 then (p.1, sortedHint.increasingHint)
        else if p.2 = 12 then (p.1, sortedHint.decreasingHint)
        else (p.1, sortedHint.unknownHint)).1 ∧
      (if p.2 = 0 then (p.1, sortedHint.increasingHint)
        else if p.2 = 12 then (p.1, sortedHint.decreasingHint)
        else (p.1, sortedHint.unknownHint)).1 < b := by
    intro p hp
    split
    · exact hp
    · split <;> exact hp
  unfold choosePivotCmpFunc
  dsimp only
  rw [if_pos h]
  split
  · apply key
    unfold medianAdjacentCmpFunc
    apply medianCmpFunc_range
    · apply medianCmpFunc_range <;> omega
    · apply medianCmpFunc_range <;> omega
    · apply medianCmpFunc_range <;> omega
  · apply key
    apply medianCmpFunc_range <;> omega

theorem reverseRangeLoop_rearr (fuel i j : Nat) (data : List E) (hj : j < data.length) :
    Rearr data (reverseRangeLoop fuel i j data) := by
  induction fuel generalizing i j data with
  | zero => exact Rearr.rearr_refl _
  | succ fuel ih =>
    unfold reverseRangeLoop
    split
    · exact (Rearr.rearr_swap data i j (by omega) hj).rearr_trans (ih _ _ _ (by rw [length_swap]; omega))
    · exact Rearr.rearr_refl _

theorem reverseRangeCmpFunc_rearr (data : List E) (a b : Nat) (hab : a < b)
    (hb : b ≤ data.length) : Rearr data (reverseRangeCmpFunc data a b) := by
  unfold reverseRangeCmpFunc
  exact reverseRangeLoop_rearr _ _ _ data (by omega)

end SortingRearr2

section SortingRearr3

variable {E : Type} [Inhabited E]

theorem scanUp_ge (p : Nat → Bool) (count i : Nat) : i ≤ scanUp p count i := by
  induction count generalizing i with
  | zero => exact le_refl _
  | succ count ih =>
    unfold scanUp
    split
    · exact le_trans (Nat.le_succ i) (ih _)
    · exact le_refl _

theorem scanUp_le (p : Nat → Bool) (count i : Nat) : scanUp p count i ≤ i + count := by
  induction count generalizing i with
  | zero => exact le_refl _
  | succ count ih =>
    unfold scanUp
    split
    · have := ih (i + 1); omega
    · omega

theorem scanUp_stop (p : Nat → Bool) (count i : Nat) (h : scanUp p count i < i + count) :
    p (scanUp p count i) = false := by
  induction count generalizing i with
  | zero => simp [scanUp] at h
  | succ count ih =>
    unfold scanUp at h ⊢
    split
    · rename_i hp
      rw [if_pos hp] at h
      exact ih _ (by omega)
    · rename_i hp
      simpa using hp

theorem scanUp_passed (p : Nat → Bool) (count i k : Nat) (h1 : i ≤ k)
    (h2 : k < scanUp p count i) : p k = true := by
  induction count generalizing i with
  | zero => simp [scanUp] at h2; omega
  | succ count ih =>
    unfold scanUp at h2
    split at h2
    · rename_i hp
      by_cases hk : k = i
      · rw [hk]; exact hp
      · exact ih _ (by omega) h2
    · omega

theorem scanDown_le (p : Nat → Bool) (count j : Nat) : scanDown p count j ≤ j := by
  induction count generalizing j with
  | zero => exact le_refl _
  | succ count ih =>
    unfold scanDown
    split
    · exact le_trans (ih _) (Nat.sub_le _ _)
    · exact le_refl _

theorem scanDown_ge (p : Nat → Bool) (count j : Nat) : j ≤ scanDown p count j + count := by
  induction count generalizing j with
  | zero => exact le_refl _
  | succ count ih =>
    unfold scanDown
    split
    · have := ih (j - 1); omega
    · omega

theorem scanDown_stop (p : Nat → Bool) (count j : Nat) (hc : count ≤ j)
    (h : j < scanDown p count j + count) : p (scanDown p count j) = false := by
  induction count generalizing j with
  | zero => simp [scanDown] at h
  | succ count ih =>
    unfold scanDown at h ⊢
    split
    · rename_i hp
      rw [if_pos hp] at h
      exact ih _ (by omega) (by omega)
    · rename_i hp
      simpa using hp

theorem scanDown_passed (p : Nat → Bool) (count j k : Nat) (h1 : scanDown p count j < k)
    (h2 : k ≤ j) : p k = true := by
  induction count generalizing j with
  | zero => simp [scanDown] at h1; omega
  | succ count ih =>
    unfold scanDown at h1
    split at h1
    · rename_i hp
      by_cases hk : k = j
      · rw [hk]; exact hp
      · exact ih _ h1 (by omega)
    · omega

/-- Bounds of the indices `partitionLoop` stops at, and the rearrangement it makes, when
the two scans stop on complementary conditions. -/
theorem partitionLoop_rearr (pUp pDown : List E → Nat → Bool)
    (hcompl : ∀ d k, pDown d k = !pUp d k) (fuel i j : Nat) (data : List E)
    (hi : 1 ≤ i) (hij : i ≤ j + 1) (hj : j < data.length) :
    Rearr data (partitionLoop pUp pDown fuel i j data).2.2 ∧
      i ≤ (partitionLoop pUp pDown fuel i j data).1 ∧
      (partitionLoop pUp pDown fuel i j data).1 ≤ j + 1 ∧
      i ≤ (partitionLoop pUp pDown fuel i j data).2.1 + 1 ∧
      (partitionLoop pUp pDown fuel i j data).2.1 ≤ j := by
  induction fuel generalizing i j data with
  | zero => exact ⟨Rearr.rearr_refl _, le_refl _, hij, hij, le_refl _⟩
  | succ fuel ih =>
    unfold partitionLoop
    dsimp only
    have h1 := scanUp_ge (pUp data) (j + 1 - i) i
    have h2 := scanUp_le (pUp data) (j + 1 - i) i
    have h3 := scanDown_le (pDown data) (j + 1 - scanUp (pUp data) (j + 1 - i) i) j
    have h4 := scanDown_ge (pDown data) (j + 1 - scanUp (pUp data) (j + 1 - i) i) j
    split
    · dsimp only
      exact ⟨Rearr.rearr_refl _, h1, by omega, by omega, h3⟩
    · rename_i hle
      have hu := scanUp_stop (pUp data) (j + 1 - i) i (by omega)
      have hd := scanDown_stop (pDown data) (j + 1 - scanUp (pUp data) (j + 1 - i) i) j
        (by omega) (by omega)
      have hne : scanUp (pUp data) (j + 1 - i) i
          ≠ scanDown (pDown data) (j + 1 - scanUp (pUp data) (j + 1 - i) i) j := by
        intro he
        rw [hcompl, ← he, hu] at hd
        simp at hd
      obtain ⟨k1, k2, k3, k4, k5⟩ := ih (scanUp (pUp data) (j + 1 - i) i + 1)
        (scanDown (pDown data) (j + 1 - scanUp (pUp data) (j + 1 - i) i) j - 1)
        (swap data (scanUp (pUp data) (j + 1 - i) i)
          (scanDown (pDown data) (j + 1 - scanUp (pUp data) (j + 1 - i) i) j))
        (by omega) (by omega) (by rw [length_swap]; omega)
      exact ⟨(Rearr.rearr_swap data _ _ (by omega) (by omega)).rearr_trans k1, by omega, by omega,
        by omega, by omega⟩

theorem partitionCmpFunc_rearr (cmp : E → E → Int) (data : List E) (a b pivot : Nat)
    (hab : a < b) (hb : b ≤ data.length) (hp : pivot < b) :
    Rearr data (partitionCmpFunc cmp data a b pivot).1 ∧
      a ≤ (partitionCmpFunc cmp data a b pivot).2.1 ∧
      (partitionCmpFunc cmp data a b pivot).2.1 < b := by
  have h0 := Rearr.rearr_swap data a pivot (by omega) (by omega)
  unfold partitionCmpFunc
  dsimp only
  generalize hd : swap data a pivot = d0 at h0 ⊢
  have hlen : d0.length = data.length := h0.1
  generalize hi : scanUp (fun i => decide (cmp (el d0 i) (el d0 a) < 0))
    (b - 1 + 1 - (a + 1)) (a + 1) = i1
  have h1 := scanUp_ge (fun i => decide (cmp (el d0 i) (el d0 a) < 0))
    (b - 1 + 1 - (a + 1)) (a + 1)
  have h2 := scanUp_le (fun i => decide (cmp (el d0 i) (el d0 a) < 0))
    (b - 1 + 1 - (a + 1)) (a + 1)
  rw [hi] at h1 h2
  generalize hjj : scanDown (fun j => !decide (cmp (el d0 j) (el d0 a) < 0))
    (b - 1 + 1 - i1) (b - 1) = j1
  have h3 := scanDown_le (fun j => !decide (cmp (el d0 j) (el d0 a) < 0))
    (b - 1 + 1 - i1) (b - 1)
  have h4 := scanDown_ge (fun j => !decide (cmp (el d0 j) (el d0 a) < 0))
    (b - 1 + 1 - i1) (b - 1)
  rw [hjj] at h3 h4
  split
  · dsimp only
    exact ⟨h0.rearr_trans (Rearr.rearr_swap d0 _ _ (by omega) (by omega)), by omega, by omega⟩
  · have hu := scanUp_stop (fun i => decide (cmp (el d0 i) (el d0 a) < 0))
      (b - 1 + 1 - (a + 1)) (a + 1) (by omega)
    have hdn := scanDown_stop (fun j => !decide (cmp (el d0 j) (el d0 a) < 0))
      (b - 1 + 1 - i1) (b - 1) (by omega) (by omega)
    rw [hi] at hu
    rw [hjj] at hdn
    have hne : i1 ≠ j1 := by
      intro he
      rw [← he] at hdn
      simp only [hu] at hdn
      simp at hdn
    have hs := Rearr.rearr_swap d0 i1 j1 (by omega) (by omega)
    obtain ⟨k1, k2, k3, k4, k5⟩ := partitionLoop_rearr
      (fun d i => decide (cmp (el d i) (el d a) < 0))
      (fun d j => !decide (cmp (el d j) (el d a) < 0)) (fun _ _ => rfl)
      (b - a) (i1 + 1) (j1 - 1) (swap d0 i1 j1) (by omega) (by omega)
      (by rw [length_swap]; omega)
    dsimp only
    refine ⟨((h0.rearr_trans hs).rearr_trans k1).rearr_trans (Rearr.rearr_swap _ _ _ ?_ ?_), by omega, by omega⟩
    · rw [k1.1, length_swap]; omega
    · rw [k1.1, length_swap]; omega

theorem partitionEqualCmpFunc_rearr (cmp : E → E → Int) (data : List E) (a b pivot : Nat)
    (hab : a < b) (hb : b ≤ data.length) (hp : pivot < b) :
    Rearr data (partitionEqualCmpFunc cmp data a b pivot).1 ∧
      a < (partitionEqualCmpFunc cmp data a b pivot).2 ∧
      (partitionEqualCmpFunc cmp data a b pivot).2 ≤ b := by
  have h0 := Rearr.rearr_swap data a pivot (by omega) (by omega)
  unfold partitionEqualCmpFunc
  dsimp only
  obtain ⟨k1, k2, k3, k4, k5⟩ := partitionLoop_rearr
    (fun d i => !decide (cmp (el d a) (el d i) < 0))
    (fun d j => decide (cmp (el d a) (el d j) < 0)) (fun _ _ => by simp)
    (b - a) (a + 1) (b - 1) (swap data a pivot) (by omega) (by omega)
    (by rw [length_swap]; omega)
  exact ⟨h0.rearr_trans k1, by omega, by omega⟩

end SortingRearr3

section SortingRearr4

variable {E : Type} [Inhabited E]

theorem shiftLeft_rearr (cmp : E → E → Int) (j : Nat) (data : List E)
    (hj : j < data.length) : Rearr data (shiftLeft cmp j data) := by
  induction j generalizing data with
  | zero => exact Rearr.rearr_refl _
  | succ j ih =>
    unfold shiftLeft
    split
    · exact Rearr.rearr_refl _
    · exact (Rearr.rearr_swap data (j + 1) j hj (by omega)).rearr_trans
        (ih _ (by rw [length_swap]; omega))

theorem shiftRight_rearr (cmp : E → E → Int) (count j : Nat) (data : List E)
    (hj : j + count ≤ data.length) : Rearr data (shiftRight cmp count j data) := by
  induction count generalizing j data with
  | zero => exact Rearr.rearr_refl _
  | succ count ih =>
    unfold shiftRight
    split
    · exact Rearr.rearr_refl _
    · exact (Rearr.rearr_swap data j (j - 1) (by omega) (by omega)).rearr_trans
        (ih _ _ (by rw [length_swap]; omega))

theorem partialInsertionSortLoop_rearr (cmp : E → E → Int) (a b steps i : Nat)
    (data : List E) (hb : b ≤ data.length) (hi : i ≤ b) :
    Rearr data (partialInsertionSortLoop cmp a b steps i data).1 := by
  induction steps generalizing i data with
  | zero => exact Rearr.rearr_refl _
  | succ steps ih =>
    unfold partialInsertionSortLoop
    dsimp only
    generalize hi1 : scanUp (fun i => !decide (cmp (el data i) (el data (i - 1)) < 0))
      (b - i) i = i1
    have h1 := scanUp_le (fun i => !decide (cmp (el data i) (el data (i - 1)) < 0)) (b - i) i
    rw [hi1] at h1
    split
    · exact Rearr.rearr_refl _
    · split
      · exact Rearr.rearr_refl _
      · have r1 := Rearr.rearr_swap data i1 (i1 - 1) (by omega) (by omega)
        generalize hd2 : (if i1 - a ≥ 2 then shiftLeft cmp (i1 - 1) (swap data i1 (i1 - 1))
              else swap data i1 (i1 - 1)) = d2
        have r2 : Rearr (swap data i1 (i1 - 1)) d2 := by
          rw [← hd2]
          split
          · exact shiftLeft_rearr cmp _ _ (by rw [length_swap]; omega)
          · exact Rearr.rearr_refl _
        generalize hd3 : (if b - i1 ≥ 2 then shiftRight cmp (b - (i1 + 1)) (i1 + 1) d2
              else d2) = d3
        have r3 : Rearr d2 d3 := by
          rw [← hd3]
          split
          · exact shiftRight_rearr cmp _ _ _ (by rw [r2.1, length_swap]; omega)
          · exact Rearr.rearr_refl _
        exact ((r1.rearr_trans r2).rearr_trans r3).rearr_trans
          (ih _ _ (by rw [r3.1, r2.1, length_swap]; exact hb) (by omega))

theorem partialInsertionSortCmpFunc_rearr (cmp : E → E → Int) (data : List E) (a b : Nat)
    (hab : a < b) (hb : b ≤ data.length) :
    Rearr data (partialInsertionSortCmpFunc cmp data a b).1 :=
  partialInsertionSortLoop_rearr cmp a b 5 (a + 1) data hb (by omega)

theorem pdqsortPrepare_rearr (cmp : E → E → Int) (data : List E) (a b limit : Nat)
    (wasBalanced wasPartitioned : Bool) (hlen : 12 < b - a) (hb : b ≤ data.length) :
    Rearr data (pdqsortPrepare cmp data a b limit wasBalanced wasPartitioned).1 ∧
      a ≤ (pdqsortPrepare cmp data a b limit wasBalanced wasPartitioned).2.2.1 ∧
      (pdqsortPrepare cmp data a b limit wasBalanced wasPartitioned).2.2.1 < b := by
  unfold pdqsortPrepare
  dsimp only
  generalize hd1 : (if wasBalanced = true then data else breakPatternsCmpFunc data a b) = d1
  have r1 : Rearr data d1 := by
    rw [← hd1]
    split
    · exact Rearr.rearr_refl _
    · exact breakPatternsCmpFunc_rearr data a b (by omega) hb
  have hpr := choosePivotCmpFunc_range cmp d1 a b (by omega)
  generalize choosePivotCmpFunc cmp d1 a b = ph at hpr
  generalize hd2 : (if decide (ph.2 = sortedHint.decreasingHint) = true
    then reverseRangeCmpFunc d1 a b else d1) = d2
  have r2 : Rearr d1 d2 := by
    rw [← hd2]
    split
    · exact reverseRangeCmpFunc_rearr d1 a b (by omega) (by rw [r1.1]; exact hb)
    · exact Rearr.rearr_refl _
  generalize hpv : (if decide (ph.2 = sortedHint.decreasingHint) = true
    then b - 1 - (ph.1 - a) else ph.1) = pivot
  have hpivot : a ≤ pivot ∧ pivot < b := by
    rw [← hpv]
    split <;> omega
  generalize (if decide (ph.2 = sortedHint.decreasingHint) = true
    then sortedHint.increasingHint else ph.2) = hint
  split
  · exact ⟨(r1.rearr_trans r2).rearr_trans (partialInsertionSortCmpFunc_rearr cmp d2 a b (by omega)
      (by rw [r2.1, r1.1]; exact hb)), hpivot⟩
  · exact ⟨r1.rearr_trans r2, hpivot⟩

/-- Function `pdqsortCmpFunc` returns, with fuel above the length of the range, and
returns a rearrangement of the slice: whatever `cmp` is. -/
theorem pdqsortCmpFunc_rearr (cmp : E → E → Int) (fuel : Nat) (data : List E)
    (a b limit : Nat) (wasBalanced wasPartitioned : Bool)
    (hfuel : b - a < fuel) (hab : a ≤ b) (hb : b ≤ data.length) :
    ∃ data', pdqsortCmpFunc cmp fuel data a b limit wasBalanced wasPartitioned = some data' ∧
      Rearr data data' := by
  induction fuel generalizing data a b limit wasBalanced wasPartitioned with
  | zero => omega
  | succ fuel ih =>
    unfold pdqsortCmpFunc
    dsimp only
    split
    · exact ⟨_, rfl, insertionSortCmpFunc_rearr cmp data a b hb⟩
    · rename_i hlen
      split
      · exact ⟨_, rfl, heapSortCmpFunc_rearr cmp data a b hab hb⟩
      · obtain ⟨r123, hp1, hp2⟩ := pdqsortPrepare_rearr cmp data a b limit wasBalanced
          wasPartitioned (by omega) hb
        generalize pdqsortPrepare cmp data a b limit wasBalanced wasPartitioned = pre
          at r123 hp1 hp2 ⊢
        have hb3 : b ≤ pre.1.length := by rw [r123.1]; exact hb
        split
        · exact ⟨_, rfl, r123⟩
        · split
          · obtain ⟨q1, q2, q3⟩ := partitionEqualCmpFunc_rearr cmp pre.1 a b pre.2.2.1
              (by omega) hb3 hp2
            obtain ⟨d', hd', rd'⟩ := ih (partitionEqualCmpFunc cmp pre.1 a b pre.2.2.1).1
              (partitionEqualCmpFunc cmp pre.1 a b pre.2.2.1).2 b pre.2.2.2 wasBalanced
              wasPartitioned (by omega) q3 (by rw [q1.1]; exact hb3)
            exact ⟨d', hd', (r123.rearr_trans q1).rearr_trans rd'⟩
          · obtain ⟨q1, q2, q3⟩ := partitionCmpFunc_rearr cmp pre.1 a b pre.2.2.1
              (by omega) hb3 hp2
            generalize partitionCmpFunc cmp pre.1 a b pre.2.2.1 = pt at q1 q2 q3 ⊢
            have hb4 : b ≤ pt.1.length := by rw [q1.1]; exact hb3
            split
            · obtain ⟨d', hd', rd'⟩ := ih pt.1 a pt.2.1 pre.2.2.2 true true
                (by omega) q2 (by omega)
              rw [hd']
              dsimp only
              obtain ⟨d'', hd'', rd''⟩ := ih d' (pt.2.1 + 1) b pre.2.2.2
                (decide (pt.2.1 - a ≥ (b - a) / 8)) pt.2.2
                (by omega) (by omega) (by rw [rd'.1]; exact hb4)
              exact ⟨d'', hd'', ((r123.rearr_trans q1).rearr_trans rd').rearr_trans rd''⟩
            · obtain ⟨d', hd', rd'⟩ := ih pt.1 (pt.2.1 + 1) b pre.2.2.2 true true
                (by omega) (by omega) hb4
              rw [hd']
              dsimp only
              obtain ⟨d'', hd'', rd''⟩ := ih d' a pt.2.1 pre.2.2.2
                (decide (b - pt.2.1 ≥ (b - a) / 8)) pt.2.2
                (by omega) q2 (by rw [rd'.1]; omega)
              exact ⟨d'', hd'', ((r123.rearr_trans q1).rearr_trans rd').rearr_trans rd''⟩

theorem SortFunc_rearr (x : List E) (cmp : E → E → Int) : Rearr x (SortFunc x cmp) := by
  obtain ⟨d, hd, rd⟩ := pdqsortCmpFunc_rearr cmp (x.length + 1) x 0 x.length
    (bitsLen x.length) true true (by omega) (Nat.zero_le _) (le_refl _)
  unfold SortFunc
  rw [hd]
  exact rd

end SortingRearr4

/-! ## The order of float64 values -/

namespace F64

theorem scaled_cast (neg : Bool) (m : Nat) (e e0 : Int) (h : e0 ≤ e) :
    ((scaled neg m e e0 : Int) : ℚ) = qval neg m e * ((2 : ℚ) ^ e0)⁻¹ := by
  have h2 : ((2 : ℚ) ^ e0) ≠ 0 := zpow_ne_zero _ (by norm_num)
  have hpow : ((2 : ℚ) ^ (e - e0).toNat) = (2 : ℚ) ^ e * ((2 : ℚ) ^ e0)⁻¹ := by
    rw [← zpow_natCast, Int.toNat_of_nonneg (by omega), zpow_sub₀ (by norm_num)]
    rfl
  unfold scaled qval
  split
  · push_cast
    rw [hpow]
    ring
  · push_cast
    rw [hpow]
    ring

theorem scaled_lt_iff (n1 : Bool) (m1 : Nat) (e1 : Int) (n2 : Bool) (m2 : Nat) (e2 : Int) :
    scaled n1 m1 e1 (min e1 e2) < scaled n2 m2 e2 (min e1 e2)
      ↔ qval n1 m1 e1 < qval n2 m2 e2 := by
  have hpos : (0 : ℚ) < ((2 : ℚ) ^ (min e1 e2))⁻¹ := inv_pos.mpr (zpow_pos (by norm_num) _)
  rw [← Int.cast_lt (R := ℚ), scaled_cast _ _ _ _ (min_le_left _ _),
    scaled_cast _ _ _ _ (min_le_right _ _)]
  exact mul_lt_mul_right hpos

theorem scaled_eq_iff (n1 : Bool) (m1 : Nat) (e1 : Int) (n2 : Bool) (m2 : Nat) (e2 : Int) :
    scaled n1 m1 e1 (min e1 e2) = scaled n2 m2 e2 (min e1 e2)
      ↔ qval n1 m1 e1 = qval n2 m2 e2 := by
  have hpos : (0 : ℚ) < ((2 : ℚ) ^ (min e1 e2))⁻¹ := inv_pos.mpr (zpow_pos (by norm_num) _)
  rw [← Int.cast_inj (α := ℚ), scaled_cast _ _ _ _ (min_le_left _ _),
    scaled_cast _ _ _ _ (min_le_right _ _)]
  exact mul_left_inj' (ne_of_gt hpos)

theorem lt_iff_val (x y : F64) (hx : x.isNaN = false) (hy : y.isNaN = false) :
    lt x y = true ↔ val x < val y := by
  cases x with
  | nan => simp [isNaN] at hx
  | inf n1 =>
    cases y with
    | nan => simp [isNaN] at hy
    | inf n2 => cases n1 <;> cases n2 <;> simp [lt, val, Prod.Lex.lt_iff]
    | fin n2 m2 e2 => cases n1 <;> simp [lt, val, Prod.Lex.lt_iff]
  | fin n1 m1 e1 =>
    cases y with
    | nan => simp [isNaN] at hy
    | inf n2 => cases n2 <;> simp [lt, val, Prod.Lex.lt_iff]
    | fin n2 m2 e2 =>
      simp only [lt, val, Prod.Lex.lt_iff, decide_eq_true_eq, scaled_lt_iff]
      simp

theorem eq_iff_val (x y : F64) (hx : x.isNaN = false) (hy : y.isNaN = false) :
    eq x y = true ↔ val x = val y := by
  cases x with
  | nan => simp [isNaN] at hx
  | inf n1 =>
    cases y with
    | nan => simp [isNaN] at hy
    | inf n2 => cases n1 <;> cases n2 <;> simp [eq, val]
    | fin n2 m2 e2 => cases n1 <;> simp [eq, val]
  | fin n1 m1 e1 =>
    cases y with
    | nan => simp [isNaN] at hy
    | inf n2 => cases n2 <;> simp [eq, val]
    | fin n2 m2 e2 =>
      simp only [eq, val, decide_eq_true_eq, scaled_eq_iff]
      simp

theorem ge_iff_val (x y : F64) (hx : x.isNaN = false) (hy : y.isNaN = false) :
    ge x y = true ↔ val y ≤ val x := by
  unfold ge gt
  rw [Bool.or_eq_true, lt_iff_val y x hy hx, eq_iff_val x y hx hy, le_iff_lt_or_eq]
  constructor
  · rintro (h | h)
    · exact Or.inl h
    · exact Or.inr h.symm
  · rintro (h | h)
    · exact Or.inl h
    · exact Or.inr h.symm

theorem eq_isNaN (x y : F64) (h : eq x y = true) : x.isNaN = false ∧ y.isNaN = false := by
  cases x <;> cases y <;> simp [eq, isNaN] at h ⊢

theorem lt_isNaN (x y : F64) (h : lt x y = true) : x.isNaN = false ∧ y.isNaN = false := by
  cases x <;> cases y <;> simp [lt, isNaN] at h ⊢

end F64

section SortingStable

variable {E : Type} [Inhabited E]

/-! ## The insertion sort keeps equal elements in order -/

theorem swap_cons_succ (x : E) (xs : List E) (i j : Nat) :
    swap (x :: xs) (i + 1) (j + 1) = x :: swap xs i j := by
  simp [swap, el]

theorem swap_adjacent_filter (q : E → Bool) (data : List E) (j : Nat)
    (hj : j + 1 < data.length) (hq : ¬ (q (el data (j + 1)) = true ∧ q (el data j) = true)) :
    (swap data (j + 1) j).filter q = data.filter q := by
  induction j generalizing data with
  | zero =>
    match data, hj with
    | x :: y :: rest, _ =>
      have hs : swap (x :: y :: rest) 1 0 = y :: x :: rest := by simp [swap, el]
      simp only [zero_add, hs]
      simp only [el_cons_succ, el_cons_zero, zero_add] at hq
      cases hx : q x <;> cases hy : q y <;> simp_all [List.filter]
  | succ j ih =>
    match data, hj with
    | x :: xs, hj =>
      rw [swap_cons_succ]
      simp only [el_cons_succ] at hq
      have := ih xs (by simpa using hj) hq
      simp [List.filter, this]

theorem insertionSortInner_filter (cmp : E → E → Int) (q : E → Bool)
    (hq : ∀ x y, cmp x y < 0 → ¬ (q x = true ∧ q y = true))
    (a j : Nat) (data : List E) (hj : j < data.length) :
    (insertionSortInner cmp a j data).filter q = data.filter q := by
  induction j generalizing data with
  | zero => rfl
  | succ j ih =>
    unfold insertionSortInner
    split
    · rename_i hc
      rw [ih _ (by rw [length_swap]; omega)]
      exact swap_adjacent_filter q data j hj (hq _ _ hc.2)
    · rfl

theorem insertionSortLoop_filter (cmp : E → E → Int) (q : E → Bool)
    (hq : ∀ x y, cmp x y < 0 → ¬ (q x = true ∧ q y = true))
    (a count i : Nat) (data : List E) (h : i + count ≤ data.length) :
    (insertionSortLoop cmp a count i data).filter q = data.filter q := by
  induction count generalizing i data with
  | zero => rfl
  | succ count ih =>
    unfold insertionSortLoop
    have h1 := insertionSortInner_rearr cmp a i data (by omega)
    rw [ih _ _ (by rw [h1.1]; omega)]
    exact insertionSortInner_filter cmp q hq a i data (by omega)

theorem insertionSortCmpFunc_filter (cmp : E → E → Int) (q : E → Bool)
    (hq : ∀ x y, cmp x y < 0 → ¬ (q x = true ∧ q y = true))
    (data : List E) (a b : Nat) (hb : b ≤ data.length) :
    (insertionSortCmpFunc cmp data a b).filter q = data.filter q := by
  unfold insertionSortCmpFunc
  by_cases h : a + 1 ≤ b
  · exact insertionSortLoop_filter cmp q hq a _ _ data (by omega)
  · have : b - (a + 1) = 0 := by omega
    rw [this]
    rfl

theorem SortFunc_short (x : List E) (cmp : E → E → Int) (h : x.length ≤ 12) :
    SortFunc x cmp = insertionSortCmpFunc cmp x 0 x.length := by
  unfold SortFunc pdqsortCmpFunc
  simp [h]

end SortingStable

/-! ## Quotes: claims -/

theorem cmpEstimate_neg (a b : Estimate) :
    cmpEstimate a b < 0 ↔ F64.lt b.ReceiveAmount a.ReceiveAmount = true := by
  unfold cmpEstimate F64.gt
  split
  · simp_all
  · split <;> simp_all

theorem stamp_ReceiveAmount (coin1 coin2 : String) (amount : F64) (network1 network2 : String)
    (coin2USDPrice : F64) (e : Estimate) :
    (stamp coin1 coin2 amount network1 network2 coin2USDPrice e).ReceiveAmount
      = e.ReceiveAmount := rfl

/-- C2, as stated, fails: of thirteen quotes, all of amount `1.0` but the seventh,
`populateEstimates` returns the seventh first and then the others, which have equal
amounts, in the order q3, q2, q0, q4, q5, q1, q7, ..., not in that of the input. -/
theorem populateEstimates_not_stable :
    (populateEstimates thirteenQuotes "btc" "eth" F64.one "btc" "eth" F64.one).map
        (fun e => e.ExchangeName)
      = ["q6", "q3", "q2", "q0", "q4", "q5", "q1", "q7", "q8", "q9", "q10", "q11", "q12"] ∧
    ((populateEstimates thirteenQuotes "btc" "eth" F64.one "btc" "eth" F64.one).filter
        (fun e => F64.eq e.ReceiveAmount F64.one)).map (fun e => e.ExchangeName)
      ≠ (thirteenQuotes.filter (fun e => F64.eq e.ReceiveAmount F64.one)).map
        (fun e => e.ExchangeName) := by
  decide

/-- C2, as the code has it. For an input of at most 12 quotes (up to which
`slices.SortFunc` sorts by insertion), the quotes of the output whose `ReceiveAmount`
equals a given amount `v` are those of the input, stamped, in the order of the input:
quotes with equal amounts keep their relative order. -/
theorem populateEstimates_stable_short (estimates : List Estimate) (coin1 coin2 : String)
    (amount : F64) (network1 network2 : String) (coin2USDPrice : F64) (v : F64)
    (hlen : estimates.length ≤ 12) :
    (populateEstimates estimates coin1 coin2 amount network1 network2 coin2USDPrice).filter
        (fun e => F64.eq e.ReceiveAmount v)
      = (estimates.filter (fun e => F64.eq e.ReceiveAmount v)).map
          (stamp coin1 coin2 amount network1 network2 coin2USDPrice) := by
  unfold populateEstimates
  rw [SortFunc_short _ _ (by simpa using hlen),
    insertionSortCmpFunc_filter cmpEstimate (fun e => F64.eq e.ReceiveAmount v) ?_ _ _ _
      (le_refl _)]
  · rw [List.filter_map]
    rfl
  · intro x y hxy hq
    rw [cmpEstimate_neg] at hxy
    obtain ⟨hx, hy⟩ := hq
    have nx := (F64.eq_isNaN _ _ hx).1
    have ny := (F64.eq_isNaN _ _ hy).1
    have nv := (F64.eq_isNaN _ _ hx).2
    rw [F64.eq_iff_val _ _ nx nv] at hx
    rw [F64.eq_iff_val _ _ ny nv] at hy
    rw [F64.lt_iff_val _ _ ny nx, hx, hy] at hxy
    exact lt_irrefl _ hxy

theorem populateEstimates_stable_short_witness :
    threeQuotes.length ≤ 12 ∧
      (populateEstimates threeQuotes "btc" "eth" F64.one "btc" "eth" F64.one).map
          (fun e => e.ExchangeName) = ["Y", "X", "Z"] ∧
      (populateEstimates threeQuotes "btc" "eth" F64.one "btc" "eth" F64.one).filter
          (fun e => F64.eq e.ReceiveAmount (F64.fin false 8646911284551352 (-59)))
        = (threeQuotes.filter
            (fun e => F64.eq e.ReceiveAmount (F64.fin false 8646911284551352 (-59)))).map
          (stamp "btc" "eth" F64.one "btc" "eth" F64.one) :=
  ⟨by decide, by decide,
    populateEstimates_stable_short threeQuotes "btc" "eth" F64.one "btc" "eth" F64.one
      (F64.fin false 8646911284551352 (-59)) (by decide)⟩

/-- C3. The output of `populateEstimates` is a permutation of the input quotes, each
with `Coin1`, `Coin2`, `SendAmount`, `Network1`, `Network2` set to the arguments,
`TradeValueUSD` set to `ReceiveAmount * coin2USDPrice` and every other field as it was;
it has the length of the input, and it is empty for an empty input. -/
theorem populateEstimates_perm (estimates : List Estimate) (coin1 coin2 : String)
    (amount : F64) (network1 network2 : String) (coin2USDPrice : F64) :
    (populateEstimates estimates coin1 coin2 amount network1 network2 coin2USDPrice).Perm
        (estimates.map fun e =>
          { ExchangeName := e.ExchangeName
            ReceiveAmount := e.ReceiveAmount
            MinAmount := e.MinAmount
            KYCScore := e.KYCScore
            Network1 := network1
            Network2 := network2
            Coin1 := coin1
            Coin2 := coin2
            SendAmount := amount
            Address := e.Address
            ImageURL := e.ImageURL
            TradeValueUSD := F64.mul e.ReceiveAmount coin2USDPrice }) ∧
      (populateEstimates estimates coin1 coin2 amount network1 network2
        coin2USDPrice).length = estimates.length ∧
      populateEstimates [] coin1 coin2 amount network1 network2 coin2USDPrice = [] := by
  refine ⟨?_, ?_, rfl⟩
  · exact (SortFunc_rearr _ cmpEstimate).2
  · have := (SortFunc_rearr (estimates.map
      (stamp coin1 coin2 amount network1 network2 coin2USDPrice)) cmpEstimate).1
    simpa [populateEstimates] using this

section SortingMap

variable {E E' : Type} [Inhabited E] [Inhabited E']

/-! ## The sort commutes with a map that keeps the comparison -/

theorem el_map (f : E → E') (hdef : f default = default) (data : List E) (i : Nat) :
    el (data.map f) i = f (el data i) := by
  induction data generalizing i with
  | nil => simp [el, hdef]
  | cons x xs ih =>
    cases i with
    | zero => rfl
    | succ i => simpa [el] using ih i

theorem swap_map (f : E → E') (hdef : f default = default) (data : List E) (i j : Nat) :
    swap (data.map f) i j = (swap data i j).map f := by
  unfold swap
  rw [el_map f hdef, el_map f hdef, List.map_set, List.map_set]

variable (f : E → E') (hdef : f default = default) (cmp : E → E → Int) (cmp' : E' → E' → Int)
  (hcmp : ∀ x y, cmp' (f x) (f y) = cmp x y)

include hdef hcmp

theorem insertionSortInner_map (a j : Nat) (data : List E) :
    insertionSortInner cmp' a j (data.map f) = (insertionSortInner cmp a j data).map f := by
  induction j generalizing data with
  | zero => rfl
  | succ j ih =>
    unfold insertionSortInner
    simp only [el_map f hdef, hcmp, swap_map f hdef]
    split
    · exact ih _
    · rfl

theorem insertionSortLoop_map (a count i : Nat) (data : List E) :
    insertionSortLoop cmp' a count i (data.map f)
      = (insertionSortLoop cmp a count i data).map f := by
  induction count generalizing i data with
  | zero => rfl
  | succ count ih =>
    unfold insertionSortLoop
    rw [insertionSortInner_map f hdef cmp cmp' hcmp, ih]

theorem insertionSortCmpFunc_map (data : List E) (a b : Nat) :
    insertionSortCmpFunc cmp' (data.map f) a b = (insertionSortCmpFunc cmp data a b).map f :=
  insertionSortLoop_map f hdef cmp cmp' hcmp _ _ _ _

theorem siftDownCmpFunc_map (hi first fuel root : Nat) (data : List E) :
    siftDownCmpFunc cmp' hi first fuel root (data.map f)
      = (siftDownCmpFunc cmp hi first fuel root data).map f := by
  induction fuel generalizing root data with
  | zero => rfl
  | succ fuel ih =>
    unfold siftDownCmpFunc
    simp only [el_map f hdef, hcmp, swap_map f hdef, ih]
    split_ifs <;> rfl

theorem heapBuild_map (hi first i : Nat) (data : List E) :
    heapBuild cmp' hi first i (data.map f) = (heapBuild cmp hi first i data).map f := by
  induction i generalizing data with
  | zero => exact siftDownCmpFunc_map f hdef cmp cmp' hcmp _ _ _ _ _
  | succ i ih =>
    unfold heapBuild
    rw [siftDownCmpFunc_map f hdef cmp cmp' hcmp, ih]

theorem heapPop_map (first i : Nat) (data : List E) :
    heapPop cmp' first i (data.map f) = (heapPop cmp first i data).map f := by
  induction i generalizing data with
  | zero => rfl
  | succ i ih =>
    unfold heapPop
    rw [swap_map f hdef, siftDownCmpFunc_map f hdef cmp cmp' hcmp, ih]

theorem heapSortCmpFunc_map (data : List E) (a b : Nat) :
    heapSortCmpFunc cmp' (data.map f) a b = (heapSortCmpFunc cmp data a b).map f := by
  unfold heapSortCmpFunc
  dsimp only
  rw [heapBuild_map f hdef cmp cmp' hcmp, heapPop_map f hdef cmp cmp' hcmp]

omit hcmp in
theorem breakPatternsLoop_map (a length idx modulus count i random : Nat) (data : List E) :
    breakPatternsLoop a length idx modulus count i random (data.map f)
      = (breakPatternsLoop a length idx modulus count i random data).map f := by
  induction count generalizing i random data with
  | zero => rfl
  | succ count ih =>
    unfold breakPatternsLoop
    dsimp only
    rw [swap_map f hdef, ih]

omit hcmp in
theorem breakPatternsCmpFunc_map (data : List E) (a b : Nat) :
    breakPatternsCmpFunc (data.map f) a b = (breakPatternsCmpFunc data a b).map f := by
  unfold breakPatternsCmpFunc
  dsimp only
  split
  · exact breakPatternsLoop_map f hdef _ _ _ _ _ _ _ _
  · rfl

theorem order2CmpFunc_map (data : List E) (a b swaps : Nat) :
    order2CmpFunc cmp' (data.map f) a b swaps = order2CmpFunc cmp data a b swaps := by
  simp only [order2CmpFunc, el_map f hdef, hcmp]

theorem medianCmpFunc_map (data : List E) (a b c swaps : Nat) :
    medianCmpFunc cmp' (data.map f) a b c swaps = medianCmpFunc cmp data a b c swaps := by
  simp only [medianCmpFunc, order2CmpFunc_map f hdef cmp cmp' hcmp]

theorem choosePivotCmpFunc_map (data : List E) (a b : Nat) :
    choosePivotCmpFunc cmp' (data.map f) a b = choosePivotCmpFunc cmp data a b := by
  simp only [choosePivotCmpFunc, medianAdjacentCmpFunc, medianCmpFunc_map f hdef cmp cmp' hcmp]

omit hcmp in
theorem reverseRangeLoop_map (fuel i j : Nat) (data : List E) :
    reverseRangeLoop fuel i j (data.map f) = (reverseRangeLoop fuel i j data).map f := by
  induction fuel generalizing i j data with
  | zero => rfl
  | succ fuel ih =>
    unfold reverseRangeLoop
    split
    · rw [swap_map f hdef, ih]
    · rfl

omit hcmp in
theorem reverseRangeCmpFunc_map (data : List E) (a b : Nat) :
    reverseRangeCmpFunc (data.map f) a b = (reverseRangeCmpFunc data a b).map f :=
  reverseRangeLoop_map f hdef _ _ _ _

end SortingMap

section SortingMap2

variable {E E' : Type} [Inhabited E] [Inhabited E']

theorem partitionLoop_map (f : E → E') (hdef : f default = default)
    (pUp pDown : List E → Nat → Bool) (pUp' pDown' : List E' → Nat → Bool)
    (hup : ∀ d, pUp' (d.map f) = pUp d) (hdown : ∀ d, pDown' (d.map f) = pDown d)
    (fuel i j : Nat) (data : List E) :
    partitionLoop pUp' pDown' fuel i j (data.map f)
      = ((partitionLoop pUp pDown fuel i j data).1, (partitionLoop pUp pDown fuel i j data).2.1,
          (partitionLoop pUp pDown fuel i j data).2.2.map f) := by
  induction fuel generalizing i j data with
  | zero => rfl
  | succ fuel ih =>
    unfold partitionLoop
    simp only [hup, hdown, swap_map f hdef, ih]
    split_ifs <;> rfl

variable (f : E → E') (hdef : f default = default) (cmp : E → E → Int) (cmp' : E' → E' → Int)
  (hcmp : ∀ x y, cmp' (f x) (f y) = cmp x y)

include hdef hcmp

theorem partitionCmpFunc_map (data : List E) (a b pivot : Nat) :
    partitionCmpFunc cmp' (data.map f) a b pivot
      = ((partitionCmpFunc cmp data a b pivot).1.map f, (partitionCmpFunc cmp data a b pivot).2) := by
  unfold partitionCmpFunc
  simp only [swap_map f hdef, el_map f hdef, hcmp]
  rw [partitionLoop_map f hdef (fun d i => decide (cmp (el d i) (el d a) < 0))
    (fun d j => !decide (cmp (el d j) (el d a) < 0))
    (fun d i => decide (cmp' (el d i) (el d a) < 0))
    (fun d j => !decide (cmp' (el d j) (el d a) < 0))
    (fun d => by funext k; simp only [el_map f hdef, hcmp])
    (fun d => by funext k; simp only [el_map f hdef, hcmp])]
  simp only [swap_map f hdef]
  split_ifs <;> rfl

theorem partitionEqualCmpFunc_map (data : List E) (a b pivot : Nat) :
    partitionEqualCmpFunc cmp' (data.map f) a b pivot
      = ((partitionEqualCmpFunc cmp data a b pivot).1.map f,
          (partitionEqualCmpFunc cmp data a b pivot).2) := by
  unfold partitionEqualCmpFunc
  simp only [swap_map f hdef]
  rw [partitionLoop_map f hdef (fun d i => !decide (cmp (el d a) (el d i) < 0))
    (fun d j => decide (cmp (el d a) (el d j) < 0))
    (fun d i => !decide (cmp' (el d a) (el d i) < 0))
    (fun d j => decide (cmp' (el d a) (el d j) < 0))
    (fun d => by funext k; simp only [el_map f hdef, hcmp])
    (fun d => by funext k; simp only [el_map f hdef, hcmp])]

theorem shiftLeft_map (j : Nat) (data : List E) :
    shiftLeft cmp' j (data.map f) = (shiftLeft cmp j data).map f := by
  induction j generalizing data with
  | zero => rfl
  | succ j ih =>
    unfold shiftLeft
    simp only [el_map f hdef, hcmp, swap_map f hdef, ih]
    split_ifs <;> rfl

theorem shiftRight_map (count j : Nat) (data : List E) :
    shiftRight cmp' count j (data.map f) = (shiftRight cmp count j data).map f := by
  induction count generalizing j data with
  | zero => rfl
  | succ count ih =>
    unfold shiftRight
    simp only [el_map f hdef, hcmp, swap_map f hdef, ih]
    split_ifs <;> rfl

theorem partialInsertionSortLoop_map (a b steps i : Nat) (data : List E) :
    partialInsertionSortLoop cmp' a b steps i (data.map f)
      = ((partialInsertionSortLoop cmp a b steps i data).1.map f,
          (partialInsertionSortLoop cmp a b steps i data).2) := by
  induction steps generalizing i data with
  | zero => rfl
  | succ steps ih =>
    unfold partialInsertionSortLoop
    simp only [el_map f hdef, hcmp, swap_map f hdef,
      shiftLeft_map f hdef cmp cmp' hcmp, apply_ite (List.map f)]
    split_ifs <;>
      simp only [shiftRight_map f hdef cmp cmp' hcmp, ih]

theorem partialInsertionSortCmpFunc_map (data : List E) (a b : Nat) :
    partialInsertionSortCmpFunc cmp' (data.map f) a b
      = ((partialInsertionSortCmpFunc cmp data a b).1.map f,
          (partialInsertionSortCmpFunc cmp data a b).2) :=
  partialInsertionSortLoop_map f hdef cmp cmp' hcmp _ _ _ _ _

theorem pdqsortPrepare_map (data : List E) (a b limit : Nat)
    (wasBalanced wasPartitioned : Bool) :
    pdqsortPrepare cmp' (data.map f) a b limit wasBalanced wasPartitioned
      = ((pdqsortPrepare cmp data a b limit wasBalanced wasPartitioned).1.map f,
          (pdqsortPrepare cmp data a b limit wasBalanced wasPartitioned).2) := by
  unfold pdqsortPrepare
  dsimp only
  cases wasBalanced <;>
    simp only [breakPatternsCmpFunc_map f hdef, choosePivotCmpFunc_map f hdef cmp cmp' hcmp,
      Bool.false_eq_true, if_false, if_true, false_and] <;>
    split_ifs <;>
    simp only [reverseRangeCmpFunc_map f hdef,
      partialInsertionSortCmpFunc_map f hdef cmp cmp' hcmp]

theorem pdqsortCmpFunc_map (fuel : Nat) (data : List E) (a b limit : Nat)
    (wasBalanced wasPartitioned : Bool) :
    pdqsortCmpFunc cmp' fuel (data.map f) a b limit wasBalanced wasPartitioned
      = (pdqsortCmpFunc cmp fuel data a b limit wasBalanced wasPartitioned).map (List.map f) := by
  induction fuel generalizing data a b limit wasBalanced wasPartitioned with
  | zero => rfl
  | succ fuel ih =>
    unfold pdqsortCmpFunc
    simp only [insertionSortCmpFunc_map f hdef cmp cmp' hcmp,
      heapSortCmpFunc_map f hdef cmp cmp' hcmp, pdqsortPrepare_map f hdef cmp cmp' hcmp,
      partitionEqualCmpFunc_map f hdef cmp cmp' hcmp,
      partitionCmpFunc_map f hdef cmp cmp' hcmp, el_map f hdef, hcmp, ih]
    split_ifs
    all_goals first
      | rfl
      | (generalize pdqsortCmpFunc cmp fuel _ _ _ _ true true = r
         cases r
         · rfl
         · simp only [Option.map_some', ih])

theorem SortFunc_map (x : List E) :
    SortFunc (x.map f) cmp' = (SortFunc x cmp).map f := by
  unfold SortFunc
  rw [List.length_map, pdqsortCmpFunc_map f hdef cmp cmp' hcmp]
  cases pdqsortCmpFunc cmp (x.length + 1) x 0 x.length (bitsLen x.length) true true <;> rfl

end SortingMap2

theorem withPrice_stamp (coin1 coin2 : String) (amount : F64) (network1 network2 : String)
    (p q : F64) (e : Estimate) :
    withPrice p (stamp coin1 coin2 amount network1 network2 q e)
      = stamp coin1 coin2 amount network1 network2 p e := rfl

theorem withPrice_default (p : F64) : withPrice p default = default := by
  cases p <;> rfl

theorem cmpEstimate_withPrice (p : F64) (x y : Estimate) :
    cmpEstimate (withPrice p x) (withPrice p y) = cmpEstimate x y := rfl

/-- The output of `populateEstimates` for one unit price is its output for another with
`TradeValueUSD` computed anew: the order of the quotes does not depend on the price. -/
theorem populateEstimates_withPrice (estimates : List Estimate) (coin1 coin2 : String)
    (amount : F64) (network1 network2 : String) (p q : F64) :
    populateEstimates estimates coin1 coin2 amount network1 network2 p
      = (populateEstimates estimates coin1 coin2 amount network1 network2 q).map
          (withPrice p) := by
  unfold populateEstimates
  rw [← SortFunc_map (withPrice p) (withPrice_default p) cmpEstimate cmpEstimate (cmpEstimate_withPrice p),
    List.map_map]
  rfl

theorem F64.mul_zero_eq (x : F64) (h : x.isFinite = true) :
    F64.eq (F64.mul x F64.zero) F64.zero = true := by
  cases x with
  | nan => simp [F64.isFinite] at h
  | inf n => simp [F64.isFinite] at h
  | fin n m e => simp [F64.mul, F64.zero, F64.round, F64.eq, F64.scaled]

/-- C4. When `GetPrice` for the destination coin fails, `FetchEstimateFromAPI` does not
fail: it returns `populateEstimates` of the decoded quotes for the unit price `0`,
which has every quote (the length of the input), each with `TradeValueUSD == 0` (the
decoded amounts being finite), in the order the quotes have for any other unit price. -/
theorem fetchEstimate_price_failure (uni : String → String) (w : World)
    (results : List Estimate) (coin1 coin2 : String) (amount : F64) (best : Bool)
    (network1 network2 : String) (err : PriceError)
    (hprice : (NewPriceService.GetPrice uni w coin2).1 = Except.error err)
    (hfinite : ∀ e ∈ results, e.ReceiveAmount.isFinite = true) :
    (FetchEstimateFromAPI uni w (APIReply.results results) coin1 coin2 amount best
        network1 network2).1
      = Except.ok (populateEstimates results coin1 coin2 amount network1 network2 F64.zero) ∧
    (populateEstimates results coin1 coin2 amount network1 network2 F64.zero).length
      = results.length ∧
    (∀ e ∈ populateEstimates results coin1 coin2 amount network1 network2 F64.zero,
      F64.eq e.TradeValueUSD F64.zero = true) ∧
    ∀ price, populateEstimates results coin1 coin2 amount network1 network2 price
      = (populateEstimates results coin1 coin2 amount network1 network2 F64.zero).map
          (fun e => { e with TradeValueUSD := F64.mul e.ReceiveAmount price }) := by
  refine ⟨?_, ?_, ?_, ?_⟩
  · unfold FetchEstimateFromAPI
    simp only [hprice]
  · have := (SortFunc_rearr (results.map
      (stamp coin1 coin2 amount network1 network2 F64.zero)) cmpEstimate).1
    simpa [populateEstimates] using this
  · intro e he
    have hp := (SortFunc_rearr (results.map
      (stamp coin1 coin2 amount network1 network2 F64.zero)) cmpEstimate).2
    have hm := (List.Perm.mem_iff hp).mp he
    obtain ⟨e0, he0, rfl⟩ := List.mem_map.mp hm
    exact F64.mul_zero_eq _ (hfinite e0 he0)
  · intro price
    exact populateEstimates_withPrice results coin1 coin2 amount network1 network2 price
      F64.zero

theorem fetchEstimate_price_failure_witness :
    (NewPriceService.GetPrice id exampleWorld "unknowncoin123").1
        = Except.error (PriceError.unknownCoin "unknowncoin123") ∧
    (∀ e ∈ threeQuotes, e.ReceiveAmount.isFinite = true) ∧
    (FetchEstimateFromAPI id exampleWorld (APIReply.results threeQuotes) "btc"
        "unknowncoin123" F64.one false "btc" "unknowncoin123").1
      = Except.ok (populateEstimates threeQuotes "btc" "unknowncoin123" F64.one "btc"
          "unknowncoin123" F64.zero) ∧
    (populateEstimates threeQuotes "btc" "unknowncoin123" F64.one "btc" "unknowncoin123"
        F64.zero).length = threeQuotes.length ∧
    (∀ e ∈ populateEstimates threeQuotes "btc" "unknowncoin123" F64.one "btc"
        "unknowncoin123" F64.zero, F64.eq e.TradeValueUSD F64.zero = true) ∧
    ∀ price, populateEstimates threeQuotes "btc" "unknowncoin123" F64.one "btc"
        "unknowncoin123" price
      = (populateEstimates threeQuotes "btc" "unknowncoin123" F64.one "btc" "unknowncoin123"
          F64.zero).map (fun e => { e with TradeValueUSD := F64.mul e.ReceiveAmount price }) :=
  ⟨by decide, by decide,
    fetchEstimate_price_failure id exampleWorld threeQuotes "btc" "unknowncoin123" F64.one
      false "btc" "unknowncoin123" (PriceError.unknownCoin "unknowncoin123") (by decide)
      (by decide)⟩

section SortingSorted

variable {E : Type} [Inhabited E] {K : Type} [LinearOrder K]

/-! ## The sort orders the slice -/

theorem Shuffle.shuffle_refl (a b : Nat) (data : List E) : Shuffle a b data data :=
  ⟨rfl, fun _ _ => rfl, fun k h1 h2 => ⟨k, h1, h2, rfl⟩⟩

theorem Shuffle.shuffle_trans {a b : Nat} {d1 d2 d3 : List E} (h1 : Shuffle a b d1 d2)
    (h2 : Shuffle a b d2 d3) : Shuffle a b d1 d3 := by
  refine ⟨h2.1.trans h1.1, fun k hk => (h2.2.1 k hk).trans (h1.2.1 k hk), ?_⟩
  intro k hk1 hk2
  obtain ⟨k', hk1', hk2', he⟩ := h2.2.2 k hk1 hk2
  obtain ⟨k'', hk1'', hk2'', he'⟩ := h1.2.2 k' hk1' hk2'
  exact ⟨k'', hk1'', hk2'', he.trans he'⟩

theorem Shuffle.mono {a b a' b' : Nat} {d1 d2 : List E} (h : Shuffle a b d1 d2)
    (ha : a' ≤ a) (hb : b ≤ b') : Shuffle a' b' d1 d2 := by
  refine ⟨h.1, fun k hk => h.2.1 k (by omega), ?_⟩
  intro k hk1 hk2
  by_cases hin : a ≤ k ∧ k < b
  · obtain ⟨k', hk1', hk2', he⟩ := h.2.2 k hin.1 hin.2
    exact ⟨k', by omega, by omega, he⟩
  · exact ⟨k, hk1, hk2, h.2.1 k (by omega)⟩

theorem Shuffle.shuffle_swap (a b : Nat) (data : List E) (i j : Nat) (hi : a ≤ i ∧ i < b)
    (hj : a ≤ j ∧ j < b) (hb : b ≤ data.length) : Shuffle a b data (swap data i j) := by
  refine ⟨length_swap _ _ _, ?_, ?_⟩
  · intro k hk
    rw [el_swap _ _ _ _ (by omega) (by omega), if_neg (by omega), if_neg (by omega)]
  · intro k hk1 hk2
    rw [el_swap _ _ _ _ (by omega) (by omega)]
    split
    · exact ⟨i, hi.1, hi.2, rfl⟩
    · split
      · exact ⟨j, hj.1, hj.2, rfl⟩
      · exact ⟨k, hk1, hk2, rfl⟩

/-- Every element of a rearranged slice comes from the slice. -/
theorem Shuffle.source {a b : Nat} {d1 d2 : List E} (h : Shuffle a b d1 d2)
    (hb : b ≤ d1.length) (k : Nat) (hk : k < d1.length) :
    ∃ k', k' < d1.length ∧ el d2 k = el d1 k' := by
  by_cases hin : a ≤ k ∧ k < b
  · obtain ⟨k', _, hk2', he⟩ := h.2.2 k hin.1 hin.2
    exact ⟨k', by omega, he⟩
  · exact ⟨k, hk, h.2.1 k (by omega)⟩

theorem Keyed.keyed_shuffle {cmp : E → E → Int} {key : E → K} {a b : Nat} {d1 d2 : List E}
    (hk : Keyed cmp key d1) (h : Shuffle a b d1 d2) (hb : b ≤ d1.length) :
    Keyed cmp key d2 := by
  intro i j hi hj
  rw [h.1] at hi hj
  obtain ⟨i', hi', hei⟩ := h.source hb i hi
  obtain ⟨j', hj', hej⟩ := h.source hb j hj
  rw [hei, hej]
  exact hk i' j' hi' hj'

theorem LowerBounded.bounded_shuffle {key : E → K} {a b : Nat} {d1 d2 : List E}
    (hl : LowerBounded key d1 a b) (h : Shuffle a b d1 d2) : LowerBounded key d2 a b := by
  intro ha k hk1 hk2
  obtain ⟨k', hk1', hk2', he⟩ := h.2.2 k hk1 hk2
  rw [he, h.2.1 (a - 1) (by omega)]
  exact hl ha k' hk1' hk2'

theorem SortedOn.of_adjacent (key : E → K) (data : List E) (a b : Nat)
    (h : ∀ i, a ≤ i → i + 1 < b → key (el data i) ≤ key (el data (i + 1))) :
    SortedOn key data a b := by
  intro i j hi hij hj
  induction j with
  | zero =>
    have : i = 0 := by omega
    rw [this]
  | succ j ih =>
    by_cases he : i = j + 1
    · rw [he]
    · exact le_trans (ih (by omega) (by omega)) (h j (by omega) hj)

theorem SortedOn.short (key : E → K) (data : List E) (a b : Nat) (h : b ≤ a + 1) :
    SortedOn key data a b := by
  intro i j hi hij hj
  have : i = j := by omega
  rw [this]

/-- A sorted range followed by an element that is at least its last one. -/
theorem SortedOn.snoc (key : E → K) (data : List E) (a j : Nat)
    (h : SortedOn key data a (j + 1)) (hlast : key (el data j) ≤ key (el data (j + 1))) :
    SortedOn key data a (j + 2) := by
  intro i k hi hik hk
  by_cases hk' : k = j + 1
  · by_cases hi' : i = j + 1
    · rw [hk', hi']
    · rw [hk']
      by_cases haj : a ≤ j
      · exact le_trans (h i j hi (by omega) (by omega)) hlast
      · omega
  · exact h i k hi hik (by omega)

/-- Two ranges are sorted alike when they hold the same elements at the same places. -/
theorem SortedOn.congr (key : E → K) (d1 d2 : List E) (a b : Nat)
    (h : SortedOn key d1 a b) (he : ∀ k, a ≤ k → k < b → el d2 k = el d1 k) :
    SortedOn key d2 a b := by
  intro i j hi hij hj
  rw [he i hi (by omega), he j (by omega) hj]
  exact h i j hi hij hj

end SortingSorted

section SortingSorted2

variable {E : Type} [Inhabited E] {K : Type} [LinearOrder K]
  (cmp : E → E → Int) (key : E → K)

theorem insertionSortInner_sorted (a j : Nat) (data : List E) (hk : Keyed cmp key data)
    (haj : a ≤ j) (hj : j < data.length) (hs : SortedOn key data a j) :
    Shuffle a (j + 1) data (insertionSortInner cmp a j data) ∧
      SortedOn key (insertionSortInner cmp a j data) a (j + 1) := by
  induction j generalizing data with
  | zero => exact ⟨Shuffle.shuffle_refl _ _ _, SortedOn.short _ _ _ _ (by omega)⟩
  | succ j ih =>
    unfold insertionSortInner
    split
    · rename_i hc
      have hsw : Shuffle a (j + 2) data (swap data (j + 1) j) :=
        Shuffle.shuffle_swap a (j + 2) data (j + 1) j (by omega) (by omega) (by omega)
      have hk1 : Keyed cmp key (swap data (j + 1) j) := hk.keyed_shuffle hsw (by omega)
      have hs1 : SortedOn key (swap data (j + 1) j) a j := by
        apply SortedOn.congr key data _ a j (fun i k h1 h2 h3 => hs i k h1 h2 (by omega))
        intro k _ hk2
        rw [el_swap _ _ _ _ hj (by omega), if_neg (by omega), if_neg (by omega)]
      obtain ⟨h1, h2⟩ := ih (swap data (j + 1) j) hk1 (by omega)
        (by rw [length_swap]; omega) hs1
      refine ⟨hsw.shuffle_trans (h1.mono (le_refl _) (by omega)), ?_⟩
      have hlt : key (el data (j + 1)) < key (el data j) := (hk _ _ hj (by omega)).mp hc.2
      have hlast : el (insertionSortInner cmp a j (swap data (j + 1) j)) (j + 1)
          = el data j := by
        rw [h1.2.1 (j + 1) (by omega), el_swap _ _ _ _ hj (by omega), if_neg (by omega),
          if_pos rfl]
      intro i k hi hik hkk
      by_cases hk' : k = j + 1
      · rw [hk', hlast]
        by_cases hi' : i = j + 1
        · rw [hi', hlast]
        · obtain ⟨i', hi1, hi2, he⟩ := h1.2.2 i hi (by omega)
          rw [he, el_swap _ _ _ _ hj (by omega)]
          split
          · exact le_of_lt hlt
          · rw [if_neg (by omega)]
            exact hs i' j hi1 (by omega) (by omega)
      · exact h2 i k hi hik (by omega)
    · rename_i hc
      refine ⟨Shuffle.shuffle_refl _ _ _, ?_⟩
      by_cases ha : a < j + 1
      · have hn : ¬ cmp (el data (j + 1)) (el data j) < 0 := fun h => hc ⟨ha, h⟩
        rw [hk _ _ hj (by omega)] at hn
        exact SortedOn.snoc key data a j hs (not_lt.mp hn)
      · exact SortedOn.short _ _ _ _ (by omega)

theorem insertionSortLoop_sorted (a count i : Nat) (data : List E) (hk : Keyed cmp key data)
    (hai : a ≤ i) (h : i + count ≤ data.length) (hs : SortedOn key data a i) :
    Shuffle a (i + count) data (insertionSortLoop cmp a count i data) ∧
      SortedOn key (insertionSortLoop cmp a count i data) a (i + count) := by
  induction count generalizing i data with
  | zero => exact ⟨Shuffle.shuffle_refl _ _ _, hs⟩
  | succ count ih =>
    unfold insertionSortLoop
    obtain ⟨h1, h2⟩ := insertionSortInner_sorted cmp key a i data hk hai (by omega) hs
    obtain ⟨h3, h4⟩ := ih (i + 1) (insertionSortInner cmp a i data)
      (hk.keyed_shuffle h1 (by omega)) (by omega) (by rw [h1.1]; omega) h2
    have he : i + 1 + count = i + (count + 1) := by omega
    rw [he] at h3 h4
    exact ⟨(h1.mono (le_refl _) (by omega)).shuffle_trans h3, h4⟩

theorem insertionSortCmpFunc_sorted (data : List E) (a b : Nat) (hk : Keyed cmp key data)
    (hb : b ≤ data.length) :
    Shuffle a b data (insertionSortCmpFunc cmp data a b) ∧
      SortedOn key (insertionSortCmpFunc cmp data a b) a b := by
  unfold insertionSortCmpFunc
  by_cases h : a + 1 ≤ b
  · have := insertionSortLoop_sorted cmp key a (b - (a + 1)) (a + 1) data hk (by omega)
      (by omega) (SortedOn.short _ _ _ _ (by omega))
    have he : a + 1 + (b - (a + 1)) = b := by omega
    rw [he] at this
    exact this
  · have : b - (a + 1) = 0 := by omega
    rw [this]
    exact ⟨Shuffle.shuffle_refl _ _ _, SortedOn.short _ _ _ _ (by omega)⟩

end SortingSorted2

section SortingHeap

variable {E : Type} [Inhabited E] {K : Type} [LinearOrder K]
  (cmp : E → E → Int) (key : E → K)

theorem siftDownCmpFunc_heap (hi first lo fuel root : Nat) (data : List E)
    (hk : Keyed cmp key data) (hb : first + hi ≤ data.length) (hfuel : hi ≤ root + fuel)
    (hlo : lo ≤ root)
    (hA : ∀ i, lo ≤ i → i ≠ root → HeapAt key data first hi i)
    (hB : ∀ p, lo ≤ p → (root = 2 * p + 1 ∨ root = 2 * p + 2) →
      ∀ c, (c = 2 * root + 1 ∨ c = 2 * root + 2) → c < hi →
        key (el data (first + c)) ≤ key (el data (first + p))) :
    Shuffle (first + root) (first + hi) data (siftDownCmpFunc cmp hi first fuel root data) ∧
      ∀ i, lo ≤ i → HeapAt key (siftDownCmpFunc cmp hi first fuel root data) first hi i := by
  induction fuel generalizing root data with
  | zero =>
    refine ⟨Shuffle.shuffle_refl _ _ _, fun i hi' => ?_⟩
    by_cases hir : i = root
    · rw [hir]
      exact ⟨fun h => by omega, fun h => by omega⟩
    · exact hA i hi' hir
  | succ fuel ih =>
    unfold siftDownCmpFunc
    dsimp only
    split
    · rename_i hc
      refine ⟨Shuffle.shuffle_refl _ _ _, fun i hi' => ?_⟩
      by_cases hir : i = root
      · rw [hir]
        exact ⟨fun h => by omega, fun h => by omega⟩
      · exact hA i hi' hir
    · rename_i hc
      -- the greater child
      have hchild : ∃ c, (if 2 * root + 1 + 1 < hi ∧
            cmp (el data (first + (2 * root + 1))) (el data (first + (2 * root + 1) + 1)) < 0
          then 2 * root + 1 + 1 else 2 * root + 1) = c ∧
          (c = 2 * root + 1 ∨ c = 2 * root + 2) ∧ c < hi ∧
          key (el data (first + (2 * root + 1))) ≤ key (el data (first + c)) ∧
          (2 * root + 2 < hi →
            key (el data (first + (2 * root + 2))) ≤ key (el data (first + c))) := by
        by_cases hcond : 2 * root + 1 + 1 < hi ∧
            cmp (el data (first + (2 * root + 1))) (el data (first + (2 * root + 1) + 1)) < 0
        · refine ⟨2 * root + 2, by rw [if_pos hcond], Or.inr rfl, by omega, ?_, fun _ => le_refl _⟩
          have := (hk _ _ (by omega) (by omega)).mp hcond.2
          exact le_of_lt this
        · refine ⟨2 * root + 1, by rw [if_neg hcond], Or.inl rfl, by omega, le_refl _, ?_⟩
          intro h2
          have hn : ¬ cmp (el data (first + (2 * root + 1)))
              (el data (first + (2 * root + 1) + 1)) < 0 := fun h => hcond ⟨by omega, h⟩
          rw [hk _ _ (by omega) (by omega)] at hn
          exact not_lt.mp hn
      obtain ⟨c, hce, hc12, hchi, hd1, hd2⟩ := hchild
      rw [hce]
      split
      · rename_i hnl
        rw [hk _ _ (by omega) (by omega)] at hnl
        have hle := not_lt.mp hnl
        refine ⟨Shuffle.shuffle_refl _ _ _, fun i hi' => ?_⟩
        by_cases hir : i = root
        · rw [hir]
          exact ⟨fun _ => le_trans hd1 hle, fun h => le_trans (hd2 h) hle⟩
        · exact hA i hi' hir
      · rename_i hl
        rw [not_not, hk _ _ (by omega) (by omega)] at hl
        have hsw : Shuffle (first + root) (first + hi) data
            (swap data (first + root) (first + c)) :=
          Shuffle.shuffle_swap _ _ data _ _ (by omega) (by omega) hb
        have hel : ∀ x, el (swap data (first + root) (first + c)) (first + x)
            = if x = c then el data (first + root)
              else if x = root then el data (first + c) else el data (first + x) := by
          intro x
          rw [el_swap _ _ _ _ (by omega) (by omega)]
          by_cases h1 : x = c
          · rw [if_pos (by omega), if_pos h1]
          · rw [if_neg (by omega), if_neg h1]
            by_cases h2 : x = root
            · rw [if_pos (by omega), if_pos h2]
            · rw [if_neg (by omega), if_neg h2]
        have hroot : el (swap data (first + root) (first + c)) (first + root)
            = el data (first + c) := by
          rw [hel, if_neg (by omega), if_pos rfl]
        have hcv : el (swap data (first + root) (first + c)) (first + c)
            = el data (first + root) := by
          rw [hel, if_pos rfl]
        have hoth : ∀ x, x ≠ c → x ≠ root →
            el (swap data (first + root) (first + c)) (first + x) = el data (first + x) := by
          intro x h1 h2
          rw [hel, if_neg h1, if_neg h2]
        have hchildren : ∀ x, (x = 2 * root + 1 ∨ x = 2 * root + 2) → x < hi →
            key (el (swap data (first + root) (first + c)) (first + x))
              ≤ key (el data (first + c)) := by
          intro x hx hxhi
          by_cases hxc : x = c
          · rw [hxc, hcv]
            exact le_of_lt hl
          · rw [hoth x hxc (by omega)]
            rcases hx with hx | hx
            · rw [hx]; exact hd1
            · rw [hx]; exact hd2 (by omega)
        have hA' : ∀ i, lo ≤ i → i ≠ c →
            HeapAt key (swap data (first + root) (first + c)) first hi i := by
          intro i hi' hic
          by_cases hir : i = root
          · rw [hir]
            constructor
            · intro hx
              rw [hroot]
              exact hchildren _ (Or.inl rfl) hx
            · intro hx
              rw [hroot]
              exact hchildren _ (Or.inr rfl) hx
          · have hAi := hA i hi' hir
            have hother : ∀ x, (x = 2 * i + 1 ∨ x = 2 * i + 2) → x < hi →
                key (el data (first + x)) ≤ key (el data (first + i)) →
                key (el (swap data (first + root) (first + c)) (first + x))
                  ≤ key (el (swap data (first + root) (first + c)) (first + i)) := by
              intro x hx hxhi hle
              rw [hoth i hic hir]
              by_cases hxr : x = root
              · rw [hxr, hroot]
                exact hB i hi' (by omega) c hc12 hchi
              · rw [hoth x (by omega) hxr]
                exact hle
            exact ⟨fun hx => hother _ (Or.inl rfl) hx (hAi.1 hx),
              fun hx => hother _ (Or.inr rfl) hx (hAi.2 hx)⟩
        have hB' : ∀ p, lo ≤ p → (c = 2 * p + 1 ∨ c = 2 * p + 2) →
            ∀ cc, (cc = 2 * c + 1 ∨ cc = 2 * c + 2) → cc < hi →
              key (el (swap data (first + root) (first + c)) (first + cc))
                ≤ key (el (swap data (first + root) (first + c)) (first + p)) := by
          intro p hp hpc cc hcc hcchi
          have hpr : p = root := by omega
          rw [hpr, hroot, hoth cc (by omega) (by omega)]
          have hAc := hA c (by omega) (by omega)
          rcases hcc with hcc | hcc
          · rw [hcc]; exact hAc.1 (by omega)
          · rw [hcc]; exact hAc.2 (by omega)
        obtain ⟨h1, h2⟩ := ih c (swap data (first + root) (first + c))
          (hk.keyed_shuffle hsw hb) (by rw [length_swap]; exact hb) (by omega) (by omega) hA' hB'
        exact ⟨hsw.shuffle_trans (h1.mono (by omega) (le_refl _)), h2⟩

theorem heapBuild_heap (hi first i : Nat) (data : List E) (hk : Keyed cmp key data)
    (hb : first + hi ≤ data.length)
    (hA : ∀ j, i + 1 ≤ j → HeapAt key data first hi j) :
    Shuffle first (first + hi) data (heapBuild cmp hi first i data) ∧
      ∀ j, HeapAt key (heapBuild cmp hi first i data) first hi j := by
  induction i generalizing data with
  | zero =>
    unfold heapBuild
    obtain ⟨h1, h2⟩ := siftDownCmpFunc_heap cmp key hi first 0 hi 0 data hk hb (by omega)
      (le_refl _) (fun j _ hj => hA j (by omega)) (fun p _ hp => by omega)
    exact ⟨h1, fun j => h2 j (Nat.zero_le _)⟩
  | succ i ih =>
    unfold heapBuild
    obtain ⟨h1, h2⟩ := siftDownCmpFunc_heap cmp key hi first (i + 1) hi (i + 1) data hk hb
      (by omega) (le_refl _) (fun j hj hne => hA j (by omega)) (fun p hp1 hp2 => by omega)
    have h1' : Shuffle first (first + hi) data (siftDownCmpFunc cmp hi first hi (i + 1) data) :=
      h1.mono (by omega) (le_refl _)
    obtain ⟨h3, h4⟩ := ih (siftDownCmpFunc cmp hi first hi (i + 1) data)
      (hk.keyed_shuffle h1' hb) (by rw [h1.1]; exact hb) h2
    exact ⟨h1'.shuffle_trans h3, h4⟩

/-- The root of a heap is at least every node. -/
theorem heap_root_max (first n : Nat) (data : List E)
    (hA : ∀ j, HeapAt key data first n j) (k : Nat) (hk : k < n) :
    key (el data (first + k)) ≤ key (el data first) := by
  induction k using Nat.strong_induction_on with
  | _ k ih =>
    by_cases h0 : k = 0
    · rw [h0]; exact le_refl _
    · have hp := ih ((k - 1) / 2) (by omega) (by omega)
      have hh := hA ((k - 1) / 2)
      by_cases hodd : k = 2 * ((k - 1) / 2) + 1
      · have := hh.1 (by omega)
        rw [← hodd] at this
        exact le_trans this hp
      · have hev : k = 2 * ((k - 1) / 2) + 2 := by omega
        have := hh.2 (by omega)
        rw [← hev] at this
        exact le_trans this hp

/-- A sorted range followed by an element that is at least each of its elements. -/
theorem SortedOn.snoc_max (data : List E) (a j : Nat) (h : SortedOn key data a j)
    (hmax : ∀ k, a ≤ k → k < j → key (el data k) ≤ key (el data j)) :
    SortedOn key data a (j + 1) := by
  intro i k hi hik hk
  by_cases hk' : k = j
  · by_cases hi' : i = j
    · rw [hk', hi']
    · rw [hk']
      exact hmax i hi (by omega)
  · exact h i k hi hik (by omega)

theorem heapPop_sorted (first n : Nat) (data : List E) (hk : Keyed cmp key data)
    (hb : first + n ≤ data.length) (hA : ∀ j, HeapAt key data first n j) :
    Shuffle first (first + n) data (heapPop cmp first n data) ∧
      SortedOn key (heapPop cmp first n data) first (first + n) := by
  induction n generalizing data with
  | zero => exact ⟨Shuffle.shuffle_refl _ _ _, SortedOn.short _ _ _ _ (by omega)⟩
  | succ i ih =>
    unfold heapPop
    have hsw : Shuffle first (first + (i + 1)) data (swap data first (first + i)) :=
      Shuffle.shuffle_swap _ _ data _ _ (by omega) (by omega) hb
    have hlast : el (swap data first (first + i)) (first + i) = el data first := by
      rw [el_swap _ _ _ _ (by omega) (by omega), if_pos rfl]
    have hfirst : el (swap data first (first + i)) first = el data (first + i) := by
      rw [el_swap _ _ _ _ (by omega) (by omega)]
      split
      · rename_i h0
        rw [← h0]
      · rw [if_pos rfl]
    have hoth : ∀ x, x ≠ 0 → x ≠ i →
        el (swap data first (first + i)) (first + x) = el data (first + x) := by
      intro x h1 h2
      rw [el_swap _ _ _ _ (by omega) (by omega), if_neg (by omega), if_neg (by omega)]
    have hk1 : Keyed cmp key (swap data first (first + i)) := hk.keyed_shuffle hsw hb
    have hA1 : ∀ j, 0 ≤ j → j ≠ 0 → HeapAt key (swap data first (first + i)) first i j := by
      intro j _ hj
      have hAj := hA j
      constructor
      · intro hx
        rw [hoth _ (by omega) (by omega), hoth j hj (by omega)]
        exact hAj.1 (by omega)
      · intro hx
        rw [hoth _ (by omega) (by omega), hoth j hj (by omega)]
        exact hAj.2 (by omega)
    obtain ⟨h1, h2⟩ := siftDownCmpFunc_heap cmp key i first 0 i 0
      (swap data first (first + i)) hk1 (by rw [length_swap]; omega) (by omega) (le_refl _)
      hA1 (fun p _ hp => by omega)
    have h1' : Shuffle first (first + i) (swap data first (first + i))
        (siftDownCmpFunc cmp i first i 0 (swap data first (first + i))) :=
      h1.mono (by omega) (le_refl _)
    obtain ⟨h3, h4⟩ := ih (siftDownCmpFunc cmp i first i 0 (swap data first (first + i)))
      (hk1.keyed_shuffle h1' (by rw [length_swap]; omega)) (by rw [h1.1, length_swap]; omega)
      (fun j => h2 j (Nat.zero_le _))
    refine ⟨hsw.shuffle_trans ((h1'.shuffle_trans h3).mono (le_refl _) (by omega)), ?_⟩
    have he : first + (i + 1) = first + i + 1 := by omega
    rw [he]
    apply SortedOn.snoc_max key _ _ _ h4
    intro k hk1' hk2'
    rw [h3.2.1 (first + i) (by omega), h1'.2.1 (first + i) (by omega), hlast]
    obtain ⟨k', hk1'', hk2'', he'⟩ := (h1'.shuffle_trans h3).2.2 k hk1' hk2'
    rw [he']
    by_cases hkf : k' = first
    · rw [hkf, hfirst]
      have := heap_root_max key first (i + 1) data hA i (by omega)
      exact this
    · have hx : k' = first + (k' - first) := by omega
      rw [hx, hoth (k' - first) (by omega) (by omega)]
      exact heap_root_max key first (i + 1) data hA (k' - first) (by omega)

theorem heapSortCmpFunc_sorted (data : List E) (a b : Nat) (hk : Keyed cmp key data)
    (hab : a ≤ b) (hb : b ≤ data.length) :
    Shuffle a b data (heapSortCmpFunc cmp data a b) ∧
      SortedOn key (heapSortCmpFunc cmp data a b) a b := by
  unfold heapSortCmpFunc
  dsimp only
  obtain ⟨h1, h2⟩ := heapBuild_heap cmp key (b - a) a ((b - a - 1) / 2) data hk (by omega)
    (fun j hj => ⟨fun h => by omega, fun h => by omega⟩)
  obtain ⟨h3, h4⟩ := heapPop_sorted cmp key a (b - a)
    (heapBuild cmp (b - a) a ((b - a - 1) / 2) data) (hk.keyed_shuffle h1 (by omega))
    (by rw [h1.1]; omega) h2
  have he : a + (b - a) = b := by omega
  rw [he] at h1 h3 h4
  exact ⟨h1.shuffle_trans h3, h4⟩

end SortingHeap

section SortingSorted3

variable {E : Type} [Inhabited E] {K : Type} [LinearOrder K]
  (cmp : E → E → Int) (key : E → K)

omit [LinearOrder K] in
theorem breakPatternsLoop_shuffle (a length idx modulus count i random : Nat) (data : List E)
    (hmod : modulus ≤ 2 * length) (hmod0 : 0 < modulus)
    (hlo : a ≤ idx - 1 + i) (hidx : idx - 1 + i + count ≤ a + length)
    (hb : a + length ≤ data.length) :
    Shuffle a (a + length) data
      (breakPatternsLoop a length idx modulus count i random data) := by
  induction count generalizing i random data with
  | zero => exact Shuffle.shuffle_refl _ _ _
  | succ count ih =>
    unfold breakPatternsLoop
    dsimp only
    have hlt : xorshiftNext random % modulus < modulus := Nat.mod_lt _ hmod0
    have hother : (if xorshiftNext random % modulus ≥ length
        then xorshiftNext random % modulus - length else xorshiftNext random % modulus)
        < length := by
      split <;> omega
    refine (Shuffle.shuffle_swap a (a + length) data _ _ (by omega) (by omega) hb).shuffle_trans
      (ih _ _ _ (by omega) (by omega) ?_)
    rw [length_swap]; exact hb

omit [LinearOrder K] in
theorem breakPatternsCmpFunc_shuffle (data : List E) (a b : Nat) (hab : a ≤ b)
    (hb : b ≤ data.length) : Shuffle a b data (breakPatternsCmpFunc data a b) := by
  unfold breakPatternsCmpFunc
  dsimp only
  split
  · rename_i h8
    have hp : 0 < nextPowerOfTwo (b - a) := by
      unfold nextPowerOfTwo
      exact Nat.pos_pow_of_pos _ (by omega)
    have := breakPatternsLoop_shuffle a (b - a) (a + (b - a) / 4 * 2 - 1)
      (nextPowerOfTwo (b - a)) 3 0 (b - a) data
      (two_pow_bitsLen_le _ (by omega)) hp (by omega) (by omega) (by omega)
    have he : a + (b - a) = b := by omega
    rw [he] at this
    exact this
  · exact Shuffle.shuffle_refl _ _ _

omit [LinearOrder K] in
theorem reverseRangeLoop_shuffle (a b fuel i j : Nat) (data : List E) (hi : a ≤ i)
    (hj : j < b) (hb : b ≤ data.length) :
    Shuffle a b data (reverseRangeLoop fuel i j data) := by
  induction fuel generalizing i j data with
  | zero => exact Shuffle.shuffle_refl _ _ _
  | succ fuel ih =>
    unfold reverseRangeLoop
    split
    · exact (Shuffle.shuffle_swap a b data i j (by omega) (by omega) hb).shuffle_trans
        (ih _ _ _ (by omega) (by omega) (by rw [length_swap]; exact hb))
    · exact Shuffle.shuffle_refl _ _ _

omit [LinearOrder K] in
theorem reverseRangeCmpFunc_shuffle (data : List E) (a b : Nat) (hab : a < b)
    (hb : b ≤ data.length) : Shuffle a b data (reverseRangeCmpFunc data a b) := by
  unfold reverseRangeCmpFunc
  exact reverseRangeLoop_shuffle a b _ _ _ data (le_refl _) (by omega) hb

/-- Once `data[j+1]`, less than `data[j]`, has been exchanged with it and put in its
place in the sorted `data[a:j+1]`, the range `data[a:j+2]` is sorted. -/
theorem sorted_after_insert (a j : Nat) (data d2 : List E) (haj : a ≤ j)
    (hj : j + 1 < data.length) (hs : SortedOn key data a (j + 1))
    (hlt : key (el data (j + 1)) < key (el data j))
    (h1 : Shuffle a (j + 1) (swap data (j + 1) j) d2) (h2 : SortedOn key d2 a (j + 1)) :
    SortedOn key d2 a (j + 2) := by
  have hlast : el d2 (j + 1) = el data j := by
    rw [h1.2.1 (j + 1) (by omega), el_swap _ _ _ _ hj (by omega), if_neg (by omega),
      if_pos rfl]
  intro i k hi hik hkk
  by_cases hk' : k = j + 1
  · rw [hk', hlast]
    by_cases hi' : i = j + 1
    · rw [hi', hlast]
    · obtain ⟨i', hi1, hi2, he⟩ := h1.2.2 i hi (by omega)
      rw [he, el_swap _ _ _ _ hj (by omega)]
      split
      · exact le_of_lt hlt
      · rw [if_neg (by omega)]
        exact hs i' j hi1 (by omega) (by omega)
  · exact h2 i k hi hik (by omega)

theorem shiftLeft_sorted (a j : Nat) (data : List E) (hk : Keyed cmp key data)
    (haj : a ≤ j) (hj : j < data.length) (hs : SortedOn key data a j)
    (hlb : 0 < a → key (el data (a - 1)) ≤ key (el data j)) :
    Shuffle a (j + 1) data (shiftLeft cmp j data) ∧
      SortedOn key (shiftLeft cmp j data) a (j + 1) := by
  induction j generalizing data with
  | zero => exact ⟨Shuffle.shuffle_refl _ _ _, SortedOn.short _ _ _ _ (by omega)⟩
  | succ j ih =>
    unfold shiftLeft
    split
    · rename_i hc
      refine ⟨Shuffle.shuffle_refl _ _ _, ?_⟩
      by_cases ha : a < j + 1
      · rw [hk _ _ hj (by omega)] at hc
        exact SortedOn.snoc key data a j hs (not_lt.mp hc)
      · exact SortedOn.short _ _ _ _ (by omega)
    · rename_i hc
      rw [not_not, hk _ _ hj (by omega)] at hc
      have ha : a ≤ j := by
        by_contra hn
        have h0 : 0 < a := by omega
        have := hlb h0
        have he : a - 1 = j := by omega
        rw [he] at this
        exact absurd hc (not_lt.mpr this)
      have hsw : Shuffle a (j + 2) data (swap data (j + 1) j) :=
        Shuffle.shuffle_swap a (j + 2) data (j + 1) j (by omega) (by omega) (by omega)
      have hs1 : SortedOn key (swap data (j + 1) j) a j := by
        apply SortedOn.congr key data _ a j (fun i k h1 h2 h3 => hs i k h1 h2 (by omega))
        intro k _ hk2
        rw [el_swap _ _ _ _ hj (by omega), if_neg (by omega), if_neg (by omega)]
      have hlb1 : 0 < a → key (el (swap data (j + 1) j) (a - 1))
          ≤ key (el (swap data (j + 1) j) j) := by
        intro h0
        rw [el_swap _ _ _ _ hj (by omega), el_swap _ _ _ _ hj (by omega), if_pos rfl]
        by_cases he : a - 1 = j
        · omega
        · rw [if_neg he, if_neg (by omega)]
          exact hlb h0
      obtain ⟨h1, h2⟩ := ih (swap data (j + 1) j) (hk.keyed_shuffle hsw (by omega)) ha
        (by rw [length_swap]; omega) hs1 hlb1
      exact ⟨hsw.shuffle_trans (h1.mono (le_refl _) (by omega)),
        sorted_after_insert key a j data _ ha hj hs hc h1 h2⟩

omit [LinearOrder K] in
theorem shiftRight_shuffle (count j : Nat) (data : List E) (hj1 : 1 ≤ j)
    (hj : j + count ≤ data.length) :
    Shuffle (j - 1) (j + count) data (shiftRight cmp count j data) := by
  induction count generalizing j data with
  | zero => exact Shuffle.shuffle_refl _ _ _
  | succ count ih =>
    unfold shiftRight
    split
    · exact Shuffle.shuffle_refl _ _ _
    · have h1 := Shuffle.shuffle_swap (j - 1) (j + (count + 1)) data j (j - 1) (by omega) (by omega) hj
      have h2 := ih (j + 1) (swap data j (j - 1)) (by omega) (by rw [length_swap]; omega)
      exact h1.shuffle_trans (h2.mono (by omega) (by omega))

end SortingSorted3

section SortingSorted4

variable {E : Type} [Inhabited E] {K : Type} [LinearOrder K]
  (cmp : E → E → Int) (key : E → K)

theorem partialInsertionSortLoop_sorted (a b steps i : Nat) (data : List E)
    (hk : Keyed cmp key data) (hai : a + 1 ≤ i) (hib : i ≤ b) (hb : b ≤ data.length)
    (hs : SortedOn key data a i) (hlb : LowerBounded key data a b) :
    Shuffle a b data (partialInsertionSortLoop cmp a b steps i data).1 ∧
      ((partialInsertionSortLoop cmp a b steps i data).2 = true →
        SortedOn key (partialInsertionSortLoop cmp a b steps i data).1 a b) := by
  induction steps generalizing i data with
  | zero => exact ⟨Shuffle.shuffle_refl _ _ _, fun h => by simp [partialInsertionSortLoop] at h⟩
  | succ steps ih =>
    unfold partialInsertionSortLoop
    dsimp only
    have h1 := scanUp_ge (fun i => !decide (cmp (el data i) (el data (i - 1)) < 0)) (b - i) i
    have h2 := scanUp_le (fun i => !decide (cmp (el data i) (el data (i - 1)) < 0)) (b - i) i
    have h3 := scanUp_passed (fun i => !decide (cmp (el data i) (el data (i - 1)) < 0))
      (b - i) i
    have h4 := scanUp_stop (fun i => !decide (cmp (el data i) (el data (i - 1)) < 0))
      (b - i) i
    generalize scanUp (fun i => !decide (cmp (el data i) (el data (i - 1)) < 0))
      (b - i) i = i1 at h1 h2 h3 h4 ⊢
    have hs1 : SortedOn key data a i1 := by
      apply SortedOn.of_adjacent
      intro k hk1 hk2
      by_cases hki : k + 1 < i
      · exact hs k (k + 1) hk1 (by omega) hki
      · have := h3 (k + 1) (by omega) hk2
        simp only [Bool.not_eq_true', decide_eq_false_iff_not, Nat.add_sub_cancel] at this
        rw [hk _ _ (by omega) (by omega)] at this
        exact not_lt.mp this
    split
    · rename_i he
      dsimp only
      refine ⟨Shuffle.shuffle_refl _ _ _, fun _ => ?_⟩
      rw [← he]
      exact hs1
    · rename_i hne
      split
      · exact ⟨Shuffle.shuffle_refl _ _ _, fun h => by simp at h⟩
      · have hstop := h4 (by omega)
        simp only [Bool.not_eq_false', decide_eq_true_eq] at hstop
        rw [hk _ _ (by omega) (by omega)] at hstop
        have hsw : Shuffle a b data (swap data i1 (i1 - 1)) :=
          Shuffle.shuffle_swap a b data _ _ (by omega) (by omega) hb
        have hk1 : Keyed cmp key (swap data i1 (i1 - 1)) := hk.keyed_shuffle hsw hb
        have hl1 : (swap data i1 (i1 - 1)).length = data.length := length_swap _ _ _
        generalize hd2 : (if i1 - a ≥ 2 then shiftLeft cmp (i1 - 1) (swap data i1 (i1 - 1))
              else swap data i1 (i1 - 1)) = d2
        have r2 : Shuffle a i1 (swap data i1 (i1 - 1)) d2 ∧ SortedOn key d2 a i1 := by
          rw [← hd2]
          split
          · have hsp : SortedOn key (swap data i1 (i1 - 1)) a (i1 - 1) := by
              apply SortedOn.congr key data _ a (i1 - 1)
                (fun x y h1 h2 h3 => hs1 x y h1 h2 (by omega))
              intro x _ hx2
              rw [el_swap _ _ _ _ (by omega) (by omega), if_neg (by omega), if_neg (by omega)]
            have hlbp : 0 < a → key (el (swap data i1 (i1 - 1)) (a - 1))
                ≤ key (el (swap data i1 (i1 - 1)) (i1 - 1)) := by
              intro h0
              rw [el_swap _ _ _ _ (by omega) (by omega), el_swap _ _ _ _ (by omega) (by omega),
                if_neg (by omega), if_neg (by omega), if_pos rfl]
              exact hlb h0 i1 (by omega) (by omega)
            have := shiftLeft_sorted cmp key a (i1 - 1) (swap data i1 (i1 - 1)) hk1
              (by omega) (by omega) hsp hlbp
            have he : i1 - 1 + 1 = i1 := by omega
            rw [he] at this
            exact this
          · exact ⟨Shuffle.shuffle_refl _ _ _, SortedOn.short _ _ _ _ (by omega)⟩
        have r2' : Shuffle a b (swap data i1 (i1 - 1)) d2 := r2.1.mono (le_refl _) (by omega)
        have hk2 : Keyed cmp key d2 := hk1.keyed_shuffle r2' (by omega)
        generalize hd3 : (if b - i1 ≥ 2 then shiftRight cmp (b - (i1 + 1)) (i1 + 1) d2
              else d2) = d3
        have r3 : Shuffle i1 b d2 d3 := by
          rw [← hd3]
          split
          · have := shiftRight_shuffle cmp (b - (i1 + 1)) (i1 + 1) d2 (by omega)
              (by rw [r2.1.1, hl1]; omega)
            have he : i1 + 1 + (b - (i1 + 1)) = b := by omega
            rw [he] at this
            exact this
          · exact Shuffle.shuffle_refl _ _ _
        have r3' : Shuffle a b d2 d3 := r3.mono (by omega) (le_refl _)
        have hall : Shuffle a b data d3 := (hsw.shuffle_trans r2').shuffle_trans r3'
        have hs3 : SortedOn key d3 a i1 :=
          SortedOn.congr key d2 d3 a i1 r2.2 (fun x _ hx => r3.2.1 x (by omega))
        obtain ⟨q1, q2⟩ := ih i1 d3 (hk.keyed_shuffle hall hb) (by omega) (by omega)
          (by rw [hall.1]; exact hb) hs3 (hlb.bounded_shuffle hall)
        exact ⟨hall.shuffle_trans q1, q2⟩

theorem partialInsertionSortCmpFunc_sorted (data : List E) (a b : Nat)
    (hk : Keyed cmp key data) (hab : a < b) (hb : b ≤ data.length)
    (hlb : LowerBounded key data a b) :
    Shuffle a b data (partialInsertionSortCmpFunc cmp data a b).1 ∧
      ((partialInsertionSortCmpFunc cmp data a b).2 = true →
        SortedOn key (partialInsertionSortCmpFunc cmp data a b).1 a b) :=
  partialInsertionSortLoop_sorted cmp key a b 5 (a + 1) data hk (le_refl _) (by omega) hb
    (SortedOn.short _ _ _ _ (le_refl _)) hlb

end SortingSorted4

section SortingPartition

variable {E : Type} [Inhabited E] {K : Type} [LinearOrder K]
  (cmp : E → E → Int) (key : E → K)

omit [LinearOrder K] in
/-- What `partitionLoop` leaves: the elements passed by the scan upwards, on which `u`
holds, then those passed by the scan downwards, on which it does not. -/
theorem partitionLoop_split (pUp pDown : List E → Nat → Bool) (u : E → Bool) (a : Nat)
    (pv : E) (hup : ∀ d k, el d a = pv → pUp d k = u (el d k))
    (hdown : ∀ d k, el d a = pv → pDown d k = !u (el d k))
    (fuel i j : Nat) (data : List E) (hai : a < i) (hij : i ≤ j + 1) (hj : j < data.length)
    (hfuel : j + 1 - i ≤ fuel) (hpv : el data a = pv) :
    Shuffle i (j + 1) data (partitionLoop pUp pDown fuel i j data).2.2 ∧
      (partitionLoop pUp pDown fuel i j data).1
        = (partitionLoop pUp pDown fuel i j data).2.1 + 1 ∧
      i ≤ (partitionLoop pUp pDown fuel i j data).1 ∧
      (partitionLoop pUp pDown fuel i j data).1 ≤ j + 1 ∧
      (∀ k, i ≤ k → k < (partitionLoop pUp pDown fuel i j data).1 →
        u (el (partitionLoop pUp pDown fuel i j data).2.2 k) = true) ∧
      (∀ k, (partitionLoop pUp pDown fuel i j data).2.1 < k → k ≤ j →
        u (el (partitionLoop pUp pDown fuel i j data).2.2 k) = false) := by
  induction fuel generalizing i j data with
  | zero =>
    unfold partitionLoop
    dsimp only
    exact ⟨Shuffle.shuffle_refl _ _ _, by omega, le_refl _, hij, fun k h1 h2 => by omega,
      fun k h1 h2 => by omega⟩
  | succ fuel ih =>
    unfold partitionLoop
    dsimp only
    have h1 := scanUp_ge (pUp data) (j + 1 - i) i
    have h2 := scanUp_le (pUp data) (j + 1 - i) i
    have h3 := scanUp_passed (pUp data) (j + 1 - i) i
    have h4 := scanUp_stop (pUp data) (j + 1 - i) i
    generalize scanUp (pUp data) (j + 1 - i) i = i1 at h1 h2 h3 h4 ⊢
    have h5 := scanDown_le (pDown data) (j + 1 - i1) j
    have h6 := scanDown_ge (pDown data) (j + 1 - i1) j
    have h7 := scanDown_passed (pDown data) (j + 1 - i1) j
    have h8 := scanDown_stop (pDown data) (j + 1 - i1) j (by omega)
    generalize scanDown (pDown data) (j + 1 - i1) j = j1 at h5 h6 h7 h8 ⊢
    have hupd : ∀ k, i ≤ k → k < i1 → u (el data k) = true := by
      intro k hk1 hk2
      rw [← hup data k hpv]
      exact h3 k hk1 hk2
    have hdnd : ∀ k, j1 < k → k ≤ j → u (el data k) = false := by
      intro k hk1 hk2
      have := h7 k hk1 hk2
      rw [hdown data k hpv] at this
      simpa using this
    split
    · dsimp only
      exact ⟨Shuffle.shuffle_refl _ _ _, by omega, h1, by omega, hupd, hdnd⟩
    · rename_i hle
      have hui : u (el data i1) = false := by
        rw [← hup data i1 hpv]
        exact h4 (by omega)
      have huj : u (el data j1) = true := by
        have := h8 (by omega)
        rw [hdown data j1 hpv] at this
        simpa using this
      have hne : i1 ≠ j1 := by
        intro he
        rw [he, huj] at hui
        exact absurd hui (by simp)
      have hsw : Shuffle i (j + 1) data (swap data i1 j1) :=
        Shuffle.shuffle_swap _ _ data _ _ (by omega) (by omega) (by omega)
      have hpv1 : el (swap data i1 j1) a = pv := by
        rw [hsw.2.1 a (by omega)]
        exact hpv
      obtain ⟨q1, q2, q3, q4, q5, q6⟩ := ih (i1 + 1) (j1 - 1) (swap data i1 j1) (by omega)
        (by omega) (by rw [length_swap]; omega) (by omega) hpv1
      have he : j1 - 1 + 1 = j1 := by omega
      rw [he] at q1 q4
      refine ⟨hsw.shuffle_trans (q1.mono (by omega) (by omega)), q2, by omega, by omega, ?_, ?_⟩
      · intro k hk1 hk2
        by_cases hki : k ≤ i1
        · rw [q1.2.1 k (by omega), el_swap _ _ _ _ (by omega) (by omega)]
          by_cases hke : k = i1
          · rw [if_neg (by omega), if_pos hke]
            exact huj
          · rw [if_neg (by omega), if_neg hke]
            exact hupd k hk1 (by omega)
        · exact q5 k (by omega) hk2
      · intro k hk1 hk2
        by_cases hkj : j1 ≤ k
        · rw [q1.2.1 k (by omega), el_swap _ _ _ _ (by omega) (by omega)]
          by_cases hke : k = j1
          · rw [if_pos hke]
            exact hui
          · rw [if_neg hke, if_neg (by omega)]
            exact hdnd k (by omega) hk2
        · exact q6 k hk1 (by omega)

/-- The last exchange of `partitionCmpFunc`: once the elements less than the pivot
`data[a]` fill `data[a+1 : j+1]` and the others `data[j+1 : b]`, the pivot is exchanged
with `data[j]`. -/
theorem partition_finish (a b j : Nat) (d : List E) (hk : Keyed cmp key d)
    (haj : a ≤ j) (hjb : j < b) (hb : b ≤ d.length)
    (h1 : ∀ k, a + 1 ≤ k → k < j + 1 → cmp (el d k) (el d a) < 0)
    (h2 : ∀ k, j < k → k < b → ¬ cmp (el d k) (el d a) < 0) :
    (∀ k, a ≤ k → k < j → key (el (swap d j a) k) < key (el (swap d j a) j)) ∧
      ∀ k, j < k → k < b → key (el (swap d j a) j) ≤ key (el (swap d j a) k) := by
  have hj : el (swap d j a) j = el d a := by
    rw [el_swap _ _ _ _ (by omega) (by omega)]
    split
    · rename_i he
      rw [he]
    · rw [if_pos rfl]
  constructor
  · intro k hk1 hk2
    rw [hj, el_swap _ _ _ _ (by omega) (by omega)]
    by_cases hka : k = a
    · rw [if_pos hka]
      exact (hk _ _ (by omega) (by omega)).mp (h1 j (by omega) (by omega))
    · rw [if_neg hka, if_neg (by omega)]
      exact (hk _ _ (by omega) (by omega)).mp (h1 k (by omega) (by omega))
  · intro k hk1 hk2
    rw [hj, el_swap _ _ _ _ (by omega) (by omega), if_neg (by omega), if_neg (by omega)]
    have := h2 k hk1 hk2
    rw [hk _ _ (by omega) (by omega)] at this
    exact not_lt.mp this

end SortingPartition

section SortingPartition2

variable {E : Type} [Inhabited E] {K : Type} [LinearOrder K]
  (cmp : E → E → Int) (key : E → K)

/-- Function `partitionCmpFunc` rearranges `data[a:b]` so that the elements before the new
pivot index are less than the element there, and those after it are not. -/
theorem partitionCmpFunc_spec (data : List E) (a b pivot : Nat) (hk : Keyed cmp key data)
    (hab : a < b) (hb : b ≤ data.length) (hp : a ≤ pivot ∧ pivot < b) :
    Shuffle a b data (partitionCmpFunc cmp data a b pivot).1 ∧
      a ≤ (partitionCmpFunc cmp data a b pivot).2.1 ∧
      (partitionCmpFunc cmp data a b pivot).2.1 < b ∧
      (∀ k, a ≤ k → k < (partitionCmpFunc cmp data a b pivot).2.1 →
        key (el (partitionCmpFunc cmp data a b pivot).1 k)
          < key (el (partitionCmpFunc cmp data a b pivot).1
              (partitionCmpFunc cmp data a b pivot).2.1)) ∧
      (∀ k, (partitionCmpFunc cmp data a b pivot).2.1 < k → k < b →
        key (el (partitionCmpFunc cmp data a b pivot).1
            (partitionCmpFunc cmp data a b pivot).2.1)
          ≤ key (el (partitionCmpFunc cmp data a b pivot).1 k)) := by
  have h0 : Shuffle a b data (swap data a pivot) :=
    Shuffle.shuffle_swap a b data _ _ (by omega) hp hb
  have hk0 : Keyed cmp key (swap data a pivot) := hk.keyed_shuffle h0 hb
  unfold partitionCmpFunc
  dsimp only
  generalize swap data a pivot = d0 at h0 hk0 ⊢
  have hlen : d0.length = data.length := h0.1
  have s1 := scanUp_ge (fun i => decide (cmp (el d0 i) (el d0 a) < 0))
    (b - 1 + 1 - (a + 1)) (a + 1)
  have s2 := scanUp_le (fun i => decide (cmp (el d0 i) (el d0 a) < 0))
    (b - 1 + 1 - (a + 1)) (a + 1)
  have s3 := scanUp_passed (fun i => decide (cmp (el d0 i) (el d0 a) < 0))
    (b - 1 + 1 - (a + 1)) (a + 1)
  have s4 := scanUp_stop (fun i => decide (cmp (el d0 i) (el d0 a) < 0))
    (b - 1 + 1 - (a + 1)) (a + 1)
  generalize scanUp (fun i => decide (cmp (el d0 i) (el d0 a) < 0))
    (b - 1 + 1 - (a + 1)) (a + 1) = i1 at s1 s2 s3 s4 ⊢
  have s5 := scanDown_le (fun j => !decide (cmp (el d0 j) (el d0 a) < 0))
    (b - 1 + 1 - i1) (b - 1)
  have s6 := scanDown_ge (fun j => !decide (cmp (el d0 j) (el d0 a) < 0))
    (b - 1 + 1 - i1) (b - 1)
  have s7 := scanDown_passed (fun j => !decide (cmp (el d0 j) (el d0 a) < 0))
    (b - 1 + 1 - i1) (b - 1)
  have s8 := scanDown_stop (fun j => !decide (cmp (el d0 j) (el d0 a) < 0))
    (b - 1 + 1 - i1) (b - 1) (by omega)
  generalize scanDown (fun j => !decide (cmp (el d0 j) (el d0 a) < 0))
    (b - 1 + 1 - i1) (b - 1) = j1 at s5 s6 s7 s8 ⊢
  have hup0 : ∀ k, a + 1 ≤ k → k < i1 → cmp (el d0 k) (el d0 a) < 0 := by
    intro k hk1 hk2
    simpa using s3 k hk1 hk2
  have hdn0 : ∀ k, j1 < k → k < b → ¬ cmp (el d0 k) (el d0 a) < 0 := by
    intro k hk1 hk2
    simpa using s7 k hk1 (by omega)
  split
  · dsimp only
    have hf := partition_finish cmp key a b j1 d0 hk0 (by omega) (by omega) (by omega)
      (fun k hk1 hk2 => hup0 k hk1 (by omega)) hdn0
    exact ⟨h0.shuffle_trans (Shuffle.shuffle_swap a b d0 _ _ (by omega) (by omega) (by omega)), by omega,
      by omega, hf.1, hf.2⟩
  · rename_i hle
    have hui : ¬ cmp (el d0 i1) (el d0 a) < 0 := by
      simpa using s4 (by omega)
    have huj : cmp (el d0 j1) (el d0 a) < 0 := by
      simpa using s8 (by omega)
    have hne : i1 ≠ j1 := by
      intro he
      rw [he] at hui
      exact hui huj
    have hsw : Shuffle a b d0 (swap d0 i1 j1) :=
      Shuffle.shuffle_swap a b d0 _ _ (by omega) (by omega) (by omega)
    have hpv1 : el (swap d0 i1 j1) a = el d0 a := by
      rw [el_swap _ _ _ _ (by omega) (by omega), if_neg (by omega), if_neg (by omega)]
    obtain ⟨q1, q2, q3, q4, q5, q6⟩ := partitionLoop_split
      (fun d i => decide (cmp (el d i) (el d a) < 0))
      (fun d j => !decide (cmp (el d j) (el d a) < 0))
      (fun x => decide (cmp x (el d0 a) < 0)) a (el d0 a)
      (fun d k h => by simp only [h]) (fun d k h => by simp only [h])
      (b - a) (i1 + 1) (j1 - 1) (swap d0 i1 j1) (by omega) (by omega)
      (by rw [length_swap]; omega) (by omega) hpv1
    generalize partitionLoop (fun d i => decide (cmp (el d i) (el d a) < 0))
      (fun d j => !decide (cmp (el d j) (el d a) < 0)) (b - a) (i1 + 1) (j1 - 1)
      (swap d0 i1 j1) = r at q1 q2 q3 q4 q5 q6 ⊢
    have he : j1 - 1 + 1 = j1 := by omega
    rw [he] at q1 q4
    dsimp only
    have q1' : Shuffle a b (swap d0 i1 j1) r.2.2 := q1.mono (by omega) (by omega)
    have hall : Shuffle a b d0 r.2.2 := hsw.shuffle_trans q1'
    have hk2 : Keyed cmp key r.2.2 := hk0.keyed_shuffle hall (by omega)
    have hpv2 : el r.2.2 a = el d0 a := by
      rw [q1.2.1 a (by omega)]
      exact hpv1
    have hup2 : ∀ k, a + 1 ≤ k → k < r.2.1 + 1 → cmp (el r.2.2 k) (el r.2.2 a) < 0 := by
      intro k hk1 hk2'
      rw [hpv2]
      by_cases hki : k ≤ i1
      · rw [q1.2.1 k (by omega), el_swap _ _ _ _ (by omega) (by omega)]
        by_cases hke : k = i1
        · rw [if_neg (by omega), if_pos hke]
          exact huj
        · rw [if_neg (by omega), if_neg hke]
          exact hup0 k hk1 (by omega)
      · simpa using q5 k (by omega) (by omega)
    have hdn2 : ∀ k, r.2.1 < k → k < b → ¬ cmp (el r.2.2 k) (el r.2.2 a) < 0 := by
      intro k hk1 hk2'
      rw [hpv2]
      by_cases hkj : j1 ≤ k
      · rw [q1.2.1 k (by omega), el_swap _ _ _ _ (by omega) (by omega)]
        by_cases hke : k = j1
        · rw [if_pos hke]
          exact hui
        · rw [if_neg hke, if_neg (by omega)]
          exact hdn0 k (by omega) hk2'
      · simpa using q6 k hk1 (by omega)
    have hf := partition_finish cmp key a b r.2.1 r.2.2 hk2 (by omega) (by omega)
      (by rw [hall.1]; omega) hup2 hdn2
    exact ⟨(h0.shuffle_trans hall).shuffle_trans (Shuffle.shuffle_swap a b r.2.2 _ _ (by omega) (by omega)
      (by rw [hall.1]; omega)), by omega, by omega, hf.1, hf.2⟩

/-- Function `partitionEqualCmpFunc` rearranges `data[a:b]` so that the elements that
are not greater than the pivot come first, up to the index it returns, and the
elements greater than the pivot follow. -/
theorem partitionEqualCmpFunc_spec (data : List E) (a b pivot : Nat)
    (hk : Keyed cmp key data) (hab : a < b) (hb : b ≤ data.length)
    (hp : a ≤ pivot ∧ pivot < b) :
    Shuffle a b data (partitionEqualCmpFunc cmp data a b pivot).1 ∧
      a < (partitionEqualCmpFunc cmp data a b pivot).2 ∧
      (partitionEqualCmpFunc cmp data a b pivot).2 ≤ b ∧
      (∀ k, a ≤ k → k < (partitionEqualCmpFunc cmp data a b pivot).2 →
        key (el (partitionEqualCmpFunc cmp data a b pivot).1 k) ≤ key (el data pivot)) ∧
      (∀ k, (partitionEqualCmpFunc cmp data a b pivot).2 ≤ k → k < b →
        key (el data pivot) < key (el (partitionEqualCmpFunc cmp data a b pivot).1 k)) := by
  have h0 : Shuffle a b data (swap data a pivot) :=
    Shuffle.shuffle_swap a b data _ _ (by omega) hp hb
  have hk0 : Keyed cmp key (swap data a pivot) := hk.keyed_shuffle h0 hb
  have hpv0 : el (swap data a pivot) a = el data pivot := by
    rw [el_swap _ _ _ _ (by omega) (by omega)]
    split
    · rename_i he
      rw [← he]
    · rw [if_pos rfl]
  unfold partitionEqualCmpFunc
  dsimp only
  generalize swap data a pivot = d0 at h0 hk0 hpv0 ⊢
  obtain ⟨q1, q2, q3, q4, q5, q6⟩ := partitionLoop_split
    (fun d i => !decide (cmp (el d a) (el d i) < 0))
    (fun d j => decide (cmp (el d a) (el d j) < 0))
    (fun x => !decide (cmp (el data pivot) x < 0)) a (el data pivot)
    (fun d k h => by simp only [h]) (fun d k h => by simp only [h, Bool.not_not])
    (b - a) (a + 1) (b - 1) d0 (by omega) (by omega) (by rw [h0.1]; omega) (by omega) hpv0
  generalize partitionLoop (fun d i => !decide (cmp (el d a) (el d i) < 0))
    (fun d j => decide (cmp (el d a) (el d j) < 0)) (b - a) (a + 1) (b - 1) d0 = r
    at q1 q2 q3 q4 q5 q6 ⊢
  have he : b - 1 + 1 = b := by omega
  rw [he] at q1 q4
  have q1' : Shuffle a b d0 r.2.2 := q1.mono (by omega) (le_refl _)
  have hall : Shuffle a b data r.2.2 := h0.shuffle_trans q1'
  have hk2 : Keyed cmp key r.2.2 := hk.keyed_shuffle hall hb
  have hpv2 : el r.2.2 a = el data pivot := by
    rw [q1.2.1 a (by omega)]
    exact hpv0
  refine ⟨hall, by omega, by omega, ?_, ?_⟩
  · intro k hk1 hk2'
    by_cases hka : k = a
    · rw [hka, hpv2]
    · have := q5 k (by omega) hk2'
      simp only [Bool.not_eq_true', decide_eq_false_iff_not] at this
      rw [← hpv2, hk2 _ _ (by rw [hall.1]; omega) (by rw [hall.1]; omega)] at this
      rw [← hpv2]
      exact not_lt.mp this
  · intro k hk1 hk2'
    have := q6 k (by omega) (by omega)
    simp only [Bool.not_eq_false', decide_eq_true_eq] at this
    rw [← hpv2, hk2 _ _ (by rw [hall.1]; omega) (by rw [hall.1]; omega)] at this
    rw [← hpv2]
    exact this

end SortingPartition2

section SortingMain

variable {E : Type} [Inhabited E] {K : Type} [LinearOrder K]
  (cmp : E → E → Int) (key : E → K)

omit [Inhabited E] in
theorem LowerBounded.sub {key : E → K} [Inhabited E] {data : List E} {a b b' : Nat}
    (h : LowerBounded key data a b) (hb : b' ≤ b) : LowerBounded key data a b' :=
  fun h0 k hk1 hk2 => h h0 k hk1 (by omega)

theorem pdqsortPrepare_spec (data : List E) (a b limit : Nat)
    (wasBalanced wasPartitioned : Bool) (hk : Keyed cmp key data) (hlen : 12 < b - a)
    (hb : b ≤ data.length) (hlb : LowerBounded key data a b) :
    Shuffle a b data (pdqsortPrepare cmp data a b limit wasBalanced wasPartitioned).1 ∧
      a ≤ (pdqsortPrepare cmp data a b limit wasBalanced wasPartitioned).2.2.1 ∧
      (pdqsortPrepare cmp data a b limit wasBalanced wasPartitioned).2.2.1 < b ∧
      ((pdqsortPrepare cmp data a b limit wasBalanced wasPartitioned).2.1 = true →
        SortedOn key (pdqsortPrepare cmp data a b limit wasBalanced wasPartitioned).1 a b) := by
  unfold pdqsortPrepare
  dsimp only
  generalize hd1 : (if wasBalanced = true then data else breakPatternsCmpFunc data a b) = d1
  have r1 : Shuffle a b data d1 := by
    rw [← hd1]
    split
    · exact Shuffle.shuffle_refl _ _ _
    · exact breakPatternsCmpFunc_shuffle data a b (by omega) hb
  have hpr := choosePivotCmpFunc_range cmp d1 a b (by omega)
  generalize choosePivotCmpFunc cmp d1 a b = ph at hpr
  generalize hd2 : (if decide (ph.2 = sortedHint.decreasingHint) = true
    then reverseRangeCmpFunc d1 a b else d1) = d2
  have r2 : Shuffle a b d1 d2 := by
    rw [← hd2]
    split
    · exact reverseRangeCmpFunc_shuffle d1 a b (by omega) (by rw [r1.1]; exact hb)
    · exact Shuffle.shuffle_refl _ _ _
  generalize hpv : (if decide (ph.2 = sortedHint.decreasingHint) = true
    then b - 1 - (ph.1 - a) else ph.1) = pivot
  have hpivot : a ≤ pivot ∧ pivot < b := by
    rw [← hpv]
    split <;> omega
  generalize (if decide (ph.2 = sortedHint.decreasingHint) = true
    then sortedHint.increasingHint else ph.2) = hint
  have r12 : Shuffle a b data d2 := r1.shuffle_trans r2
  split
  · obtain ⟨q1, q2⟩ := partialInsertionSortCmpFunc_sorted cmp key d2 a b (hk.keyed_shuffle r12 hb)
      (by omega) (by rw [r12.1]; exact hb) (hlb.bounded_shuffle r12)
    exact ⟨r12.shuffle_trans q1, hpivot.1, hpivot.2, q2⟩
  · exact ⟨r12, hpivot.1, hpivot.2, fun h => by simp at h⟩

/-- A range is sorted when it is sorted before and after an index, holds only elements
at most the one at this index before it, and only elements at least this one after. -/
theorem SortedOn.join (data : List E) (a mid b : Nat) (hm : a ≤ mid ∧ mid < b)
    (sL : SortedOn key data a mid) (sR : SortedOn key data (mid + 1) b)
    (pL : ∀ k, a ≤ k → k < mid → key (el data k) ≤ key (el data mid))
    (pR : ∀ k, mid < k → k < b → key (el data mid) ≤ key (el data k)) :
    SortedOn key data a b := by
  intro i j hi hij hj
  by_cases h1 : j < mid
  · exact sL i j hi hij h1
  · by_cases h2 : mid < i
    · exact sR i j (by omega) hij hj
    · by_cases h3 : i = mid
      · rw [h3]
        by_cases h4 : j = mid
        · rw [h4]
        · exact pR j (by omega) hj
      · by_cases h4 : j = mid
        · rw [h4]
          exact pL i hi (by omega)
        · exact le_trans (pL i hi (by omega)) (pR j (by omega) hj)

end SortingMain

section SortingMain2

variable {E : Type} [Inhabited E] {K : Type} [LinearOrder K]
  (cmp : E → E → Int) (key : E → K)

/-- Function `pdqsortCmpFunc` returns, with fuel above the length of the range, with the
range sorted in ascending order of a key that `cmp` follows. -/
theorem pdqsortCmpFunc_sorted (fuel : Nat) (data : List E) (a b limit : Nat)
    (wasBalanced wasPartitioned : Bool) (hk : Keyed cmp key data)
    (hfuel : b - a < fuel) (hab : a ≤ b) (hb : b ≤ data.length)
    (hlb : LowerBounded key data a b) :
    ∃ data', pdqsortCmpFunc cmp fuel data a b limit wasBalanced wasPartitioned = some data' ∧
      Shuffle a b data data' ∧ SortedOn key data' a b := by
  induction fuel generalizing data a b limit wasBalanced wasPartitioned with
  | zero => omega
  | succ fuel ih =>
    unfold pdqsortCmpFunc
    dsimp only
    split
    · obtain ⟨h1, h2⟩ := insertionSortCmpFunc_sorted cmp key data a b hk hb
      exact ⟨_, rfl, h1, h2⟩
    · rename_i hlen
      split
      · obtain ⟨h1, h2⟩ := heapSortCmpFunc_sorted cmp key data a b hk hab hb
        exact ⟨_, rfl, h1, h2⟩
      · obtain ⟨r0, hp1, hp2, hps⟩ := pdqsortPrepare_spec cmp key data a b limit wasBalanced
          wasPartitioned hk (by omega) hb hlb
        generalize pdqsortPrepare cmp data a b limit wasBalanced wasPartitioned = pre
          at r0 hp1 hp2 hps ⊢
        have hb0 : b ≤ pre.1.length := by rw [r0.1]; exact hb
        have hk0 : Keyed cmp key pre.1 := hk.keyed_shuffle r0 hb
        have hlb0 : LowerBounded key pre.1 a b := hlb.bounded_shuffle r0
        split
        · rename_i hsorted
          exact ⟨_, rfl, r0, hps hsorted⟩
        · split
          · rename_i hcond
            obtain ⟨ha0, hnl⟩ := hcond
            rw [hk0 _ _ (by omega) (by omega)] at hnl
            have hmin : ∀ k, a ≤ k → k < b → key (el pre.1 pre.2.2.1) ≤ key (el pre.1 k) :=
              fun k hk1 hk2 => le_trans (not_lt.mp hnl) (hlb0 ha0 k hk1 hk2)
            obtain ⟨q1, q2, q3, q4, q5⟩ := partitionEqualCmpFunc_spec cmp key pre.1 a b
              pre.2.2.1 hk0 (by omega) hb0 ⟨hp1, hp2⟩
            generalize partitionEqualCmpFunc cmp pre.1 a b pre.2.2.1 = pe at q1 q2 q3 q4 q5 ⊢
            have hkq : Keyed cmp key pe.1 := hk0.keyed_shuffle q1 hb0
            have hlbq : LowerBounded key pe.1 pe.2 b := by
              intro _ k hk1 hk2
              exact le_trans (q4 (pe.2 - 1) (by omega) (by omega)) (le_of_lt (q5 k hk1 hk2))
            obtain ⟨d', hd', sd', od'⟩ := ih pe.1 pe.2 b pre.2.2.2 wasBalanced wasPartitioned
              hkq (by omega) q3 (by rw [q1.1]; exact hb0) hlbq
            refine ⟨d', hd', (r0.shuffle_trans q1).shuffle_trans (sd'.mono (by omega) (le_refl _)), ?_⟩
            intro i j hi hij hj
            by_cases hjm : j < pe.2
            · rw [sd'.2.1 i (by omega), sd'.2.1 j (by omega)]
              obtain ⟨j', hj1, hj2, hje⟩ := q1.2.2 j (by omega) hj
              exact le_trans (q4 i hi (by omega)) (by rw [hje]; exact hmin j' hj1 hj2)
            · by_cases him : i < pe.2
              · rw [sd'.2.1 i (by omega)]
                obtain ⟨j', hj1, hj2, hje⟩ := sd'.2.2 j (by omega) hj
                rw [hje]
                exact le_trans (q4 i hi him) (le_of_lt (q5 j' hj1 hj2))
              · exact od' i j (by omega) hij hj
          · obtain ⟨q1, q2, q3, q4, q5⟩ := partitionCmpFunc_spec cmp key pre.1 a b
              pre.2.2.1 hk0 (by omega) hb0 ⟨hp1, hp2⟩
            generalize partitionCmpFunc cmp pre.1 a b pre.2.2.1 = pt at q1 q2 q3 q4 q5 ⊢
            have hkq : Keyed cmp key pt.1 := hk0.keyed_shuffle q1 hb0
            have hbq : b ≤ pt.1.length := by rw [q1.1]; exact hb0
            have hlbq : LowerBounded key pt.1 a b := hlb0.bounded_shuffle q1
            have r01 : Shuffle a b data pt.1 := r0.shuffle_trans q1
            split
            · obtain ⟨d', hd', sd', od'⟩ := ih pt.1 a pt.2.1 pre.2.2.2 true true hkq
                (by omega) q2 (by omega) (hlbq.sub (by omega))
              rw [hd']
              dsimp only
              have hlb' : LowerBounded key d' (pt.2.1 + 1) b := by
                intro _ k hk1 hk2
                rw [Nat.add_sub_cancel, sd'.2.1 pt.2.1 (by omega), sd'.2.1 k (by omega)]
                exact q5 k (by omega) hk2
              obtain ⟨d'', hd'', sd'', od''⟩ := ih d' (pt.2.1 + 1) b pre.2.2.2
                (decide (pt.2.1 - a ≥ (b - a) / 8)) pt.2.2
                (hkq.keyed_shuffle sd' (by omega)) (by omega) (by omega)
                (by rw [sd'.1]; exact hbq) hlb'
              refine ⟨d'', hd'', (r01.shuffle_trans (sd'.mono (le_refl _) (by omega))).shuffle_trans
                (sd''.mono (by omega) (le_refl _)), ?_⟩
              have hmid : el d'' pt.2.1 = el pt.1 pt.2.1 := by
                rw [sd''.2.1 _ (by omega), sd'.2.1 _ (by omega)]
              apply SortedOn.join key d'' a pt.2.1 b ⟨q2, q3⟩
              · exact SortedOn.congr key d' d'' a pt.2.1 od'
                  (fun k _ hk2 => sd''.2.1 k (by omega))
              · exact od''
              · intro k hk1 hk2
                rw [hmid, sd''.2.1 k (by omega)]
                obtain ⟨k', hk1', hk2', he⟩ := sd'.2.2 k hk1 hk2
                rw [he]
                exact le_of_lt (q4 k' hk1' hk2')
              · intro k hk1 hk2
                rw [hmid]
                obtain ⟨k', hk1', hk2', he⟩ := sd''.2.2 k (by omega) hk2
                rw [he, sd'.2.1 k' (by omega)]
                exact q5 k' (by omega) hk2'
            · have hlb' : LowerBounded key pt.1 (pt.2.1 + 1) b := by
                intro _ k hk1 hk2
                rw [Nat.add_sub_cancel]
                exact q5 k (by omega) hk2
              obtain ⟨d', hd', sd', od'⟩ := ih pt.1 (pt.2.1 + 1) b pre.2.2.2 true true hkq
                (by omega) (by omega) hbq hlb'
              rw [hd']
              dsimp only
              have hlb'' : LowerBounded key d' a pt.2.1 := by
                intro h0 k hk1 hk2
                rw [sd'.2.1 (a - 1) (by omega), sd'.2.1 k (by omega)]
                exact hlbq h0 k hk1 (by omega)
              obtain ⟨d'', hd'', sd'', od''⟩ := ih d' a pt.2.1 pre.2.2.2
                (decide (b - pt.2.1 ≥ (b - a) / 8)) pt.2.2
                (hkq.keyed_shuffle sd' hbq) (by omega) q2 (by rw [sd'.1]; omega) hlb''
              refine ⟨d'', hd'', (r01.shuffle_trans (sd'.mono (by omega) (le_refl _))).shuffle_trans
                (sd''.mono (le_refl _) (by omega)), ?_⟩
              have hmid : el d'' pt.2.1 = el pt.1 pt.2.1 := by
                rw [sd''.2.1 _ (by omega), sd'.2.1 _ (by omega)]
              apply SortedOn.join key d'' a pt.2.1 b ⟨q2, q3⟩
              · exact od''
              · exact SortedOn.congr key d' d'' (pt.2.1 + 1) b od'
                  (fun k hk1 _ => sd''.2.1 k (by omega))
              · intro k hk1 hk2
                rw [hmid]
                obtain ⟨k', hk1', hk2', he⟩ := sd''.2.2 k hk1 hk2
                rw [he, sd'.2.1 k' (by omega)]
                exact le_of_lt (q4 k' hk1' hk2')
              · intro k hk1 hk2
                rw [hmid, sd''.2.1 k (by omega)]
                obtain ⟨k', hk1', hk2', he⟩ := sd'.2.2 k (by omega) hk2
                rw [he]
                exact q5 k' (by omega) hk2'

/-- Function `slices.SortFunc` returns the slice rearranged in ascending order of a key
that `cmp` follows on its elements. -/
theorem SortFunc_sorted (x : List E) (hk : Keyed cmp key x) :
    (SortFunc x cmp).Perm x ∧ SortedOn key (SortFunc x cmp) 0 x.length := by
  refine ⟨(SortFunc_rearr x cmp).2, ?_⟩
  obtain ⟨d, hd, _, od⟩ := pdqsortCmpFunc_sorted cmp key (x.length + 1) x 0 x.length
    (bitsLen x.length) true true hk (by omega) (Nat.zero_le _) (le_refl _)
    (fun h => by omega)
  unfold SortFunc
  rw [hd]
  exact od

end SortingMain2

theorem keyed_cmpEstimate (data : List Estimate)
    (h : ∀ e ∈ data, e.ReceiveAmount.isNaN = false) : Keyed cmpEstimate amountKey data := by
  intro i j hi hj
  have h1 := h _ (el_mem data i hi)
  have h2 := h _ (el_mem data j hj)
  rw [cmpEstimate_neg, F64.lt_iff_val _ _ h2 h1]
  exact Iff.rfl

theorem el_eq_getElem {E : Type} [Inhabited E] (data : List E) (i : Nat)
    (h : i < data.length) : el data i = data[i] := by
  unfold el
  exact List.getD_eq_getElem _ _ h

/-- C1. For quotes whose amounts are not NaN (the float64 values that are numbers, as
decoded from the reply), the list returned by `populateEstimates` is in descending
order of `ReceiveAmount`: every quote has an amount `>=` that of every quote after it,
so after a quote of amount `0` no quote has a positive amount. -/
theorem populateEstimates_sorted (estimates : List Estimate) (coin1 coin2 : String)
    (amount : F64) (network1 network2 : String) (coin2USDPrice : F64)
    (hnum : ∀ e ∈ estimates, e.ReceiveAmount.isNaN = false) :
    List.Pairwise
      (fun x y => F64.ge x.ReceiveAmount y.ReceiveAmount = true ∧
        (F64.eq x.ReceiveAmount F64.zero = true → F64.gt y.ReceiveAmount F64.zero = false))
      (populateEstimates estimates coin1 coin2 amount network1 network2 coin2USDPrice) := by
  have hst : ∀ e ∈ estimates.map (stamp coin1 coin2 amount network1 network2 coin2USDPrice),
      e.ReceiveAmount.isNaN = false := by
    intro e he
    obtain ⟨e0, he0, rfl⟩ := List.mem_map.mp he
    exact hnum e0 he0
  obtain ⟨hperm, hsorted⟩ := SortFunc_sorted cmpEstimate amountKey _
    (keyed_cmpEstimate _ hst)
  have hlen := hperm.length_eq
  unfold populateEstimates
  rw [List.pairwise_iff_getElem]
  intro i j hi hj hij
  have hxi := hst _ ((List.Perm.mem_iff hperm).mp (List.getElem_mem hi))
  have hxj := hst _ ((List.Perm.mem_iff hperm).mp (List.getElem_mem hj))
  have hle := hsorted i j (Nat.zero_le _) (le_of_lt hij) (by rw [← hlen]; exact hj)
  rw [el_eq_getElem _ i hi, el_eq_getElem _ j hj] at hle
  have hval : F64.val (SortFunc (estimates.map
      (stamp coin1 coin2 amount network1 network2 coin2USDPrice)) cmpEstimate)[j].ReceiveAmount
      ≤ F64.val (SortFunc (estimates.map
      (stamp coin1 coin2 amount network1 network2 coin2USDPrice)) cmpEstimate)[i].ReceiveAmount :=
    hle
  refine ⟨(F64.ge_iff_val _ _ hxi hxj).mpr hval, ?_⟩
  intro hz
  rw [F64.eq_iff_val _ F64.zero hxi rfl] at hz
  rw [hz] at hval
  by_contra hgt
  have hgt' : F64.gt (SortFunc (estimates.map
      (stamp coin1 coin2 amount network1 network2 coin2USDPrice)) cmpEstimate)[j].ReceiveAmount
      F64.zero = true := by simpa using hgt
  unfold F64.gt at hgt'
  rw [F64.lt_iff_val F64.zero _ rfl hxj] at hgt'
  exact absurd hgt' (not_lt.mpr hval)

theorem populateEstimates_sorted_witness :
    (∀ e ∈ threeQuotes, e.ReceiveAmount.isNaN = false) ∧
      List.Pairwise
        (fun x y => F64.ge x.ReceiveAmount y.ReceiveAmount = true ∧
          (F64.eq x.ReceiveAmount F64.zero = true → F64.gt y.ReceiveAmount F64.zero = false))
        (populateEstimates threeQuotes "btc" "eth" F64.one "btc" "eth" F64.one) :=
  ⟨by decide, populateEstimates_sorted threeQuotes "btc" "eth" F64.one "btc" "eth" F64.one
    (by decide)⟩

/-- With a NaN amount among the quotes the order fails: `populateEstimates` leaves
`[1.0, NaN, 2.0]` as it is. -/
theorem populateEstimates_nan_order :
    (populateEstimates
        [quote "A" (F64.fin false 4503599627370496 (-52)), quote "B" F64.nan,
          quote "C" (F64.fin false 4503599627370496 (-51))]
        "btc" "eth" F64.one "btc" "eth" F64.one).map (fun e => e.ExchangeName)
      = ["A", "B", "C"] := by
  decide

end CypherGoat
